import Mathlib

/-! # Cachegrind, `cachegrind/cg_main.c`

A shallow embedding of the attribution and accounting code of Cachegrind:
the CC table (file / function / line hash chains), the instr-info table of
translated basic blocks, the four cache-access logging helpers, the cache
configuration check and the report writer.

Conventions of the embedding.

* A linked chain (`next` pointers ending in `NULL`) is a `List`, head first.
* A fixed-size array of chains is a function from the index to the chain; every
  access is guarded by the array bound, and an index outside the array is
  undefined behaviour in C, rendered as `Fatal.undefined`.
* `ULong` counters are natural numbers reduced modulo `2 ^ 64` after every
  addition; `Int` values are integers.
* A `lineCC*` held by an instruction record is the address `calloc` returned for
  the leaf, kept in the field `ptr` of the leaf; `NULL` is `none`.
* `tl_assert` failing, `VG_(exit)` and undefined behaviour do not return: the
  functions that can reach them return `Except Fatal`.
-/

set_option autoImplicit false

namespace Cachegrind

/-! ## Constants and basic types -/

def MIN_LINE_SIZE : Int := 16

def N_FILE_ENTRIES : Nat := 251

def N_FN_ENTRIES : Nat := 53

def N_LINE_ENTRIES : Nat := 37

/-- The ways in which a call does not return to its caller. -/
inductive Fatal where
  /-- A `tl_assert` whose condition is false. -/
  | assertion
  /-- A call of `VG_(exit)` with the given status. -/
  | exit (status : Int)
  /-- Undefined behaviour: an array index outside the array, or a dereference
  of a pointer that does not point to a live object. -/
  | undefined
  /-- A call of `VG_(bad_option)`, which does not return. -/
  | bad_option
  /-- A division by zero. -/
  | division_by_zero
  deriving DecidableEq, Repr

/-- A C string: the `Char` values in front of the terminating NUL, each as the
integer it is promoted to when read through `*s`. -/
abbrev CString := List Int

/-- The type `Addr` of guest addresses. -/
abbrev Addr := Nat

/-- The string literal `"???"`. -/
def unknown_name : CString := [63, 63, 63]

/-- Addition of two `ULong` values. -/
def ULong_add (x y : Nat) : Nat := (x + y) % 2 ^ 64

/-- The struct `CC`: accesses, level-1 misses, level-2 misses. -/
structure CC where
  a : Nat
  m1 : Nat
  m2 : Nat
  deriving DecidableEq, Repr

/-- A `CC` as `calloc` leaves it. -/
def CC.zero : CC := ⟨0, 0, 0⟩

/-- The struct `lineCC`, without its `next` field (the chain is the list that
holds the node). `ptr` is the address of the node. -/
structure lineCC where
  ptr : Nat
  line : Int
  Ir : CC
  Dr : CC
  Dw : CC
  deriving DecidableEq, Repr

/-- The struct `fnCC`: `lines` is the array `lines[N_LINE_ENTRIES]` of chains. -/
structure fnCC where
  fn : CString
  lines : Nat → List lineCC

/-- The struct `fileCC`: `fns` is the array `fns[N_FN_ENTRIES]` of chains. -/
structure fileCC where
  file : CString
  fns : Nat → List fnCC

/-- The struct `instr_info`. `instr_size` and `data_size` are `UChar`. -/
structure instr_info where
  instr_addr : Addr
  instr_size : Nat
  data_size : Nat
  parent : Option Nat
  deriving DecidableEq, Repr

/-- An `instr_info` as `calloc` leaves it. -/
def instr_info.zero : instr_info := ⟨0, 0, 0, none⟩

/-- The struct `BB_info`, without its `next` field; `instrs` is the trailing
array `instrs[0]`, allocated with `n_instrs` elements. -/
structure BB_info where
  BB_addr : Addr
  n_instrs : Int
  instrs : List instr_info
  deriving DecidableEq, Repr

/-- Modelled from the spec: the core hash table `VgHashTable` (its code,
`VG_(HT_construct)`, `VG_(HT_get_node)` and `VG_(HT_add_node)`, is not in the
excerpt). A table keyed by the address of a block; it is kept as the chain of
its nodes, most recently added first. -/
abbrev VgHashTable := List BB_info

/-- The file-scope variables of `cg_main.c`, and the state `sim` of the cache
simulator of `cg_sim.c`. `heap_next` is the address the next `calloc` of a
`lineCC` returns. -/
structure State (σ : Type) where
  CC_table : Nat → List fileCC
  heap_next : Nat
  instr_info_table : VgHashTable
  distinct_files : Int
  distinct_fns : Int
  distinct_lines : Int
  distinct_instrs : Int
  full_debug_BBs : Int
  file_line_debug_BBs : Int
  fn_debug_BBs : Int
  no_debug_BBs : Int
  BB_retranslations : Int
  Ir_total : CC
  Dr_total : CC
  Dw_total : CC
  sim : σ

/-- The state at program start: every file-scope variable is zero, the CC table
has no node and the instr-info table is as `VG_(HT_construct)` returns it. -/
def State.init {σ : Type} (sim : σ) : State σ where
  CC_table := fun _ => []
  heap_next := 0
  instr_info_table := []
  distinct_files := 0
  distinct_fns := 0
  distinct_lines := 0
  distinct_instrs := 0
  full_debug_BBs := 0
  file_line_debug_BBs := 0
  fn_debug_BBs := 0
  no_debug_BBs := 0
  BB_retranslations := 0
  Ir_total := CC.zero
  Dr_total := CC.zero
  Dw_total := CC.zero
  sim := sim

/-! ## The debug-info provider -/

/-- The two queries of the debug-info provider. `get_filename_linenum` is
`some (file, line)` when `VG_(get_filename_linenum)` returns `True` and has
filled `file` and `line`; `get_fnname` is `some fn` when `VG_(get_fnname)`
returns `True`. -/
structure DebugInfo where
  get_filename_linenum : Addr → Option (CString × Int)
  get_fnname : Addr → Option CString

/-- The values `get_debug_info` leaves in `file`, `fn` and `line`. -/
def debug_triple (dbg : DebugInfo) (instr_addr : Addr) : CString × CString × Int :=
  let found_file_line := dbg.get_filename_linenum instr_addr
  let found_fn := dbg.get_fnname instr_addr
  let file := match found_file_line with
    | some fl => fl.1
    | none => unknown_name
  let line := match found_file_line with
    | some fl => fl.2
    | none => 0
  let fn := match found_fn with
    | some f => f
    | none => unknown_name
  (file, fn, line)

/-- The function `get_debug_info`: the triple it produces and the state with the
debug-facet counter of the call incremented. -/
def get_debug_info {σ : Type} (dbg : DebugInfo) (instr_addr : Addr) (s : State σ) :
    (CString × CString × Int) × State σ :=
  let found_file_line := (dbg.get_filename_linenum instr_addr).isSome
  let found_fn := (dbg.get_fnname instr_addr).isSome
  let s1 :=
    if found_file_line then
      if found_fn then { s with full_debug_BBs := s.full_debug_BBs + 1 }
      else { s with file_line_debug_BBs := s.file_line_debug_BBs + 1 }
    else
      if found_fn then { s with fn_debug_BBs := s.fn_debug_BBs + 1 }
      else { s with no_debug_BBs := s.no_debug_BBs + 1 }
  (debug_triple dbg instr_addr, s1)

/-! ## CC table operations -/

/-- Conversion of a value in `0 .. 2^32 - 1` to `int`. -/
def to_int32 (x : Int) : Int := if x < 2 ^ 31 then x else x - 2 ^ 32

/-- The function `hash`. `hash_constant * hash_value + *s` is an `int`, converted
to `unsigned` for the `%` with the `UInt` `table_size`; the result is stored in
the `int` `hash_value` and converted to `UInt` on return. -/
def hash (s : CString) (table_size : Nat) : Nat :=
  let hash_constant : Int := 256
  let hash_value : Int :=
    s.foldl (fun hash_value c =>
      to_int32 (((hash_constant * hash_value + c) % 2 ^ 32) % (table_size : Int))) 0
  (hash_value % 2 ^ 32).toNat

/-- The bucket index `line % N_LINE_ENTRIES` of `get_lineCC`: the `%` of two
`int`s truncates towards zero, and its result is converted to `UInt`. -/
def line_hash_of (line : Int) : Nat :=
  ((Int.tmod line (N_LINE_ENTRIES : Int)) % 2 ^ 32).toNat

/-- The function `new_fileCC` (the `next` argument is the tail of the chain the
node is put in front of). -/
def new_fileCC (filename : CString) : fileCC := ⟨filename, fun _ => []⟩

/-- The function `new_fnCC`. -/
def new_fnCC (fn : CString) : fnCC := ⟨fn, fun _ => []⟩

/-- The function `new_lineCC`, for a node that `calloc` places at `ptr`. -/
def new_lineCC (ptr : Nat) (line : Int) : lineCC := ⟨ptr, line, CC.zero, CC.zero, CC.zero⟩

/-- The store through a pointer to the node a chain walk stopped at: the first
node satisfying `p` is replaced by its new contents. -/
def replaceFirst {α : Type} (p : α → Bool) (c : α) : List α → List α
  | [] => []
  | x :: xs => if p x then c :: xs else x :: replaceFirst p c xs

/-- One level of `get_lineCC`. The walk
`while (NULL != curr && !match) curr = curr->next;` over `chain` stops at the
first node satisfying `p`, or at `NULL`, in which case `fresh` is put in front of
the chain. `k` is the rest of `get_lineCC`, run on the node the walk ended on; it
returns its result and the new contents of that node. The result is the result of
`k`, the chain afterwards, and whether a node was created. -/
def chain_level {α β : Type} (p : α → Bool) (fresh : α)
    (k : α → Except Fatal (β × α)) (chain : List α) : Except Fatal (β × List α × Bool) :=
  match chain.find? p with
  | some curr =>
    match k curr with
    | .ok (b, curr1) => .ok (b, replaceFirst p curr1 chain, false)
    | .error e => .error e
  | none =>
    match k fresh with
    | .ok (b, curr1) => .ok (b, curr1 :: chain, true)
    | .error e => .error e

/-- Level 3 of `get_lineCC`, on the function node `curr_fnCC`: the address of the
leaf for `line` and whether it was created, with the new contents of the
function node. -/
def get_lineCC_level3 (line : Int) (heap_next : Nat) (curr_fnCC : fnCC) :
    Except Fatal ((Nat × Bool) × fnCC) :=
  let line_hash := line_hash_of line
  if line_hash < N_LINE_ENTRIES then
    match chain_level (fun c => decide (line = c.line)) (new_lineCC heap_next line)
        (fun curr_lineCC => .ok (curr_lineCC.ptr, curr_lineCC)) (curr_fnCC.lines line_hash) with
    | .ok (ptr, chain, created) =>
      .ok ((ptr, created), { curr_fnCC with lines := Function.update curr_fnCC.lines line_hash chain })
    | .error e => .error e
  else .error Fatal.undefined

/-- Level 2 of `get_lineCC`, on the file node `curr_fileCC`, followed by level 3:
the leaf address, whether a leaf was created and whether a function node was
created, with the new contents of the file node. -/
def get_lineCC_level2 (fn : CString) (line : Int) (heap_next : Nat) (curr_fileCC : fileCC) :
    Except Fatal ((Nat × Bool × Bool) × fileCC) :=
  let fn_hash := hash fn N_FN_ENTRIES
  if fn_hash < N_FN_ENTRIES then
    match chain_level (fun c => decide (fn = c.fn)) (new_fnCC fn)
        (get_lineCC_level3 line heap_next) (curr_fileCC.fns fn_hash) with
    | .ok ((ptr, new_line), chain, created) =>
      .ok ((ptr, new_line, created),
        { curr_fileCC with fns := Function.update curr_fileCC.fns fn_hash chain })
    | .error e => .error e
  else .error Fatal.undefined

/-- Adds one to a statistics counter when a node was created. -/
def bump (created : Bool) (n : Int) : Int := if created then n + 1 else n

/-- The function `get_lineCC`: the three step traversal by file, then function,
then line, creating the nodes that are missing. Returns the address of the leaf
(the `lineCC*`) and the state afterwards. -/
def get_lineCC {σ : Type} (dbg : DebugInfo) (orig_addr : Addr) (s : State σ) :
    Except Fatal (Nat × State σ) :=
  match get_debug_info dbg orig_addr s with
  | ((file, fn, line), s1) =>
    let file_hash := hash file N_FILE_ENTRIES
    if file_hash < N_FILE_ENTRIES then
      match chain_level (fun c => decide (file = c.file)) (new_fileCC file)
          (get_lineCC_level2 fn line s1.heap_next) (s1.CC_table file_hash) with
      | .ok ((ptr, new_line, new_fn), chain, new_file) =>
        .ok (ptr,
          { s1 with
            CC_table := Function.update s1.CC_table file_hash chain
            heap_next := if new_line then s1.heap_next + 1 else s1.heap_next
            distinct_files := bump new_file s1.distinct_files
            distinct_fns := bump new_fn s1.distinct_fns
            distinct_lines := bump new_line s1.distinct_lines })
      | .error e => .error e
    else .error Fatal.undefined

/-- A sequence of `get_lineCC` calls, each with the provider as it answers at
that call: the leaves returned, in order, and the final state. -/
def get_lineCC_seq {σ : Type} : List (DebugInfo × Addr) → State σ → Except Fatal (List Nat × State σ)
  | [], s => .ok ([], s)
  | (dbg, a) :: rest, s =>
    match get_lineCC dbg a s with
    | .ok (p, s1) =>
      match get_lineCC_seq rest s1 with
      | .ok (ps, s2) => .ok (p :: ps, s2)
      | .error e => .error e
    | .error e => .error e

/-! ## Predicates on the CC table -/

/-- The function node `g` holds, in one of its chains, a leaf for `line` whose
address is `p`. -/
def fnCC.has_leaf (g : fnCC) (line : Int) (p : Nat) : Prop :=
  ∃ k l, l ∈ g.lines k ∧ l.line = line ∧ l.ptr = p

/-- The file node `f` holds a function node named `fn` holding a leaf for `line`
at address `p`. -/
def fileCC.has_leaf (f : fileCC) (fn : CString) (line : Int) (p : Nat) : Prop :=
  ∃ j g, g ∈ f.fns j ∧ g.fn = fn ∧ g.has_leaf line p

/-- The table holds a leaf at address `p` under the file node `file`, the
function node `fn` and the line number `line`. -/
def has_leaf (T : Nat → List fileCC) (file fn : CString) (line : Int) (p : Nat) : Prop :=
  ∃ i f, f ∈ T i ∧ f.file = file ∧ f.has_leaf fn line p

/-- In every chain of `lines[]` the line numbers are pairwise different, and
every leaf is in the chain `line % N_LINE_ENTRIES`. -/
def fnCC.wf (g : fnCC) : Prop :=
  ∀ k, ((g.lines k).map lineCC.line).Nodup ∧ ∀ l ∈ g.lines k, line_hash_of l.line = k

/-- In every chain of `fns[]` the function names are pairwise different, and
every function node is in the chain its name hashes to and is well formed. -/
def fileCC.wf (f : fileCC) : Prop :=
  ∀ j, ((f.fns j).map fnCC.fn).Nodup ∧
    ∀ g ∈ f.fns j, hash g.fn N_FN_ENTRIES = j ∧ g.wf

/-- In every chain of `CC_table` the file names are pairwise different, and every
file node is in the chain its name hashes to and is well formed. -/
def table_wf (T : Nat → List fileCC) : Prop :=
  ∀ i, ((T i).map fileCC.file).Nodup ∧
    ∀ f ∈ T i, hash f.file N_FILE_ENTRIES = i ∧ f.wf

/-- The invariant of the CC table: it is well formed, every leaf lies below the
allocation pointer, and an address belongs to one (file, function, line) only. -/
def cc_inv {σ : Type} (s : State σ) : Prop :=
  table_wf s.CC_table ∧
  (∀ file fn line p, has_leaf s.CC_table file fn line p → p < s.heap_next) ∧
  (∀ file fn line file1 fn1 line1 p, has_leaf s.CC_table file fn line p →
    has_leaf s.CC_table file1 fn1 line1 p → file = file1 ∧ fn = fn1 ∧ line = line1)

/-- The states reachable by `get_lineCC` calls from a state whose CC table has
no node. -/
inductive Reachable {σ : Type} : State σ → Prop where
  | empty (s : State σ) (h : ∀ i, s.CC_table i = []) : Reachable s
  | step (s s1 : State σ) (dbg : DebugInfo) (a : Addr) (p : Nat)
      (hs : Reachable s) (h : get_lineCC dbg a s = .ok (p, s1)) : Reachable s1

/-! ## Cache simulation functions -/

/-- The leaves of a function node, in the order of the arrays and chains:
`lines[0]`, ..., `lines[N_LINE_ENTRIES - 1]`, each chain from its head. -/
def fnCC.leaves (g : fnCC) : List lineCC :=
  (List.range N_LINE_ENTRIES).flatMap g.lines

/-- The leaves of a file node: `fns[0]`, ..., `fns[N_FN_ENTRIES - 1]`, each chain
from its head, each function node's leaves in order. -/
def fileCC.leaves (f : fileCC) : List lineCC :=
  (List.range N_FN_ENTRIES).flatMap (fun j => (f.fns j).flatMap fnCC.leaves)

/-- The leaves of the CC table: `CC_table[0]`, ..., `CC_table[N_FILE_ENTRIES - 1]`,
each chain from its head, each file node's leaves in order. -/
def all_leaves (T : Nat → List fileCC) : List lineCC :=
  (List.range N_FILE_ENTRIES).flatMap (fun i => (T i).flatMap fileCC.leaves)

/-- A store through the `lineCC*` `p` as seen from one leaf: the leaf at address
`p` gets the contents `f` computes, every other leaf keeps its contents. -/
def lineCC.store (p : Nat) (f : lineCC → lineCC) (l : lineCC) : lineCC :=
  if l.ptr = p then f l else l

def fnCC.store (p : Nat) (f : lineCC → lineCC) (g : fnCC) : fnCC :=
  { g with lines := fun k => (g.lines k).map (lineCC.store p f) }

def fileCC.store (p : Nat) (f : lineCC → lineCC) (fl : fileCC) : fileCC :=
  { fl with fns := fun j => (fl.fns j).map (fnCC.store p f) }

/-- The CC table after a store through the `lineCC*` `p`. -/
def table_store (p : Nat) (f : lineCC → lineCC) (T : Nat → List fileCC) : Nat → List fileCC :=
  fun i => (T i).map (fileCC.store p f)

/-- The update of the leaf `n->parent` by `f`. Undefined when `n->parent` is
`NULL` or is not the address of a leaf of the CC table. -/
def with_parent {σ : Type} (n : instr_info) (f : lineCC → lineCC) (s : State σ) :
    Except Fatal (State σ) :=
  match n.parent with
  | none => .error Fatal.undefined
  | some p =>
    if p ∈ (all_leaves s.CC_table).map lineCC.ptr then
      .ok { s with CC_table := table_store p f s.CC_table }
    else .error Fatal.undefined

/-- The simulator functions `cachesim_I1_doref` and `cachesim_D1_doref` of
`cg_sim.c`, which is not in the excerpt, taken as a parameter. They are called
with an address, a size and pointers `m1`, `m2` to two miss counters:
`I1_doref st a size` is the simulator state after the reference and the amounts
added to `*m1` and to `*m2`. -/
structure CacheSim (σ : Type) where
  I1_doref : σ → Addr → Nat → σ × Nat × Nat
  D1_doref : σ → Addr → Nat → σ × Nat × Nat

/-- The effect on one `CC` of `cachesim_X_doref(.., &cc.m1, &cc.m2); cc.a++;`
when the simulator adds `d1` and `d2` to the miss counters. -/
def CC.ref (c : CC) (d1 d2 : Nat) : CC :=
  let c1 : CC := { c with m1 := ULong_add c.m1 d1, m2 := ULong_add c.m2 d2 }
  { c1 with a := ULong_add c1.a 1 }

/-- The function `log_1I_0D_cache_access`. -/
def log_1I_0D_cache_access {σ : Type} (cs : CacheSim σ) (n : instr_info) (s : State σ) :
    Except Fatal (State σ) :=
  -- cachesim_I1_doref(n->instr_addr, n->instr_size, &n->parent->Ir.m1, &n->parent->Ir.m2);
  let i := cs.I1_doref s.sim n.instr_addr n.instr_size
  -- n->parent->Ir.a++;
  with_parent n (fun L => { L with Ir := L.Ir.ref i.2.1 i.2.2 }) { s with sim := i.1 }

/-- The function `log_1I_1Dr_cache_access`. -/
def log_1I_1Dr_cache_access {σ : Type} (cs : CacheSim σ) (n : instr_info) (data_addr : Addr)
    (s : State σ) : Except Fatal (State σ) :=
  let i := cs.I1_doref s.sim n.instr_addr n.instr_size
  -- cachesim_D1_doref(data_addr, n->data_size, &n->parent->Dr.m1, &n->parent->Dr.m2);
  let d := cs.D1_doref i.1 data_addr n.data_size
  with_parent n (fun L => { L with Ir := L.Ir.ref i.2.1 i.2.2, Dr := L.Dr.ref d.2.1 d.2.2 })
    { s with sim := d.1 }

/-- The function `log_1I_1Dw_cache_access`. -/
def log_1I_1Dw_cache_access {σ : Type} (cs : CacheSim σ) (n : instr_info) (data_addr : Addr)
    (s : State σ) : Except Fatal (State σ) :=
  let i := cs.I1_doref s.sim n.instr_addr n.instr_size
  -- cachesim_D1_doref(data_addr, n->data_size, &n->parent->Dw.m1, &n->parent->Dw.m2);
  let d := cs.D1_doref i.1 data_addr n.data_size
  with_parent n (fun L => { L with Ir := L.Ir.ref i.2.1 i.2.2, Dw := L.Dw.ref d.2.1 d.2.2 })
    { s with sim := d.1 }

/-- The function `log_1I_2D_cache_access`. -/
def log_1I_2D_cache_access {σ : Type} (cs : CacheSim σ) (n : instr_info)
    (data_addr1 data_addr2 : Addr) (s : State σ) : Except Fatal (State σ) :=
  let i := cs.I1_doref s.sim n.instr_addr n.instr_size
  -- the read at data_addr1 goes to Dr, then the write at data_addr2 goes to Dw
  let r := cs.D1_doref i.1 data_addr1 n.data_size
  let w := cs.D1_doref r.1 data_addr2 n.data_size
  with_parent n
    (fun L => { L with Ir := L.Ir.ref i.2.1 i.2.2, Dr := L.Dr.ref r.2.1 r.2.2,
                       Dw := L.Dw.ref w.2.1 w.2.2 })
    { s with sim := w.1 }

/-- One call of an accounting helper, with its arguments. -/
inductive AccessCall where
  | c_1I_0D (n : instr_info)
  | c_1I_1Dr (n : instr_info) (data_addr : Addr)
  | c_1I_1Dw (n : instr_info) (data_addr : Addr)
  | c_1I_2D (n : instr_info) (data_addr1 data_addr2 : Addr)
  deriving DecidableEq, Repr

/-- The instruction record a call is made on. -/
def AccessCall.record : AccessCall → instr_info
  | .c_1I_0D n => n
  | .c_1I_1Dr n _ => n
  | .c_1I_1Dw n _ => n
  | .c_1I_2D n _ _ => n

/-- Whether the call is one that logs a data read (`1I_1Dr` or `1I_2D`). -/
def AccessCall.reads : AccessCall → Bool
  | .c_1I_1Dr _ _ => true
  | .c_1I_2D _ _ _ => true
  | _ => false

/-- Whether the call is one that logs a data write (`1I_1Dw` or `1I_2D`). -/
def AccessCall.writes : AccessCall → Bool
  | .c_1I_1Dw _ _ => true
  | .c_1I_2D _ _ _ => true
  | _ => false

/-- Runs the helper of a call. -/
def AccessCall.run {σ : Type} (cs : CacheSim σ) : AccessCall → State σ → Except Fatal (State σ)
  | .c_1I_0D n, s => log_1I_0D_cache_access cs n s
  | .c_1I_1Dr n a, s => log_1I_1Dr_cache_access cs n a s
  | .c_1I_1Dw n a, s => log_1I_1Dw_cache_access cs n a s
  | .c_1I_2D n a1 a2, s => log_1I_2D_cache_access cs n a1 a2 s

/-- Runs a sequence of accounting calls, first call first. -/
def run_calls {σ : Type} (cs : CacheSim σ) : List AccessCall → State σ → Except Fatal (State σ)
  | [], s => .ok s
  | c :: rest, s =>
    match c.run cs s with
    | .ok s1 => run_calls cs rest s1
    | .error e => .error e

/-- The nine counters of a leaf, in the order of the report. -/
def lineCC.counters (L : lineCC) : List Nat :=
  [L.Ir.a, L.Ir.m1, L.Ir.m2, L.Dr.a, L.Dr.m1, L.Dr.m2, L.Dw.a, L.Dw.m1, L.Dw.m2]

/-- The number of calls in `calls`, among those satisfying `sel`, that are made
on a record whose parent is the leaf at address `p`. -/
def calls_on (sel : AccessCall → Bool) (p : Nat) (calls : List AccessCall) : Nat :=
  (calls.filter (fun c => sel c && decide (c.record.parent = some p))).length

/-- The assumption on the simulator that a reference adds 0 or 1 to each of the
two miss counters it is given. -/
def CacheSim.adds_at_most_one {σ : Type} (cs : CacheSim σ) : Prop :=
  ∀ st a size,
    (cs.I1_doref st a size).2.1 ≤ 1 ∧ (cs.I1_doref st a size).2.2 ≤ 1 ∧
    (cs.D1_doref st a size).2.1 ≤ 1 ∧ (cs.D1_doref st a size).2.2 ≤ 1

/-- The contents `L1` of a leaf after `calls` were run, against its contents `L`
before: same address and line, every counter at least what it was and at most
that plus the number of calls, and the three access counters advanced by the
number of calls made on the records of the leaf (all calls for `Ir.a`, the
reading ones for `Dr.a`, the writing ones for `Dw.a`). -/
def leaf_after (calls : List AccessCall) (L L1 : lineCC) : Prop :=
  L1.ptr = L.ptr ∧ L1.line = L.line ∧
  L1.Ir.a = L.Ir.a + calls_on (fun _ => true) L.ptr calls ∧
  L1.Dr.a = L.Dr.a + calls_on AccessCall.reads L.ptr calls ∧
  L1.Dw.a = L.Dw.a + calls_on AccessCall.writes L.ptr calls ∧
  List.Forall₂ (fun x y => x ≤ y ∧ y ≤ x + calls.length) L.counters L1.counters

/-! ## The report -/

/-- One line of the output file. The numbers of a `record` and of the `summary`
are the values printed, in the order of the format string. -/
inductive ReportLine where
  /-- The three lines `desc: I1 cache: ...`, `desc: D1 cache: ...`, `desc: L2 cache: ...`. -/
  | desc (I1 D1 L2 : CString)
  /-- The line `cmd:` followed by the client arguments, each after a space. -/
  | cmd (argv : List CString)
  /-- The line `events: Ir I1mr I2mr Dr D1mr D2mr Dw D1mw D2mw`. -/
  | events
  /-- The line `fl=` followed by a file name. -/
  | fl (file : CString)
  /-- The line `fn=` followed by a function name. -/
  | fn (fn : CString)
  /-- The line of a leaf: the line number printed with `%u`, then the nine counters. -/
  | record (line : Nat) (counters : List Nat)
  /-- The line `summary:` followed by the nine totals. -/
  | summary (totals : List Nat)
  deriving DecidableEq, Repr

/-- What `fprint_CC_table_and_calc_totals` gets from outside `cg_main.c`: the
descriptor `fd` that `VG_(open)` returns for `cachegrind_out_file`, the
`desc_line` of the three caches, and the client's arguments. -/
structure ReportEnv where
  fd : Int
  I1_desc : CString
  D1_desc : CString
  L2_desc : CString
  client_argv : List CString

/-- The function `fprint_lineCC`: writes the line of the leaf `n` and adds its
nine counters to the totals. `acc` is what was written to the file so far, with
the state. -/
def fprint_lineCC {σ : Type} (n : lineCC) (acc : List ReportLine × State σ) :
    List ReportLine × State σ :=
  let out := acc.1
  let s := acc.2
  (out ++ [ReportLine.record (n.line % 2 ^ 32).toNat
      [n.Ir.a, n.Ir.m1, n.Ir.m2, n.Dr.a, n.Dr.m1, n.Dr.m2, n.Dw.a, n.Dw.m1, n.Dw.m2]],
    { s with
      Ir_total := ⟨ULong_add s.Ir_total.a n.Ir.a, ULong_add s.Ir_total.m1 n.Ir.m1,
        ULong_add s.Ir_total.m2 n.Ir.m2⟩
      Dr_total := ⟨ULong_add s.Dr_total.a n.Dr.a, ULong_add s.Dr_total.m1 n.Dr.m1,
        ULong_add s.Dr_total.m2 n.Dr.m2⟩
      Dw_total := ⟨ULong_add s.Dw_total.a n.Dw.a, ULong_add s.Dw_total.m1 n.Dw.m1,
        ULong_add s.Dw_total.m2 n.Dw.m2⟩ })

/-- The two innermost loops of `fprint_CC_table_and_calc_totals`, for one function
node: the `fn=` line, then `lines[0]`, ..., `lines[N_LINE_ENTRIES - 1]`, each
chain from its head. -/
def fprint_fnCC {σ : Type} (curr_fnCC : fnCC) (acc : List ReportLine × State σ) :
    List ReportLine × State σ :=
  (List.range N_LINE_ENTRIES).foldl
    (fun acc k => (curr_fnCC.lines k).foldl (fun acc curr_lineCC => fprint_lineCC curr_lineCC acc) acc)
    (acc.1 ++ [ReportLine.fn curr_fnCC.fn], acc.2)

/-- The loops of `fprint_CC_table_and_calc_totals` for one file node: the `fl=`
line, then `fns[0]`, ..., `fns[N_FN_ENTRIES - 1]`, each chain from its head. -/
def fprint_fileCC {σ : Type} (curr_fileCC : fileCC) (acc : List ReportLine × State σ) :
    List ReportLine × State σ :=
  (List.range N_FN_ENTRIES).foldl
    (fun acc j => (curr_fileCC.fns j).foldl (fun acc curr_fnCC => fprint_fnCC curr_fnCC acc) acc)
    (acc.1 ++ [ReportLine.fl curr_fileCC.file], acc.2)

/-- The six loops of `fprint_CC_table_and_calc_totals`. -/
def fprint_table {σ : Type} (acc : List ReportLine × State σ) : List ReportLine × State σ :=
  (List.range N_FILE_ENTRIES).foldl
    (fun acc i =>
      (acc.2.CC_table i).foldl (fun acc curr_fileCC => fprint_fileCC curr_fileCC acc) acc)
    acc

/-- The function `fprint_CC_table_and_calc_totals`: the lines written to the
output file (`none` when the file could not be opened) and the state afterwards. -/
def fprint_CC_table_and_calc_totals {σ : Type} (env : ReportEnv) (s : State σ) :
    Option (List ReportLine) × State σ :=
  if env.fd < 0 then
    -- file_err(); return;
    (none, s)
  else
    match fprint_table
        ([ReportLine.desc env.I1_desc env.D1_desc env.L2_desc,
          ReportLine.cmd env.client_argv, ReportLine.events], s) with
    | (out, s1) =>
      (some (out ++ [ReportLine.summary
          [s1.Ir_total.a, s1.Ir_total.m1, s1.Ir_total.m2,
           s1.Dr_total.a, s1.Dr_total.m1, s1.Dr_total.m2,
           s1.Dw_total.a, s1.Dw_total.m1, s1.Dw_total.m2]]), s1)

/-- The counters of the per-line records among the lines `out`, in order. -/
def record_fields (out : List ReportLine) : List (List Nat) :=
  out.filterMap (fun l => match l with
    | ReportLine.record _ counters => some counters
    | _ => none)

/-- The sum of field `i` over rows of numbers. -/
def column_sum (i : Nat) (rows : List (List Nat)) : Nat :=
  (rows.map (fun r => r.getD i 0)).sum

/-- The traversal went from `a` to `b` by writing the records of the leaves `ls`
(and lines that are not records): the CC table is the same, the records written
are those of `ls` in order, and the total read by `get` had `f` of every leaf
of `ls` added to it in turn. -/
def emitted {σ : Type} (get : State σ → Nat) (f : lineCC → Nat) (ls : List lineCC)
    (a b : List ReportLine × State σ) : Prop :=
  b.2.CC_table = a.2.CC_table ∧
  record_fields b.1 = record_fields a.1 ++ ls.map lineCC.counters ∧
  get b.2 = ls.foldl (fun t n => ULong_add t (f n)) (get a.2)

/-! ## Cache configuration -/

/-- The struct `cache_t` (declared in `cg_arch.h`, not in the excerpt): the three
`int` fields that `cg_main.c` reads and prints with `%d`. -/
structure cache_t where
  size : Int
  assoc : Int
  line_size : Int
  deriving DecidableEq, Repr

/-- The values of the type `Int`: 32-bit signed integers. -/
def is_Int (x : Int) : Prop := -2 ^ 31 ≤ x ∧ x < 2 ^ 31

instance (x : Int) : Decidable (is_Int x) := by
  unfold is_Int
  exact inferInstance

/-- Whether `x` is a positive power of two. -/
def is_pow2 (x : Int) : Prop := ∃ k : Nat, x = 2 ^ k

/-- Modelled from the spec: the core function `VG_(log2)`, whose code is not in
the excerpt. It returns -1 exactly when its `Int` argument is not a positive
power of two, and the exponent otherwise. -/
def VG_log2 (x : Int) : Int :=
  match (List.range 31).find? (fun i => decide ((2 : Int) ^ i = x)) with
  | some i => (i : Int)
  | none => -1

/-- The function `check_cache`, for the function `log2` that `VG_(log2)` computes.
Every failed check prints a message naming the cache and calls `VG_(exit)(1)`; the
messages are not modelled. -/
def check_cache (log2 : Int → Int) (cache : cache_t) : Except Fatal Unit :=
  -- First check they're all powers of two
  if -1 = log2 cache.size then .error (Fatal.exit 1)
  else if -1 = log2 cache.assoc then .error (Fatal.exit 1)
  else if -1 = log2 cache.line_size then .error (Fatal.exit 1)
  -- Then check line size >= 16
  else if cache.line_size < MIN_LINE_SIZE then .error (Fatal.exit 1)
  -- Then check cache size > line size
  else if cache.size ≤ cache.line_size then .error (Fatal.exit 1)
  -- Then check assoc <= (size / line size)
  else if cache.assoc > Int.tdiv cache.size cache.line_size then .error (Fatal.exit 1)
  else .ok ()

/-! ## The instr-info table -/

/-- Modelled from the spec: `VG_(HT_get_node)(table, key, &next_ptr)`. The node of
the table with the key `key` (`NULL`, here `none`, when there is none) and, for
`next_ptr`, the nodes in front of it: the link that `next_ptr` points to is the
one that follows them. -/
def HT_get_node (table : VgHashTable) (key : Addr) : Option BB_info × List BB_info :=
  (table.find? (fun node => decide (node.BB_addr = key)),
   table.takeWhile (fun node => !decide (node.BB_addr = key)))

/-- Modelled from the spec: `VG_(HT_add_node)(table, node)`. -/
def HT_add_node (table : VgHashTable) (node : BB_info) : VgHashTable := node :: table

/-- The store `*prev_next_ptr = bb_info->next`, for the `prev_next_ptr` that
`HT_get_node` returned as `front`: the nodes of `front` are followed by the nodes
that came after the node found. -/
def HT_unlink (table : VgHashTable) (front : List BB_info) : VgHashTable :=
  front ++ (table.drop front.length).tail

/-- The opcodes of UCode that `cg_main.c` names (the type is declared in the
core, not in the excerpt); `OTHER` stands for the remaining ones. -/
inductive Opcode where
  | LOAD | STORE | FPU_R | FPU_W | INCEIP | JMP | OTHER
  deriving DecidableEq, Repr

/-- A `UInstr`, as far as `get_BB_info` reads it. -/
structure UInstr where
  opcode : Opcode
  deriving DecidableEq, Repr

/-- A `UCodeBlock`: its instructions `VG_(get_instr)(cb, 0)`, ...,
`VG_(get_instr)(cb, VG_(get_num_instrs)(cb) - 1)`. -/
abbrev UCodeBlock := List UInstr

/-- The count of x86 instructions that `get_BB_info` makes: it starts at 1 and
goes up by one for every `INCEIP`. -/
def count_instrs (cb_in : UCodeBlock) : Int :=
  cb_in.foldl (fun n_instrs u_in => if Opcode.INCEIP = u_in.opcode then n_instrs + 1 else n_instrs) 1

/-- The function `get_BB_info` (in the source it is inside `#if 0`). Returns the
record, `*bb_seen_before`, and the state afterwards. -/
def get_BB_info {σ : Type} (cb_in : UCodeBlock) (orig_addr : Addr) (s : State σ) :
    Except Fatal ((BB_info × Bool) × State σ) :=
  -- Count number of x86 instrs in BB
  let n_instrs := count_instrs cb_in
  -- Get the BB_info
  match (HT_get_node s.instr_info_table orig_addr).1 with
  | some bb_info =>
    -- BB must have been translated before, but flushed from the TT
    if bb_info.n_instrs = n_instrs then
      .ok ((bb_info, true), { s with BB_retranslations := s.BB_retranslations + 1 })
    else .error Fatal.assertion
  | none =>
    -- BB never translated before
    let bb_info : BB_info :=
      ⟨orig_addr, n_instrs, List.replicate n_instrs.toNat instr_info.zero⟩
    .ok ((bb_info, false),
      { s with
        instr_info_table := HT_add_node s.instr_info_table bb_info
        distinct_instrs := s.distinct_instrs + 1 })

set_option linter.unusedVariables false in
/-- The function `TL_(discard_basic_block_info)`. The argument `size` is only
printed, under `if (0)`. -/
def discard_basic_block_info {σ : Type} (a : Addr) (size : Nat) (s : State σ) :
    Except Fatal (State σ) :=
  match HT_get_node s.instr_info_table a with
  | (none, _) => .error Fatal.assertion
  | (some _, prev_next_ptr) =>
    .ok { s with instr_info_table := HT_unlink s.instr_info_table prev_next_ptr }

/-- The writes into instruction slots that instrumentation makes between two
table operations: any contents of the table with the same records in the same
order, each with its key and its `n_instrs`. -/
def same_blocks (t1 t2 : VgHashTable) : Prop :=
  t1.map (fun b => (b.BB_addr, b.n_instrs)) = t2.map (fun b => (b.BB_addr, b.n_instrs))

/-- The states of the instr-info table that can be reached from the empty table
by `get_BB_info`, by `TL_(discard_basic_block_info)`, and by steps that keep the
records of the table and their keys (writes into slots, everything that does not
touch the table). -/
inductive BlocksReachable {σ : Type} : State σ → Prop where
  | empty (s : State σ) (h : s.instr_info_table = []) : BlocksReachable s
  | translate (s s1 : State σ) (cb : UCodeBlock) (a : Addr) (r : BB_info × Bool)
      (hs : BlocksReachable s) (h : get_BB_info cb a s = .ok (r, s1)) : BlocksReachable s1
  | discard (s s1 : State σ) (a : Addr) (size : Nat)
      (hs : BlocksReachable s) (h : discard_basic_block_info a size s = .ok s1) :
      BlocksReachable s1
  | other (s s1 : State σ) (hs : BlocksReachable s)
      (h : same_blocks s1.instr_info_table s.instr_info_table) : BlocksReachable s1

/-- The function `do_details`. The record `*n` before the call is the argument
`n`; the record after the call is returned with the state. -/
def do_details {σ : Type} (dbg : DebugInfo) (n : instr_info) (bb_seen_before : Bool)
    (instr_addr : Addr) (instr_size data_size : Int) (s : State σ) :
    Except Fatal (instr_info × State σ) :=
  match get_lineCC dbg instr_addr s with
  | .error e => .error e
  | .ok (parent, s1) =>
    if bb_seen_before then
      if ¬ (n.instr_addr = instr_addr) then .error Fatal.assertion
      else if ¬ ((n.instr_size : Int) = instr_size) then .error Fatal.assertion
      else if ¬ ((n.data_size : Int) = data_size) then .error Fatal.assertion
      else .ok (n, s1)
    else
      -- the stores into the `UChar` fields keep the low 8 bits
      .ok ({ instr_addr := instr_addr
             instr_size := (instr_size % 256).toNat
             data_size := (data_size % 256).toNat
             parent := some parent }, s1)

/-! ## Tracing the simulator -/

/-- One reference made to the simulator: the function called, the address and
the size. -/
inductive SimRef where
  | I1 (a : Addr) (size : Nat)
  | D1 (a : Addr) (size : Nat)
  deriving DecidableEq, Repr

/-- The simulator `cs` with a log of the references made to it: every call of
`cachesim_I1_doref` or `cachesim_D1_doref` is written at the end of the log and
passed on to `cs`. -/
def CacheSim.traced {σ : Type} (cs : CacheSim σ) : CacheSim (σ × List SimRef) where
  I1_doref := fun st a size =>
    (((cs.I1_doref st.1 a size).1, st.2 ++ [SimRef.I1 a size]),
      (cs.I1_doref st.1 a size).2.1, (cs.I1_doref st.1 a size).2.2)
  D1_doref := fun st a size =>
    (((cs.D1_doref st.1 a size).1, st.2 ++ [SimRef.D1 a size]),
      (cs.D1_doref st.1 a size).2.1, (cs.D1_doref st.1 a size).2.2)

/-! ## The hash function as the specification words it -/

/-- The value 0..255 of the byte that holds the `Char` value `c`. -/
def byte_of (c : Int) : Nat := (c % 256).toNat

/-- The rolling hash of the specification: starting from `h = 0`, the fold of
`h := (h * 256 + byte) mod table_size` over the bytes, each byte a value 0..255. -/
def hash_spec (bytes : List Nat) (table_size : Nat) : Nat :=
  bytes.foldl (fun h byte => (h * 256 + byte) % table_size) 0

/-! ## How `get_lineCC` leaves a chain -/

/-- One level of `get_lineCC`, seen on the chain it walks for the key `k0`.
Either no node of `chain` has the key, `c` is the node just made (`fresh`) and
`chain1` is `c1`, that node as the lower levels leave it, in front of the nodes
of `chain`; or the walk stops at `c`, the first node with the key, and `chain1`
is `chain` with the same nodes in the same places, `c1` being `c` as the lower
levels leave it. -/
def chain_step {α κ : Type} (key : α → κ) (k0 : κ) (fresh : α) (chain chain1 : List α)
    (c c1 : α) : Prop :=
  ((∀ x ∈ chain, key x ≠ k0) ∧ c = fresh ∧ chain1 = c1 :: chain) ∨
  (∃ front back, chain = front ++ c :: back ∧ (∀ x ∈ front, key x ≠ k0) ∧ key c = k0 ∧
    chain1 = front ++ c1 :: back)

/-! ## The text of the report -/

/-- The line written for a leaf by `fprint_lineCC`. -/
def record_of (n : lineCC) : ReportLine :=
  ReportLine.record (n.line % 2 ^ 32).toNat
    [n.Ir.a, n.Ir.m1, n.Ir.m2, n.Dr.a, n.Dr.m1, n.Dr.m2, n.Dw.a, n.Dw.m1, n.Dw.m2]

/-- The lines that the six loops of `fprint_CC_table_and_calc_totals` write for a
table: for every file node, in the order of `CC_table` and its chains, the `fl=`
line and then, for every function node in the order of `fns` and its chains, the
`fn=` line and then the records of its leaves in the order of `lines` and its
chains. -/
def report_body (T : Nat → List fileCC) : List ReportLine :=
  (List.range N_FILE_ENTRIES).flatMap (fun i => (T i).flatMap (fun curr_fileCC =>
    ReportLine.fl curr_fileCC.file ::
    (List.range N_FN_ENTRIES).flatMap (fun j => (curr_fileCC.fns j).flatMap (fun curr_fnCC =>
      ReportLine.fn curr_fnCC.fn ::
      (List.range N_LINE_ENTRIES).flatMap (fun k => (curr_fnCC.lines k).map record_of)))))

/-- The per-line records among the lines `out`, in order. -/
def record_lines (out : List ReportLine) : List ReportLine :=
  out.filter (fun l => match l with
    | ReportLine.record _ _ => true
    | _ => false)

/-- The traversal went from `a` to `b` by writing the lines `ls`, the CC table
being the same. -/
def wrote {σ : Type} (ls : List ReportLine) (a b : List ReportLine × State σ) : Prop :=
  b.1 = a.1 ++ ls ∧ b.2.CC_table = a.2.CC_table

/-- The characters that `%s` prints for a C string. -/
def c_text (s : CString) : String :=
  String.mk (s.map (fun c => Char.ofNat (byte_of c)))

/-- The digits that `%u` and `%llu` print for a number. -/
def decimal (n : Nat) : String := toString n

/-- The text of the lines of the output file that one `ReportLine` stands for,
each without its newline. -/
def ReportLine.lines : ReportLine → List String
  | .desc I1 D1 L2 =>
    ["desc: I1 cache:         " ++ c_text I1,
     "desc: D1 cache:         " ++ c_text D1,
     "desc: L2 cache:         " ++ c_text L2]
  | .cmd argv => ["cmd:" ++ String.join (argv.map (fun arg => " " ++ c_text arg))]
  | .events => ["events: Ir I1mr I2mr Dr D1mr D2mr Dw D1mw D2mw"]
  | .fl name => ["fl=" ++ c_text name]
  | .fn name => ["fn=" ++ c_text name]
  | .record line counters => [String.intercalate " " (decimal line :: counters.map decimal)]
  | .summary totals => ["summary: " ++ String.intercalate " " (totals.map decimal)]

/-- A leaf is in the arrays of the table: in chain `k` of `lines` of the function
node `g`, which is in chain `j` of `fns` of the file node `f`, which is in chain
`i` of `CC_table`. -/
def leaf_at (T : Nat → List fileCC) (i : Nat) (f : fileCC) (j : Nat) (g : fnCC) (k : Nat)
    (L : lineCC) : Prop :=
  i < N_FILE_ENTRIES ∧ f ∈ T i ∧ j < N_FN_ENTRIES ∧ g ∈ f.fns j ∧
  k < N_LINE_ENTRIES ∧ L ∈ g.lines k

/-- The states in which the report can be written: those reached from a state
whose CC table has no node by `get_lineCC` calls and calls of the four
accounting helpers, with any simulator. -/
inductive Running {σ : Type} : State σ → Prop where
  | empty (s : State σ) (h : ∀ i, s.CC_table i = []) : Running s
  | resolve (s s1 : State σ) (dbg : DebugInfo) (a : Addr) (p : Nat)
      (hs : Running s) (h : get_lineCC dbg a s = .ok (p, s1)) : Running s1
  | access (s s1 : State σ) (cs : CacheSim σ) (c : AccessCall)
      (hs : Running s) (h : c.run cs s = .ok s1) : Running s1

/-! ## The nodes behind the report -/

/-- The file nodes of the CC table in the order in which the two outer loops of
`fprint_CC_table_and_calc_totals` visit them: `CC_table[0]`, ...,
`CC_table[N_FILE_ENTRIES - 1]`, each chain from its head. -/
def file_nodes (T : Nat → List fileCC) : List fileCC :=
  (List.range N_FILE_ENTRIES).flatMap T

/-- The function nodes of a file node in the order in which the loops visit them:
`fns[0]`, ..., `fns[N_FN_ENTRIES - 1]`, each chain from its head. -/
def fileCC.fn_nodes (f : fileCC) : List fnCC :=
  (List.range N_FN_ENTRIES).flatMap f.fns

/-- The lines of the table part of the report, told node by node: for every file
node its `fl=` line, then for every function node of it the `fn=` line followed by
the records of the leaves of that function node. -/
def report_by_nodes (T : Nat → List fileCC) : List ReportLine :=
  (file_nodes T).flatMap (fun f =>
    ReportLine.fl f.file ::
    f.fn_nodes.flatMap (fun g => ReportLine.fn g.fn :: g.leaves.map record_of))

/-- The `fl=` lines among the lines `out`, in order. -/
def fl_lines (out : List ReportLine) : List ReportLine :=
  out.filter (fun l => match l with
    | ReportLine.fl _ => true
    | _ => false)

/-- The `fn=` lines among the lines `out`, in order. -/
def fn_lines (out : List ReportLine) : List ReportLine :=
  out.filter (fun l => match l with
    | ReportLine.fn _ => true
    | _ => false)

/-- The function `file_err`: the two messages it prints. -/
def file_err (cachegrind_out_file : CString) : List String :=
  ["error: can't open cache simulation output file `" ++ c_text cachegrind_out_file ++ "'",
   "       ... so simulation results will be missing."]

/-- The user messages of `fprint_CC_table_and_calc_totals`: those of `file_err`
when the output file could not be opened, none otherwise. -/
def fprint_CC_table_and_calc_totals_messages (cachegrind_out_file : CString)
    (env : ReportEnv) : List String :=
  if env.fd < 0 then file_err cachegrind_out_file else []

/-! ## Command line processing -/

/-- Modelled from the spec: the core function `VG_(isdigit)`, whose code is not in
the excerpt: whether the character is one of `0`, ..., `9`. -/
def VG_isdigit (c : Int) : Bool := decide (48 ≤ c ∧ c ≤ 57)

/-- The loop `while (VG_(isdigit)(opt[i])) i++;` on the bytes that start at
`opt[i]`: the value of `i` after the loop, `none` when the loop reads past the end
of the buffer. -/
def scan_digits : List Int → Nat → Option Nat
  | [], _ => none
  | c :: rest, i => if VG_isdigit c then scan_digits rest (i + 1) else some i

/-- The loop `while (VG_(isdigit)(opt[i])) i++;` on the buffer `opt`, from `i`. -/
def skip_digits (opt : List Int) (i : Nat) : Option Nat := scan_digits (opt.drop i) i

/-- The conversion of a `Long` to a 64-bit two's complement value. -/
def to_int64 (x : Int) : Int := (x + 2 ^ 63) % 2 ^ 64 - 2 ^ 63

/-- The cast `(Int)` of a `Long`: the low 32 bits, as a signed number. -/
def Long_to_Int (x : Int) : Int := to_int32 (x % 2 ^ 32)

/-- The digit loop of `VG_(atoll)`: `n = 10*n + (*str - '0')` while `*str` is a
digit, in 64-bit arithmetic. -/
def atoll_digits : List Int → Int → Int
  | [], n => n
  | c :: rest, n =>
    if VG_isdigit c then atoll_digits rest (to_int64 (10 * n + (c - 48))) else n

/-- Modelled from the spec: the core function `VG_(atoll)`, whose code is not in
the excerpt: the `Long` that the decimal digits at the start of the string
denote, negated after a leading `-`. -/
def VG_atoll (str : List Int) : Int :=
  match str with
  | 45 :: rest => to_int64 (-(atoll_digits rest 0))
  | _ => atoll_digits str 0

/-- The function `parse_cache_opt`, for the function `atoll` that `VG_(atoll)`
computes. `opt` is the buffer that the argument points to, to its end; a pointer
`opt + i` is passed to `atoll` as the bytes from `opt[i]` on. Returns the
contents of `*cache` and of the buffer after the call. `goto bad` ends in
`VG_(bad_option)(opt)`, which does not return. -/
def parse_cache_opt (atoll : List Int → Int) (cache : cache_t) (opt : List Int) :
    Except Fatal (cache_t × List Int) :=
  -- while (VG_(isdigit)(opt[i])) i++;
  match skip_digits opt 0 with
  | none => .error Fatal.undefined
  | some i =>
    -- if (',' == opt[i]) { opt[i++] = '\0'; i2 = i; } else goto bad;
    if opt[i]? = some 44 then
      let opt1 := opt.set i 0
      let i2 := i + 1
      match skip_digits opt1 i2 with
      | none => .error Fatal.undefined
      | some j =>
        -- if (',' == opt[i]) { opt[i++] = '\0'; i3 = i; } else goto bad;
        if opt1[j]? = some 44 then
          let opt2 := opt1.set j 0
          let i3 := j + 1
          match skip_digits opt2 i3 with
          | none => .error Fatal.undefined
          | some k =>
            -- if ('\0' != opt[i]) goto bad;
            if opt2[k]? = some 0 then
              let cache1 : cache_t :=
                { cache with
                  size := Long_to_Int (atoll opt2)
                  assoc := Long_to_Int (atoll (opt2.drop i2))
                  line_size := Long_to_Int (atoll (opt2.drop i3)) }
              -- opt[i2-1] = ','; opt[i3-1] = ',';
              .ok (cache1, (opt2.set (i2 - 1) 44).set (i3 - 1) 44)
            else .error Fatal.bad_option
        else .error Fatal.bad_option
    else .error Fatal.bad_option

/-- Whether every character of a string is a decimal digit. -/
def all_digits (ds : CString) : Prop := ∀ c ∈ ds, VG_isdigit c = true

instance (ds : CString) : Decidable (all_digits ds) := by
  unfold all_digits
  exact inferInstance

/-- The number that a string of decimal digits denotes. -/
def decimal_value (ds : CString) : Nat :=
  ds.foldl (fun n c => 10 * n + (c - 48).toNat) 0

/-! ## Configuring the caches -/

/-- The value `UNDEFINED_CACHE`, which the three command-line triples
`clo_I1_cache`, `clo_D1_cache`, `clo_L2_cache` start with. -/
def UNDEFINED_CACHE : cache_t := ⟨-1, -1, -1⟩

/-- The macro `DEFINED(L)` of `configure_caches`. -/
def DEFINED (L : cache_t) : Bool :=
  decide (-1 ≠ L.size ∨ -1 ≠ L.assoc ∨ -1 ≠ L.line_size)

/-- A triple none of whose fields is the unset value -1: what the specification
calls fully specified. -/
def fully_specified (L : cache_t) : Bool :=
  decide (L.size ≠ -1 ∧ L.assoc ≠ -1 ∧ L.line_size ≠ -1)

/-- The local `n_clos` of `configure_caches` after the three counting
statements. -/
def n_clos (clo_I1_cache clo_D1_cache clo_L2_cache : cache_t) : Int :=
  let n_clos : Int := 0
  let n_clos := if DEFINED clo_I1_cache then n_clos + 1 else n_clos
  let n_clos := if DEFINED clo_D1_cache then n_clos + 1 else n_clos
  let n_clos := if DEFINED clo_L2_cache then n_clos + 1 else n_clos
  n_clos

/-- The three caches `*I1c`, `*D1c`, `*L2c`. -/
structure Caches where
  I1c : cache_t
  D1c : cache_t
  L2c : cache_t
  deriving DecidableEq, Repr

/-- The function `configure_caches`. `VGA_configure_caches` is the architecture's
auto-detection (not in the excerpt), taken as a parameter: from the three caches
as they are at the call and the flag `all_caches_clo_defined` it gives the three
caches as it leaves them. `log2` is the function that `VG_(log2)` computes. The
messages printed when the verbosity is above 1 are not modelled. Returns the
three caches after the call. -/
def configure_caches (VGA_configure_caches : Caches → Bool → Caches) (log2 : Int → Int)
    (clo_I1_cache clo_D1_cache clo_L2_cache : cache_t) (caches : Caches) :
    Except Fatal Caches :=
  -- VGA_(configure_caches)( I1c, D1c, L2c, (3 == n_clos) );
  let c := VGA_configure_caches caches
    (decide (3 = n_clos clo_I1_cache clo_D1_cache clo_L2_cache))
  -- Then replace with any defined on the command line.
  let I1c := if DEFINED clo_I1_cache then clo_I1_cache else c.I1c
  let D1c := if DEFINED clo_D1_cache then clo_D1_cache else c.D1c
  let L2c := if DEFINED clo_L2_cache then clo_L2_cache else c.L2c
  -- Then check values and fix if not acceptable.
  match check_cache log2 I1c with
  | .error e => .error e
  | .ok _ =>
    match check_cache log2 D1c with
    | .error e => .error e
    | .ok _ =>
      match check_cache log2 L2c with
      | .error e => .error e
      | .ok _ => .ok ⟨I1c, D1c, L2c⟩

/-! ## Data sizes -/

/-- The function `is_valid_data_size`. -/
def is_valid_data_size (data_size : Int) : Bool :=
  decide (4 = data_size ∨ 2 = data_size ∨ 1 = data_size ∨
          8 = data_size ∨ 10 = data_size ∨ MIN_LINE_SIZE = data_size)

/-- The statement `if (data_size > MIN_LINE_SIZE) data_size = MIN_LINE_SIZE;` at
the label `instrument_x86_instr` of the UCode instrumenter: the value of
`data_size` after it. -/
def clamp_data_size (data_size : Int) : Int :=
  if data_size > MIN_LINE_SIZE then MIN_LINE_SIZE else data_size

/-! ## The summary printed at exit -/

/-- The product of two `ULong`s. -/
def ULong_mul (x y : Nat) : Nat := (x * y) % 2 ^ 64

/-- The quotient of two `ULong`s; a division by zero does not return. -/
def ULong_div (x y : Nat) : Except Fatal Nat :=
  if y = 0 then .error Fatal.division_by_zero else .ok (x / y)

/-- The loop `while (n > 0) { n = n / 10; w++; }` of `ULong_width`: the value of
`w` after it. The first argument bounds the number of iterations; `n` iterations
are enough, as `n / 10 < n` for `n > 0`. -/
def ULong_width_loop : Nat → Nat → Nat → Nat
  | 0, _, w => w
  | fuel + 1, n, w => if n > 0 then ULong_width_loop fuel (n / 10) (w + 1) else w

/-- The function `ULong_width`. `w` is a `UInt`, so `w - 1` and the sum are taken
modulo `2 ^ 32`. -/
def ULong_width (n : Nat) : Nat :=
  let w := ULong_width_loop n n 0
  -- return w + (w-1)/3;
  (w + ((w + 2 ^ 32 - 1) % 2 ^ 32) / 3) % 2 ^ 32

/-- What `%d` prints for an `Int`. -/
def fmt_d (x : Int) : String :=
  if x < 0 then "-" ++ decimal (-x).toNat else decimal x.toNat

/-- The function `percentify`, for a buffer `buf` of `buf_size` bytes: the string
in `buf` after the call. The last byte written is `buf[len + space]`; a write
outside the buffer is undefined, and so is a division by `ex = 0`. -/
def percentify (n ex field_width : Int) (buf_size : Nat) : Except Fatal String :=
  if ex = 0 then .error Fatal.division_by_zero
  else
    -- VG_(sprintf)(buf, "%d.%d%%", n / ex, n % ex);
    let text := fmt_d (Int.tdiv n ex) ++ "." ++ fmt_d (Int.tmod n ex) ++ "%"
    let len : Int := text.length
    -- space = field_width - len; if (space < 0) space = 0;
    let space := if field_width - len < 0 then 0 else field_width - len
    -- Right justify in field
    if len + space < buf_size then
      .ok (String.mk (List.replicate space.toNat ' ') ++ text)
    else .error Fatal.undefined

/-- A message that `TL_(fini)` hands to `VG_(message)`; how `VG_(message)` lays
a message out is not modelled. -/
inductive Message where
  /-- A line of counts: the label, the field widths put into the format string,
  and the numbers. -/
  | counts (label : String) (widths : List Int) (values : List Nat)
  /-- A line of miss rates: the label and the strings that `percentify` made. -/
  | rates (label : String) (bufs : List String)
  /-- An empty line. -/
  | blank
  /-- A line of the statistics printed when the verbosity is above 1. -/
  | stats (label : String) (values : List Int)
  deriving DecidableEq, Repr

/-- The quotient of two `Int`s; a division by zero does not return. -/
def Int_div (x y : Int) : Except Fatal Int :=
  if y = 0 then .error Fatal.division_by_zero else .ok (Int.tdiv x y)

/-- The function `TL_(fini)`: what was written to the output file, the messages
printed, and the state afterwards. The three buffers `buf1`, `buf2`, `buf3` have
128 bytes each. -/
def TL_fini {σ : Type} (clo_verbosity : Int) (env : ReportEnv) (s0 : State σ) :
    Except Fatal (Option (List ReportLine) × List Message × State σ) :=
  -- fprint_CC_table_and_calc_totals();
  let r := fprint_CC_table_and_calc_totals env s0
  let out := r.1
  let s := r.2
  if clo_verbosity = 0 then .ok (out, [], s)
  else do
    let Ir := s.Ir_total
    let Dr := s.Dr_total
    let Dw := s.Dw_total
    let l1 : Int := ULong_width Ir.a
    let l2 : Int := ULong_width Dr.a
    let l3 : Int := ULong_width Dw.a
    let msgs_I :=
      [Message.counts "I   refs:     " [l1] [Ir.a],
       Message.counts "I1  misses:   " [l1] [Ir.m1],
       Message.counts "L2i misses:   " [l1] [Ir.m2]]
    -- p = 100; if (0 == Ir_total.a) Ir_total.a = 1;
    let Ir_a := if Ir.a = 0 then 1 else Ir.a
    let n ← ULong_div (ULong_mul (ULong_mul Ir.m1 100) 100) Ir_a
    let buf1 ← percentify (Long_to_Int n) 100 (l1 + 1) 128
    let n ← ULong_div (ULong_mul (ULong_mul Ir.m2 100) 100) Ir_a
    let buf1b ← percentify (Long_to_Int n) 100 (l1 + 1) 128
    let msgs_Irate :=
      [Message.rates "I1  miss rate: " [buf1], Message.rates "L2i miss rate: " [buf1b],
       Message.blank]
    -- D cache results.
    let D_a := ULong_add Dr.a Dw.a
    let D_m1 := ULong_add Dr.m1 Dw.m1
    let D_m2 := ULong_add Dr.m2 Dw.m2
    let msgs_D :=
      [Message.counts "D   refs:     " [l1, l2, l3] [D_a, Dr.a, Dw.a],
       Message.counts "D1  misses:   " [l1, l2, l3] [D_m1, Dr.m1, Dw.m1],
       Message.counts "L2d misses:   " [l1, l2, l3] [D_m2, Dr.m2, Dw.m2]]
    -- p = 10;
    -- if (0 == D_total.a) D_total.a = 1; ... Dr_total.a ... Dw_total.a ...
    let D_a := if D_a = 0 then 1 else D_a
    let Dr_a := if Dr.a = 0 then 1 else Dr.a
    let Dw_a := if Dw.a = 0 then 1 else Dw.a
    let n ← ULong_div (ULong_mul (ULong_mul D_m1 100) 10) D_a
    let b1 ← percentify (Long_to_Int n) 10 (l1 + 1) 128
    let n ← ULong_div (ULong_mul (ULong_mul Dr.m1 100) 10) Dr_a
    let b2 ← percentify (Long_to_Int n) 10 (l2 + 1) 128
    let n ← ULong_div (ULong_mul (ULong_mul Dw.m1 100) 10) Dw_a
    let b3 ← percentify (Long_to_Int n) 10 (l3 + 1) 128
    let n ← ULong_div (ULong_mul (ULong_mul D_m2 100) 10) D_a
    let c1 ← percentify (Long_to_Int n) 10 (l1 + 1) 128
    let n ← ULong_div (ULong_mul (ULong_mul Dr.m2 100) 10) Dr_a
    let c2 ← percentify (Long_to_Int n) 10 (l2 + 1) 128
    let n ← ULong_div (ULong_mul (ULong_mul Dw.m2 100) 10) Dw_a
    let c3 ← percentify (Long_to_Int n) 10 (l3 + 1) 128
    let msgs_Drate :=
      [Message.rates "D1  miss rate: " [b1, b2, b3], Message.rates "L2d miss rate: " [c1, c2, c3],
       Message.blank]
    -- L2 overall results
    let L2_total := ULong_add (ULong_add Dr.m1 Dw.m1) Ir.m1
    let L2_total_r := ULong_add Dr.m1 Ir.m1
    let L2_total_w := Dw.m1
    let L2_total_m := ULong_add (ULong_add Dr.m2 Dw.m2) Ir.m2
    let L2_total_mr := ULong_add Dr.m2 Ir.m2
    let L2_total_mw := Dw.m2
    let msgs_L2 :=
      [Message.counts "L2 refs:      " [l1, l2, l3] [L2_total, L2_total_r, L2_total_w],
       Message.counts "L2 misses:    " [l1, l2, l3] [L2_total_m, L2_total_mr, L2_total_mw]]
    let n ← ULong_div (ULong_mul (ULong_mul L2_total_m 100) 10) (ULong_add Ir_a D_a)
    let d1 ← percentify (Long_to_Int n) 10 (l1 + 1) 128
    let n ← ULong_div (ULong_mul (ULong_mul L2_total_mr 100) 10) (ULong_add Ir_a Dr_a)
    let d2 ← percentify (Long_to_Int n) 10 (l2 + 1) 128
    let n ← ULong_div (ULong_mul (ULong_mul L2_total_mw 100) 10) Dw_a
    let d3 ← percentify (Long_to_Int n) 10 (l3 + 1) 128
    let msgs_L2rate := [Message.rates "L2 miss rate:  " [d1, d2, d3]]
    let s1 : State σ :=
      { s with
        Ir_total := { Ir with a := Ir_a }
        Dr_total := { Dr with a := Dr_a }
        Dw_total := { Dw with a := Dw_a } }
    let msgs := msgs_I ++ msgs_Irate ++ msgs_D ++ msgs_Drate ++ msgs_L2 ++ msgs_L2rate
    -- Various stats
    if clo_verbosity > 1 then do
      let BB_lookups := s.full_debug_BBs + s.fn_debug_BBs + s.file_line_debug_BBs + s.no_debug_BBs
      let q1 ← Int_div (s.full_debug_BBs * 100) BB_lookups
      let q2 ← Int_div (s.file_line_debug_BBs * 100) BB_lookups
      let q3 ← Int_div (s.fn_debug_BBs * 100) BB_lookups
      let q4 ← Int_div (s.no_debug_BBs * 100) BB_lookups
      .ok (out, msgs ++
        [Message.blank,
         Message.stats "Distinct files:   " [s.distinct_files],
         Message.stats "Distinct fns:     " [s.distinct_fns],
         Message.stats "Distinct lines:   " [s.distinct_lines],
         Message.stats "Distinct instrs:  " [s.distinct_instrs],
         Message.stats "BB lookups:       " [BB_lookups],
         Message.stats "With full      debug info:" [q1, s.full_debug_BBs],
         Message.stats "With file/line debug info:" [q2, s.file_line_debug_BBs],
         Message.stats "With fn name   debug info:" [q3, s.fn_debug_BBs],
         Message.stats "With no        debug info:" [q4, s.no_debug_BBs],
         Message.stats "BBs Retranslated: " [s.BB_retranslations]], s1)
    else .ok (out, msgs, s1)

/-- The number of decimal digits of `n` (none for 0). -/
def decimal_digits (n : Nat) : Nat := (Nat.digits 10 n).length

/-! ## The live instrumentation entry point -/

set_option linter.unusedVariables false in
/-- The function `TL_(instrument)` as it is compiled (the UCode instrumenter is
inside `#if 0`): the messages printed, the state when the call ends, and the
block returned. `IRBB` is the type of a Vex IR block; the arguments `layout` and
`hWordTy` are not used. -/
def TL_instrument {σ IRBB : Type} (bb_in : IRBB) (s : State σ) :
    List String × State σ × Except Fatal IRBB :=
  -- VG_(message)(Vg_DebugMsg, "Cachegrind is not yet ready to handle Vex IR");
  -- VG_(exit)(1);
  (["Cachegrind is not yet ready to handle Vex IR"], s, .error (Fatal.exit 1))

/-! ## Concrete inputs -/

/-- A provider that knows two addresses of the function `f` of the file `a.c`:
`0x1000` on line 10 and `0x1004` on line 11. -/
def demo_dbg : DebugInfo where
  get_filename_linenum := fun a =>
    if a = 4096 then some ([97, 46, 99], 10)
    else if a = 4100 then some ([97, 46, 99], 11)
    else none
  get_fnname := fun a => if a = 4096 ∨ a = 4100 then some [102] else none

/-- Three calls of `get_lineCC`: line 10, line 11, and line 10 again. -/
def demo_calls : List (DebugInfo × Addr) :=
  [(demo_dbg, 4096), (demo_dbg, 4100), (demo_dbg, 4096)]

/-- The state after `get_lineCC` was called once, for the address `0x1000`, in
the initial state. -/
def demo_state : State Unit :=
  match get_lineCC demo_dbg 4096 (State.init ()) with
  | .ok (_, s) => s
  | .error _ => State.init ()

/-- A simulator without state that reports a level-1 and a level-2 miss for every
reference. -/
def demo_sim : CacheSim Unit where
  I1_doref := fun _ _ _ => ((), 1, 1)
  D1_doref := fun _ _ _ => ((), 1, 1)

/-- The record of the instruction at `0x1000`, attributed to the leaf at address
0 (the leaf of `demo_state`). -/
def demo_instr : instr_info := ⟨4096, 3, 4, some 0⟩

/-- One accounting call on `demo_instr`. -/
def demo_access_pre : List AccessCall := [.c_1I_0D demo_instr]

/-- Two more accounting calls on `demo_instr`. -/
def demo_access_post : List AccessCall :=
  [.c_1I_2D demo_instr 8192 8200, .c_1I_1Dw demo_instr 8192]

/-- A block of three x86 instructions: two end in `INCEIP`, the last in `JMP`. -/
def demo_block : UCodeBlock :=
  [⟨Opcode.LOAD⟩, ⟨Opcode.INCEIP⟩, ⟨Opcode.OTHER⟩, ⟨Opcode.INCEIP⟩, ⟨Opcode.JMP⟩]

/-- A block of two x86 instructions. -/
def demo_block2 : UCodeBlock := [⟨Opcode.INCEIP⟩, ⟨Opcode.JMP⟩]

/-- The state after `get_BB_info` was called for `demo_block` at `0x1000` in the
initial state. -/
def demo_blocks_state : State Unit :=
  match get_BB_info demo_block 4096 (State.init ()) with
  | .ok (_, s) => s
  | .error _ => State.init ()

/-- An instruction record whose parent is a leaf at address 7. -/
def demo_old_instr : instr_info := ⟨4096, 3, 4, some 7⟩

/-- The state after the accounting calls `demo_access_pre ++ demo_access_post`
were run in `demo_state`. -/
def demo_counted_state : State Unit :=
  match run_calls demo_sim (demo_access_pre ++ demo_access_post) demo_state with
  | .ok s => s
  | .error _ => demo_state

/-- A report environment in which the output file was opened. -/
def demo_env : ReportEnv := ⟨3, [], [], [], []⟩

/-- A provider that reports line -1 of `a.c`, in `f`, for every address. -/
def demo_dbg_negative : DebugInfo where
  get_filename_linenum := fun _ => some ([97, 46, 99], -1)
  get_fnname := fun _ => some [102]

/-- The record of the instruction at `0x1000` before it is filled in. -/
def demo_new_instr : instr_info := instr_info.zero

/-- A provider that knows the address `0x1008`: line 47 of the function `f` of the
file `a.c` (47 and 10 are in the same chain of `lines`). -/
def demo_dbg_line47 : DebugInfo where
  get_filename_linenum := fun a => if a = 4104 then some ([97, 46, 99], 47) else none
  get_fnname := fun a => if a = 4104 then some [102] else none

/-- The state after `get_lineCC` was called for `0x1008` in `demo_state`. -/
def demo_state_line47 : State Unit :=
  match get_lineCC demo_dbg_line47 4104 demo_state with
  | .ok (_, s) => s
  | .error _ => demo_state

/-- An auto-detection that reports three caches of 64 KB, 2-way, 64-byte lines,
whatever it is given. -/
def demo_detect : Caches → Bool → Caches :=
  fun _ _ => ⟨⟨65536, 2, 64⟩, ⟨65536, 2, 64⟩, ⟨65536, 2, 64⟩⟩

/-- Three caches before they are configured. -/
def demo_caches : Caches := ⟨⟨0, 0, 0⟩, ⟨0, 0, 0⟩, ⟨0, 0, 0⟩⟩

/-- A report environment in which the output file could not be opened. -/
def demo_env_closed : ReportEnv := ⟨-1, [], [], [], []⟩

/-- A state whose only leaf counted `2 ^ 64 - 2` instruction fetches, one data
read and one data write, with the totals still zero. -/
def demo_state_wrapped : State Unit :=
  { State.init () with
    CC_table := Function.update (fun _ => []) 244
      [⟨[97, 46, 99], Function.update (fun _ => []) 49
        [⟨[102], Function.update (fun _ => []) 10
          [⟨0, 10, ⟨18446744073709551614, 0, 0⟩, ⟨1, 0, 0⟩, ⟨1, 0, 0⟩⟩]⟩]⟩]
    heap_next := 1 }

/-- A state in which each access total is one and `get_debug_info` was never
called. -/
def demo_state_no_lookups : State Unit :=
  { State.init () with Ir_total := ⟨1, 0, 0⟩, Dr_total := ⟨1, 0, 0⟩, Dw_total := ⟨1, 0, 0⟩ }

/-! # Theorems -/

/-! ## Chain lemmas -/

theorem hash_fold_bound (n : Nat) (hn : 0 < n) (hn2 : (n : Int) ≤ 2 ^ 31) (s : CString) (h0 : Int)
    (hlo : 0 ≤ h0) (hhi : h0 < n) :
    0 ≤ s.foldl (fun hash_value c =>
      to_int32 (((256 * hash_value + c) % 2 ^ 32) % (n : Int))) h0 ∧
    s.foldl (fun hash_value c =>
      to_int32 (((256 * hash_value + c) % 2 ^ 32) % (n : Int))) h0 < n := by
  induction s generalizing h0 with
  | nil => exact ⟨hlo, hhi⟩
  | cons c cs ih =>
    simp only [List.foldl_cons]
    have hpos : (0 : Int) < n := by exact_mod_cast hn
    have h1 : 0 ≤ ((256 * h0 + c) % 2 ^ 32) % (n : Int) := Int.emod_nonneg _ (ne_of_gt hpos)
    have h2 : ((256 * h0 + c) % 2 ^ 32) % (n : Int) < n := Int.emod_lt_of_pos _ hpos
    have h3 : to_int32 (((256 * h0 + c) % 2 ^ 32) % (n : Int)) = ((256 * h0 + c) % 2 ^ 32) % (n : Int) := by
      unfold to_int32
      rw [if_pos]
      omega
    apply ih
    · rw [h3]; exact h1
    · rw [h3]; exact h2

theorem hash_lt (s : CString) (n : Nat) (hn : 0 < n) (hn2 : n ≤ 2 ^ 31) : hash s n < n := by
  have hn2' : (n : Int) ≤ 2 ^ 31 := by exact_mod_cast hn2
  have h := hash_fold_bound n hn hn2' s 0 (le_refl 0) (by exact_mod_cast hn)
  unfold hash
  simp only
  omega

theorem line_hash_of_nonneg (line : Int) (h : 0 ≤ line) : line_hash_of line < N_LINE_ENTRIES := by
  unfold line_hash_of N_LINE_ENTRIES
  have h1 : Int.tmod line ((37 : Nat) : Int) = line % 37 := by
    rw [Int.tmod_eq_emod h (by norm_num)]
    rfl
  rw [h1]
  omega

theorem mem_replaceFirst {α : Type} (p : α → Bool) (c : α) (l : List α) (y : α)
    (h : y ∈ replaceFirst p c l) : y = c ∨ y ∈ l := by
  induction l with
  | nil => simp [replaceFirst] at h
  | cons x xs ih =>
    simp only [replaceFirst] at h
    split at h
    · rcases List.mem_cons.1 h with h | h
      · exact Or.inl h
      · exact Or.inr (List.mem_cons_of_mem _ h)
    · rcases List.mem_cons.1 h with h | h
      · exact Or.inr (h ▸ List.mem_cons_self _ _)
      · rcases ih h with h | h
        · exact Or.inl h
        · exact Or.inr (List.mem_cons_of_mem _ h)

theorem replaceFirst_mem_of_find {α : Type} (p : α → Bool) (c x : α) (l : List α)
    (h : l.find? p = some x) : c ∈ replaceFirst p c l := by
  induction l with
  | nil => simp at h
  | cons y ys ih =>
    simp only [replaceFirst]
    by_cases hp : p y = true
    · simp [hp]
    · simp only [hp]
      rw [List.find?_cons_of_neg _ hp] at h
      simp [ih h]

theorem mem_or_mem_replaceFirst {α : Type} (p : α → Bool) (c x : α) (l : List α)
    (h : l.find? p = some x) (y : α) (hy : y ∈ l) : y = x ∨ y ∈ replaceFirst p c l := by
  induction l with
  | nil => simp at hy
  | cons z zs ih =>
    simp only [replaceFirst]
    by_cases hp : p z = true
    · rw [List.find?_cons_of_pos _ hp] at h
      simp only [hp, if_true]
      rcases List.mem_cons.1 hy with hy | hy
      · left; rw [hy]; exact Option.some.inj h
      · right; exact List.mem_cons_of_mem _ hy
    · rw [List.find?_cons_of_neg _ hp] at h
      simp only [hp]
      rcases List.mem_cons.1 hy with hy | hy
      · right; simp [hy]
      · rcases ih h hy with h1 | h1
        · exact Or.inl h1
        · right; simp [h1]

theorem replaceFirst_self {α : Type} (p : α → Bool) (x : α) (l : List α)
    (h : l.find? p = some x) : replaceFirst p x l = l := by
  induction l with
  | nil => rfl
  | cons y ys ih =>
    simp only [replaceFirst]
    by_cases hp : p y = true
    · rw [List.find?_cons_of_pos _ hp] at h
      have hyx := Option.some.inj h
      subst hyx
      simp [hp]
    · rw [List.find?_cons_of_neg _ hp] at h
      simp [hp, ih h]

theorem replaceFirst_map_key {α κ : Type} (key : α → κ) (p : α → Bool) (c x : α) (l : List α)
    (h : l.find? p = some x) (hk : key c = key x) :
    (replaceFirst p c l).map key = l.map key := by
  induction l with
  | nil => rfl
  | cons y ys ih =>
    simp only [replaceFirst]
    by_cases hp : p y = true
    · rw [List.find?_cons_of_pos _ hp] at h
      have hyx := Option.some.inj h
      subst hyx
      simp [hp, hk]
    · rw [List.find?_cons_of_neg _ hp] at h
      simp [hp, ih h]

theorem find_mem_and {α : Type} (p : α → Bool) (x : α) (l : List α)
    (h : l.find? p = some x) : x ∈ l ∧ p x = true := by
  induction l with
  | nil => simp at h
  | cons y ys ih =>
    by_cases hp : p y = true
    · rw [List.find?_cons_of_pos _ hp] at h
      have := Option.some.inj h
      subst this
      exact ⟨List.mem_cons_self _ _, hp⟩
    · rw [List.find?_cons_of_neg _ hp] at h
      exact ⟨List.mem_cons_of_mem _ (ih h).1, (ih h).2⟩

/-- What a successful `chain_level` did: the node `c` the walk ended on (found in
the chain, or `fresh`), the new contents `c1` that `k` gave it, and the chain
afterwards. -/
theorem chain_level_ok {α β : Type} (p : α → Bool) (fresh : α)
    (k : α → Except Fatal (β × α)) (chain chain1 : List α) (b : β) (created : Bool)
    (h : chain_level p fresh k chain = .ok (b, chain1, created)) :
    ∃ c c1, k c = .ok (b, c1) ∧
      ((created = false ∧ chain.find? p = some c ∧ chain1 = replaceFirst p c1 chain) ∨
       (created = true ∧ chain.find? p = none ∧ c = fresh ∧ chain1 = c1 :: chain)) := by
  unfold chain_level at h
  cases hf : chain.find? p with
  | some c =>
    rw [hf] at h
    simp only at h
    cases hk : k c with
    | error e => rw [hk] at h; simp at h
    | ok r =>
      obtain ⟨b1, c1⟩ := r
      rw [hk] at h
      simp only [Except.ok.injEq, Prod.mk.injEq] at h
      obtain ⟨hb, hc, hcr⟩ := h
      subst hb
      exact ⟨c, c1, hk, Or.inl ⟨hcr.symm, rfl, hc.symm⟩⟩
  | none =>
    rw [hf] at h
    simp only at h
    cases hk : k fresh with
    | error e => rw [hk] at h; simp at h
    | ok r =>
      obtain ⟨b1, c1⟩ := r
      rw [hk] at h
      simp only [Except.ok.injEq, Prod.mk.injEq] at h
      obtain ⟨hb, hc, hcr⟩ := h
      subst hb
      exact ⟨fresh, c1, hk, Or.inr ⟨hcr.symm, rfl, rfl, hc.symm⟩⟩

/-- A `chain_level` whose continuation returns on every node returns. -/
theorem chain_level_returns {α β : Type} (p : α → Bool) (fresh : α)
    (k : α → Except Fatal (β × α)) (chain : List α)
    (hk : ∀ c, (c ∈ chain ∨ c = fresh) → ∃ r, k c = .ok r) :
    ∃ r, chain_level p fresh k chain = .ok r := by
  unfold chain_level
  cases hf : chain.find? p with
  | some c =>
    obtain ⟨r, hr⟩ := hk c (Or.inl (find_mem_and p c chain hf).1)
    simp only [hr]
    exact ⟨_, rfl⟩
  | none =>
    obtain ⟨r, hr⟩ := hk fresh (Or.inr rfl)
    simp only [hr]
    exact ⟨_, rfl⟩

/-- The labels carried by the nodes of a chain after `chain_level`: those carried
before, and the labels `New` that the call added. -/
theorem chain_level_labels {α β Λ : Type} (L : α → Λ → Prop) (New : Λ → Prop)
    (p : α → Bool) (fresh : α) (k : α → Except Fatal (β × α))
    (chain chain1 : List α) (b : β) (created : Bool)
    (h : chain_level p fresh k chain = .ok (b, chain1, created))
    (hfound : ∀ c c1, c ∈ chain → p c = true → created = false → k c = .ok (b, c1) →
      ∀ lab, L c1 lab ↔ L c lab ∨ New lab)
    (hfresh : ∀ c1, created = true → k fresh = .ok (b, c1) → ∀ lab, L c1 lab ↔ New lab) :
    ∀ lab, (∃ x, x ∈ chain1 ∧ L x lab) ↔ (∃ x, x ∈ chain ∧ L x lab) ∨ New lab := by
  intro lab
  obtain ⟨c, c1, hkc, hcase⟩ := chain_level_ok p fresh k chain chain1 b created h
  rcases hcase with ⟨hcr, hf, hch⟩ | ⟨hcr, _, hc, hch⟩
  · subst hch
    have hL := hfound c c1 (find_mem_and p c chain hf).1 (find_mem_and p c chain hf).2 hcr hkc lab
    constructor
    · rintro ⟨x, hx, hxl⟩
      rcases mem_replaceFirst p c1 chain x hx with hx1 | hx1
      · subst hx1
        rcases hL.1 hxl with h1 | h1
        · exact Or.inl ⟨c, (find_mem_and p c chain hf).1, h1⟩
        · exact Or.inr h1
      · exact Or.inl ⟨x, hx1, hxl⟩
    · rintro (⟨x, hx, hxl⟩ | hnew)
      · rcases mem_or_mem_replaceFirst p c1 c chain hf x hx with hx1 | hx1
        · subst hx1
          exact ⟨c1, replaceFirst_mem_of_find p c1 x chain hf, hL.2 (Or.inl hxl)⟩
        · exact ⟨x, hx1, hxl⟩
      · exact ⟨c1, replaceFirst_mem_of_find p c1 c chain hf, hL.2 (Or.inr hnew)⟩
  · subst hch
    subst hc
    have hL := hfresh c1 hcr hkc lab
    constructor
    · rintro ⟨x, hx, hxl⟩
      rcases List.mem_cons.1 hx with hx1 | hx1
      · subst hx1
        exact Or.inr (hL.1 hxl)
      · exact Or.inl ⟨x, hx1, hxl⟩
    · rintro (⟨x, hx, hxl⟩ | hnew)
      · exact ⟨x, List.mem_cons_of_mem _ hx, hxl⟩
      · exact ⟨c1, List.mem_cons_self _ _, hL.2 hnew⟩

/-- The keys of a chain stay pairwise different through `chain_level`, and a
property `W` of its nodes that the continuation keeps is kept. -/
theorem chain_level_wf {α β κ : Type} (key : α → κ) (k0 : κ) (W : α → Prop)
    (p : α → Bool) (fresh : α) (k : α → Except Fatal (β × α))
    (chain chain1 : List α) (b : β) (created : Bool)
    (h : chain_level p fresh k chain = .ok (b, chain1, created))
    (hp : ∀ x, p x = true ↔ k0 = key x)
    (hfresh : key fresh = k0) (hWfresh : W fresh)
    (hk : ∀ c c1, k c = .ok (b, c1) → key c1 = key c ∧ (W c → W c1))
    (hnd : (chain.map key).Nodup) (hW : ∀ x ∈ chain, W x) :
    (chain1.map key).Nodup ∧ ∀ x ∈ chain1, W x := by
  obtain ⟨c, c1, hkc, hcase⟩ := chain_level_ok p fresh k chain chain1 b created h
  obtain ⟨hkey, hWc⟩ := hk c c1 hkc
  rcases hcase with ⟨_, hf, hch⟩ | ⟨_, hf, hc, hch⟩
  · subst hch
    constructor
    · rw [replaceFirst_map_key key p c1 c chain hf hkey]
      exact hnd
    · intro x hx
      rcases mem_replaceFirst p c1 chain x hx with hx1 | hx1
      · subst hx1
        exact hWc (hW c (find_mem_and p c chain hf).1)
      · exact hW x hx1
  · subst hch
    subst hc
    constructor
    · rw [List.map_cons, List.nodup_cons]
      refine ⟨?_, hnd⟩
      intro hmem
      obtain ⟨x, hx, hxk⟩ := List.mem_map.1 hmem
      have hnone := List.find?_eq_none.1 hf x hx
      apply hnone
      rw [hp, hxk, hkey, hfresh]
    · intro x hx
      rcases List.mem_cons.1 hx with hx1 | hx1
      · subst hx1
        exact hWc hWfresh
      · exact hW x hx1

/-- When the walk of `chain_level` finds its node and the continuation leaves
the node as it is, the chain is unchanged. -/
theorem chain_level_found_same {α β : Type} (p : α → Bool) (fresh : α)
    (k : α → Except Fatal (β × α)) (chain chain1 : List α) (b : β)
    (h : chain_level p fresh k chain = .ok (b, chain1, false))
    (hk : ∀ c c1, k c = .ok (b, c1) → c1 = c) : chain1 = chain := by
  obtain ⟨c, c1, hkc, hcase⟩ := chain_level_ok p fresh k chain chain1 b false h
  rcases hcase with ⟨_, hf, hch⟩ | ⟨hcr, _⟩
  · rw [hch, hk c c1 hkc]
    exact replaceFirst_self p c chain hf
  · exact absurd hcr (by decide)

theorem mem_update_iff {α : Type} (f : Nat → List α) (k : Nat) (v : List α) (k1 : Nat) (x : α) :
    x ∈ Function.update f k v k1 ↔ (k1 = k ∧ x ∈ v) ∨ (k1 ≠ k ∧ x ∈ f k1) := by
  by_cases hk : k1 = k
  · subst hk
    simp
  · simp [Function.update_noteq hk, hk]

/-- The labels of an array of chains after one chain was replaced. -/
theorem update_labels {α Λ : Type} (L : α → Λ → Prop) (New : Λ → Prop) (f : Nat → List α)
    (k : Nat) (v : List α) (lab : Λ)
    (h : (∃ x, x ∈ v ∧ L x lab) ↔ (∃ x, x ∈ f k ∧ L x lab) ∨ New lab) :
    (∃ j x, x ∈ Function.update f k v j ∧ L x lab) ↔ (∃ j x, x ∈ f j ∧ L x lab) ∨ New lab := by
  constructor
  · rintro ⟨j, x, hx, hl⟩
    rcases (mem_update_iff f k v j x).1 hx with ⟨_, hx1⟩ | ⟨_, hx1⟩
    · rcases h.1 ⟨x, hx1, hl⟩ with ⟨y, hy, hyl⟩ | hnew
      · exact Or.inl ⟨k, y, hy, hyl⟩
      · exact Or.inr hnew
    · exact Or.inl ⟨j, x, hx1, hl⟩
  · rintro (⟨j, x, hx, hl⟩ | hnew)
    · by_cases hj : j = k
      · subst hj
        obtain ⟨y, hy, hyl⟩ := h.2 (Or.inl ⟨x, hx, hl⟩)
        exact ⟨j, y, (mem_update_iff f j v j y).2 (Or.inl ⟨rfl, hy⟩), hyl⟩
      · exact ⟨j, x, (mem_update_iff f k v j x).2 (Or.inr ⟨hj, hx⟩), hl⟩
    · obtain ⟨y, hy, hyl⟩ := h.2 (Or.inr hnew)
      exact ⟨k, y, (mem_update_iff f k v k y).2 (Or.inl ⟨rfl, hy⟩), hyl⟩

/-- What level 3 of `get_lineCC` returns and does to the function node. -/
theorem get_lineCC_level3_spec (line : Int) (hn : Nat) (g g1 : fnCC) (p : Nat) (created : Bool)
    (h : get_lineCC_level3 line hn g = .ok ((p, created), g1)) :
    g1.fn = g.fn ∧
    (created = true → p = hn) ∧
    (∀ l q, g1.has_leaf l q ↔ g.has_leaf l q ∨ (created = true ∧ l = line ∧ q = hn)) ∧
    g1.has_leaf line p ∧
    (g.wf → g1.wf) ∧
    (created = false → g1 = g) := by
  unfold get_lineCC_level3 at h
  simp only at h
  split at h
  case isFalse => simp at h
  case isTrue hlt =>
  split at h
  case h_2 => simp at h
  case h_1 ptr chain cr hcl =>
  simp only [Except.ok.injEq, Prod.mk.injEq] at h
  obtain ⟨⟨hp, hcr⟩, hg⟩ := h
  subst hp hcr hg
  have hlab : ∀ l q, ({ g with lines := Function.update g.lines (line_hash_of line) chain } : fnCC).has_leaf l q ↔
      g.has_leaf l q ∨ (cr = true ∧ l = line ∧ q = hn) := by
    intro l q
    have hl := chain_level_labels
      (fun (x : lineCC) (lab : Int × Nat) => x.line = lab.1 ∧ x.ptr = lab.2)
      (fun lab => cr = true ∧ lab.1 = line ∧ lab.2 = hn) _ _ _ _ _ _ _ hcl
      (by
        intro c c1 _ _ hcr hk lab
        simp only [Except.ok.injEq, Prod.mk.injEq] at hk
        rw [← hk.2]
        simp [hcr])
      (by
        intro c1 hcr hk lab
        simp only [Except.ok.injEq, Prod.mk.injEq] at hk
        rw [← hk.2]
        simp only [hcr, new_lineCC, true_and]
        exact ⟨fun h => ⟨h.1.symm, h.2.symm⟩, fun h => ⟨h.1.symm, h.2.symm⟩⟩)
      (l, q)
    exact update_labels (fun (x : lineCC) (lab : Int × Nat) => x.line = lab.1 ∧ x.ptr = lab.2)
      (fun lab => cr = true ∧ lab.1 = line ∧ lab.2 = hn) g.lines (line_hash_of line) chain (l, q) hl
  obtain ⟨c, c1, hkc, hcase⟩ := chain_level_ok _ _ _ _ _ _ _ hcl
  simp only [Except.ok.injEq, Prod.mk.injEq] at hkc
  obtain ⟨hptr, hc1⟩ := hkc
  subst hc1
  refine ⟨rfl, ?_, hlab, ?_, ?_, ?_⟩
  · intro hcr
    rcases hcase with ⟨hcr1, _⟩ | ⟨_, _, hc, _⟩
    · rw [hcr] at hcr1
      exact absurd hcr1 (by decide)
    · rw [← hptr, hc]
      rfl
  · rw [hlab]
    rcases hcase with ⟨_, hf, _⟩ | ⟨hcr, _, hc, _⟩
    · left
      have hm := find_mem_and _ c _ hf
      exact ⟨line_hash_of line, c, hm.1, (of_decide_eq_true hm.2).symm, hptr⟩
    · right
      refine ⟨hcr, rfl, ?_⟩
      rw [← hptr, hc]
      rfl
  · intro hwf k
    have hw := chain_level_wf lineCC.line line (fun x => line_hash_of x.line = line_hash_of line)
      _ _ _ _ _ _ _ hcl (by intro x; simp) rfl rfl
      (by
        intro c c1 hk
        simp only [Except.ok.injEq, Prod.mk.injEq] at hk
        rw [← hk.2]
        exact ⟨rfl, id⟩)
      (hwf _).1 (hwf _).2
    by_cases hk : k = line_hash_of line
    · subst hk
      simp only [Function.update_same]
      exact hw
    · simp only [Function.update_noteq hk]
      exact hwf k
  · intro hcr
    subst hcr
    have hsame := chain_level_found_same _ _ _ _ _ _ hcl
      (by
        intro c c1 hk
        simp only [Except.ok.injEq, Prod.mk.injEq] at hk
        exact hk.2.symm)
    rw [hsame, Function.update_eq_self]

theorem new_fnCC_no_leaf (fn : CString) (l : Int) (q : Nat) : ¬ (new_fnCC fn).has_leaf l q := by
  rintro ⟨k, x, hx, _⟩
  simp [new_fnCC] at hx

theorem new_fnCC_wf (fn : CString) : (new_fnCC fn).wf := by
  intro k
  simp [new_fnCC]

theorem new_fileCC_no_leaf (file fn : CString) (l : Int) (q : Nat) :
    ¬ (new_fileCC file).has_leaf fn l q := by
  rintro ⟨k, x, hx, _⟩
  simp [new_fileCC] at hx

theorem new_fileCC_wf (file : CString) : (new_fileCC file).wf := by
  intro k
  simp [new_fileCC]

/-- Level 3 on a function node that was just created creates the leaf. -/
theorem get_lineCC_level3_fresh (fn : CString) (line : Int) (hn : Nat) (g1 : fnCC) (p : Nat)
    (created : Bool) (h : get_lineCC_level3 line hn (new_fnCC fn) = .ok ((p, created), g1)) :
    created = true := by
  unfold get_lineCC_level3 at h
  simp only at h
  split at h
  case isFalse => simp at h
  case isTrue hlt =>
  simp only [new_fnCC, chain_level, List.find?_nil] at h
  simp only [Except.ok.injEq, Prod.mk.injEq] at h
  exact h.1.2.symm

/-- What levels 2 and 3 of `get_lineCC` return and do to the file node. -/
theorem get_lineCC_level2_spec (fn : CString) (line : Int) (hn : Nat) (f f1 : fileCC) (p : Nat)
    (new_line new_fn : Bool)
    (h : get_lineCC_level2 fn line hn f = .ok ((p, new_line, new_fn), f1)) :
    f1.file = f.file ∧
    (new_line = true → p = hn) ∧
    (∀ fn1 l q, f1.has_leaf fn1 l q ↔
      f.has_leaf fn1 l q ∨ (new_line = true ∧ fn1 = fn ∧ l = line ∧ q = hn)) ∧
    f1.has_leaf fn line p ∧
    (f.wf → f1.wf) ∧
    (new_line = false → new_fn = false ∧ f1 = f) := by
  unfold get_lineCC_level2 at h
  simp only at h
  split at h
  case isFalse => simp at h
  case isTrue hlt =>
  split at h
  case h_2 => simp at h
  case h_1 ptr nl chain cr hcl =>
  simp only [Except.ok.injEq, Prod.mk.injEq] at h
  obtain ⟨⟨hp, hnl, hcr⟩, hf1⟩ := h
  subst hp hnl hcr hf1
  have hlab : ∀ fn1 l q, ({ f with fns := Function.update f.fns (hash fn N_FN_ENTRIES) chain } : fileCC).has_leaf fn1 l q ↔
      f.has_leaf fn1 l q ∨ (nl = true ∧ fn1 = fn ∧ l = line ∧ q = hn) := by
    intro fn1 l q
    have hl := chain_level_labels
      (fun (x : fnCC) (lab : CString × Int × Nat) => x.fn = lab.1 ∧ x.has_leaf lab.2.1 lab.2.2)
      (fun lab => nl = true ∧ lab.1 = fn ∧ lab.2.1 = line ∧ lab.2.2 = hn) _ _ _ _ _ _ _ hcl
      (by
        intro c c1 _ hpc _ hk lab
        obtain ⟨h1, _, h3, _⟩ := get_lineCC_level3_spec line hn c c1 ptr nl hk
        have hfn : fn = c.fn := of_decide_eq_true hpc
        simp only
        rw [h1, h3, ← hfn]
        constructor
        · rintro ⟨ha, hb | hb⟩
          · exact Or.inl ⟨ha, hb⟩
          · exact Or.inr ⟨hb.1, ha.symm, hb.2⟩
        · rintro (⟨ha, hb⟩ | ⟨ha, hb, hc⟩)
          · exact ⟨ha, Or.inl hb⟩
          · exact ⟨hb.symm, Or.inr ⟨ha, hc⟩⟩)
      (by
        intro c1 _ hk lab
        obtain ⟨h1, _, h3, _⟩ := get_lineCC_level3_spec line hn _ c1 ptr nl hk
        simp only
        rw [h1, h3]
        constructor
        · rintro ⟨ha, hb | hb⟩
          · exact absurd hb (new_fnCC_no_leaf _ _ _)
          · exact ⟨hb.1, ha.symm, hb.2⟩
        · rintro ⟨ha, hb, hc⟩
          exact ⟨hb.symm, Or.inr ⟨ha, hc⟩⟩)
      (fn1, l, q)
    exact update_labels
      (fun (x : fnCC) (lab : CString × Int × Nat) => x.fn = lab.1 ∧ x.has_leaf lab.2.1 lab.2.2)
      (fun lab => nl = true ∧ lab.1 = fn ∧ lab.2.1 = line ∧ lab.2.2 = hn)
      f.fns (hash fn N_FN_ENTRIES) chain (fn1, l, q) hl
  obtain ⟨c, c1, hkc, hcase⟩ := chain_level_ok _ _ _ _ _ _ _ hcl
  obtain ⟨h1, h2, h3, h4, h5, h6⟩ := get_lineCC_level3_spec line hn c c1 ptr nl hkc
  refine ⟨rfl, h2, hlab, ?_, ?_, ?_⟩
  · have hcfn : c.fn = fn := by
      rcases hcase with ⟨_, hf, _⟩ | ⟨_, _, hc, _⟩
      · exact (of_decide_eq_true (find_mem_and _ c _ hf).2).symm
      · rw [hc]; rfl
    have hmem : c1 ∈ chain := by
      rcases hcase with ⟨_, hf, hch⟩ | ⟨_, _, _, hch⟩
      · rw [hch]
        exact replaceFirst_mem_of_find _ c1 c _ hf
      · rw [hch]
        exact List.mem_cons_self _ _
    refine ⟨hash fn N_FN_ENTRIES, c1, ?_, by rw [h1, hcfn], h4⟩
    simp only [Function.update_same]
    exact hmem
  · intro hwf j
    have hw := chain_level_wf fnCC.fn fn
      (fun x => hash x.fn N_FN_ENTRIES = hash fn N_FN_ENTRIES ∧ x.wf)
      _ _ _ _ _ _ _ hcl (by intro x; simp) rfl ⟨rfl, new_fnCC_wf fn⟩
      (by
        intro c c1 hk
        obtain ⟨h1, _, _, _, h5, _⟩ := get_lineCC_level3_spec line hn c c1 ptr nl hk
        refine ⟨h1, fun hW => ⟨?_, h5 hW.2⟩⟩
        rw [h1]
        exact hW.1)
      (hwf _).1 (hwf _).2
    by_cases hj : j = hash fn N_FN_ENTRIES
    · subst hj
      simp only [Function.update_same]
      exact hw
    · simp only [Function.update_noteq hj]
      exact hwf j
  · intro hnl
    subst hnl
    have hcr : cr = false := by
      rcases hcase with ⟨hcr, _⟩ | ⟨_, _, hc, _⟩
      · exact hcr
      · subst hc
        exact absurd (get_lineCC_level3_fresh fn line hn c1 ptr false hkc) (by decide)
    subst hcr
    refine ⟨rfl, ?_⟩
    have hsame := chain_level_found_same _ _ _ _ _ _ hcl
      (by
        intro c c1 hk
        exact (get_lineCC_level3_spec line hn c c1 ptr false hk).2.2.2.2.2 rfl)
    rw [hsame, Function.update_eq_self]

/-- The parts of the state that `get_debug_info` leaves alone. -/
theorem get_debug_info_frame {σ : Type} (dbg : DebugInfo) (a : Addr) (s : State σ) :
    (get_debug_info dbg a s).1 = debug_triple dbg a ∧
    (get_debug_info dbg a s).2.CC_table = s.CC_table ∧
    (get_debug_info dbg a s).2.heap_next = s.heap_next ∧
    (get_debug_info dbg a s).2.instr_info_table = s.instr_info_table ∧
    (get_debug_info dbg a s).2.sim = s.sim ∧
    (get_debug_info dbg a s).2.Ir_total = s.Ir_total ∧
    (get_debug_info dbg a s).2.Dr_total = s.Dr_total ∧
    (get_debug_info dbg a s).2.Dw_total = s.Dw_total := by
  unfold get_debug_info
  simp only
  split <;> split <;> simp

/-- What `get_lineCC` returns and does to the CC table. -/
theorem get_lineCC_spec {σ : Type} (dbg : DebugInfo) (a : Addr) (s s1 : State σ) (p : Nat)
    (h : get_lineCC dbg a s = .ok (p, s1)) :
    (∀ file fn l q, has_leaf s1.CC_table file fn l q ↔
      has_leaf s.CC_table file fn l q ∨
        (s1.heap_next = s.heap_next + 1 ∧ file = (debug_triple dbg a).1 ∧
          fn = (debug_triple dbg a).2.1 ∧ l = (debug_triple dbg a).2.2 ∧ q = s.heap_next)) ∧
    has_leaf s1.CC_table (debug_triple dbg a).1 (debug_triple dbg a).2.1 (debug_triple dbg a).2.2 p ∧
    (s1.heap_next = s.heap_next ∨ s1.heap_next = s.heap_next + 1) ∧
    (s1.heap_next = s.heap_next → s1.CC_table = s.CC_table) ∧
    (table_wf s.CC_table → table_wf s1.CC_table) ∧
    s1.instr_info_table = s.instr_info_table ∧ s1.sim = s.sim ∧
    s1.Ir_total = s.Ir_total ∧ s1.Dr_total = s.Dr_total ∧ s1.Dw_total = s.Dw_total := by
  obtain ⟨ht, hT, hH, hI, hS, hIr, hDr, hDw⟩ := get_debug_info_frame dbg a s
  unfold get_lineCC at h
  generalize hgd : get_debug_info dbg a s = r at h ht hT hH hI hS hIr hDr hDw
  obtain ⟨⟨file, fn, line⟩, s0⟩ := r
  simp only at h ht hT hH hI hS hIr hDr hDw
  rw [← ht]
  simp only
  split at h
  case isFalse => simp at h
  case isTrue hlt =>
  split at h
  case h_2 => simp at h
  case h_1 ptr nl nf chain cr hcl =>
  simp only [Except.ok.injEq, Prod.mk.injEq] at h
  obtain ⟨hp, hs1⟩ := h
  subst hp hs1
  simp only
  rw [hT, hH] at hcl
  rw [hT, hH, hI, hS, hIr, hDr, hDw]
  obtain ⟨c, c1, hkc, hcase⟩ := chain_level_ok _ _ _ _ _ _ _ hcl
  obtain ⟨h1, h2, h3, h4, h5, h6⟩ := get_lineCC_level2_spec fn line s.heap_next c c1 ptr nl nf hkc
  have hlab : ∀ file1 fn1 l q,
      has_leaf (Function.update s.CC_table (hash file N_FILE_ENTRIES) chain) file1 fn1 l q ↔
      has_leaf s.CC_table file1 fn1 l q ∨
        (nl = true ∧ file1 = file ∧ fn1 = fn ∧ l = line ∧ q = s.heap_next) := by
    intro file1 fn1 l q
    have hl := chain_level_labels
      (fun (x : fileCC) (lab : CString × CString × Int × Nat) =>
        x.file = lab.1 ∧ x.has_leaf lab.2.1 lab.2.2.1 lab.2.2.2)
      (fun lab => nl = true ∧ lab.1 = file ∧ lab.2.1 = fn ∧ lab.2.2.1 = line ∧
        lab.2.2.2 = s.heap_next) _ _ _ _ _ _ _ hcl
      (by
        intro c c1 _ hpc _ hk lab
        obtain ⟨h1, _, h3, _⟩ := get_lineCC_level2_spec fn line s.heap_next c c1 ptr nl nf hk
        have hfl : file = c.file := of_decide_eq_true hpc
        simp only
        rw [h1, h3, ← hfl]
        constructor
        · rintro ⟨ha, hb | hb⟩
          · exact Or.inl ⟨ha, hb⟩
          · exact Or.inr ⟨hb.1, ha.symm, hb.2⟩
        · rintro (⟨ha, hb⟩ | ⟨ha, hb, hc⟩)
          · exact ⟨ha, Or.inl hb⟩
          · exact ⟨hb.symm, Or.inr ⟨ha, hc⟩⟩)
      (by
        intro c1 _ hk lab
        obtain ⟨h1, _, h3, _⟩ := get_lineCC_level2_spec fn line s.heap_next _ c1 ptr nl nf hk
        simp only
        rw [h1, h3]
        constructor
        · rintro ⟨ha, hb | hb⟩
          · exact absurd hb (new_fileCC_no_leaf _ _ _ _)
          · exact ⟨hb.1, ha.symm, hb.2⟩
        · rintro ⟨ha, hb, hc⟩
          exact ⟨hb.symm, Or.inr ⟨ha, hc⟩⟩)
      (file1, fn1, l, q)
    exact update_labels
      (fun (x : fileCC) (lab : CString × CString × Int × Nat) =>
        x.file = lab.1 ∧ x.has_leaf lab.2.1 lab.2.2.1 lab.2.2.2)
      (fun lab => nl = true ∧ lab.1 = file ∧ lab.2.1 = fn ∧ lab.2.2.1 = line ∧
        lab.2.2.2 = s.heap_next)
      s.CC_table (hash file N_FILE_ENTRIES) chain (file1, fn1, l, q) hl
  have hheap : ((if nl = true then s.heap_next + 1 else s.heap_next) = s.heap_next + 1) ↔ nl = true := by
    cases nl <;> simp
  refine ⟨?_, ?_, ?_, ?_, ?_, rfl, rfl, rfl, rfl, rfl⟩
  · intro file1 fn1 l q
    rw [hlab, hheap]
  · have hcfile : c.file = file := by
      rcases hcase with ⟨_, hf, _⟩ | ⟨_, _, hc, _⟩
      · exact (of_decide_eq_true (find_mem_and _ c _ hf).2).symm
      · rw [hc]; rfl
    have hmem : c1 ∈ chain := by
      rcases hcase with ⟨_, hf, hch⟩ | ⟨_, _, _, hch⟩
      · rw [hch]
        exact replaceFirst_mem_of_find _ c1 c _ hf
      · rw [hch]
        exact List.mem_cons_self _ _
    refine ⟨hash file N_FILE_ENTRIES, c1, ?_, by rw [h1, hcfile], h4⟩
    simp only [Function.update_same]
    exact hmem
  · cases nl <;> simp
  · intro hh
    have hnl : nl = false := by
      cases nl
      · rfl
      · simp at hh
    subst hnl
    have hcr : cr = false := by
      rcases hcase with ⟨hcr, _⟩ | ⟨_, _, hc, _⟩
      · exact hcr
      · subst hc
        obtain ⟨_, _, h3', h4', _⟩ := get_lineCC_level2_spec fn line s.heap_next _ c1 ptr false nf hkc
        rw [h3'] at h4'
        rcases h4' with h | h
        · exact absurd h (new_fileCC_no_leaf _ _ _ _)
        · exact absurd h.1 (by decide)
    subst hcr
    have hsame := chain_level_found_same _ _ _ _ _ _ hcl
      (by
        intro c c1 hk
        exact ((get_lineCC_level2_spec fn line s.heap_next c c1 ptr false nf hk).2.2.2.2.2 rfl).2)
    rw [hsame, Function.update_eq_self]
  · intro hwf i
    have hw := chain_level_wf fileCC.file file
      (fun x => hash x.file N_FILE_ENTRIES = hash file N_FILE_ENTRIES ∧ x.wf)
      _ _ _ _ _ _ _ hcl (by intro x; simp) rfl ⟨rfl, new_fileCC_wf file⟩
      (by
        intro c c1 hk
        obtain ⟨h1, _, _, _, h5, _⟩ := get_lineCC_level2_spec fn line s.heap_next c c1 ptr nl nf hk
        refine ⟨h1, fun hW => ⟨?_, h5 hW.2⟩⟩
        rw [h1]
        exact hW.1)
      (hwf _).1 (hwf _).2
    by_cases hi : i = hash file N_FILE_ENTRIES
    · subst hi
      simp only [Function.update_same]
      exact hw
    · simp only [Function.update_noteq hi]
      exact hwf i

theorem get_lineCC_level3_returns (line : Int) (hline : 0 ≤ line) (hn : Nat) (g : fnCC) :
    ∃ r, get_lineCC_level3 line hn g = .ok r := by
  unfold get_lineCC_level3
  simp only [if_pos (line_hash_of_nonneg line hline)]
  obtain ⟨r, hr⟩ := chain_level_returns (fun c => decide (line = c.line)) (new_lineCC hn line)
    (fun curr_lineCC => (.ok (curr_lineCC.ptr, curr_lineCC) : Except Fatal (Nat × lineCC)))
    (g.lines (line_hash_of line)) (fun c _ => ⟨_, rfl⟩)
  obtain ⟨ptr, chain, created⟩ := r
  rw [hr]
  exact ⟨_, rfl⟩

theorem get_lineCC_level2_returns (fn : CString) (line : Int) (hline : 0 ≤ line) (hn : Nat)
    (f : fileCC) : ∃ r, get_lineCC_level2 fn line hn f = .ok r := by
  unfold get_lineCC_level2
  have hlt : hash fn N_FN_ENTRIES < N_FN_ENTRIES := hash_lt fn _ (by decide) (by decide)
  simp only [if_pos hlt]
  obtain ⟨r, hr⟩ := chain_level_returns (fun c => decide (fn = c.fn)) (new_fnCC fn)
    (get_lineCC_level3 line hn) (f.fns (hash fn N_FN_ENTRIES))
    (fun c _ => get_lineCC_level3_returns line hline hn c)
  obtain ⟨⟨ptr, nl⟩, chain, created⟩ := r
  rw [hr]
  exact ⟨_, rfl⟩

/-- `get_lineCC` returns whenever the line number it gets from `get_debug_info`
is not negative. -/
theorem get_lineCC_returns {σ : Type} (dbg : DebugInfo) (a : Addr) (s : State σ)
    (hline : 0 ≤ (debug_triple dbg a).2.2) : ∃ r, get_lineCC dbg a s = .ok r := by
  obtain ⟨ht, _⟩ := get_debug_info_frame dbg a s
  unfold get_lineCC
  generalize get_debug_info dbg a s = r at ht
  obtain ⟨⟨file, fn, line⟩, s0⟩ := r
  simp only at ht
  rw [← ht] at hline
  simp only at hline
  have hlt : hash file N_FILE_ENTRIES < N_FILE_ENTRIES := hash_lt file _ (by decide) (by decide)
  simp only [if_pos hlt]
  obtain ⟨r, hr⟩ := chain_level_returns (fun c => decide (file = c.file)) (new_fileCC file)
    (get_lineCC_level2 fn line s0.heap_next) (s0.CC_table (hash file N_FILE_ENTRIES))
    (fun c _ => get_lineCC_level2_returns fn line hline s0.heap_next c)
  obtain ⟨⟨ptr, nl, nf⟩, chain, created⟩ := r
  rw [hr]
  exact ⟨_, rfl⟩

/-- In a well-formed table a (file, function, line) triple has one leaf only. -/
theorem has_leaf_unique (T : Nat → List fileCC) (hwf : table_wf T) (file fn : CString)
    (line : Int) (p q : Nat) (hp : has_leaf T file fn line p) (hq : has_leaf T file fn line q) :
    p = q := by
  obtain ⟨i, f, hf, hfile, j, g, hg, hfn, k, l, hl, hline, hptr⟩ := hp
  obtain ⟨i1, f1, hf1, hfile1, j1, g1, hg1, hfn1, k1, l1, hl1, hline1, hptr1⟩ := hq
  have hi : i = i1 := by
    rw [← ((hwf i).2 f hf).1, ← ((hwf i1).2 f1 hf1).1, hfile, hfile1]
  subst hi
  have hff : f = f1 :=
    List.inj_on_of_nodup_map (hwf i).1 hf hf1 (by rw [hfile, hfile1])
  subst hff
  have hfwf := ((hwf i).2 f hf).2
  have hj : j = j1 := by
    rw [← ((hfwf j).2 g hg).1, ← ((hfwf j1).2 g1 hg1).1, hfn, hfn1]
  subst hj
  have hgg : g = g1 :=
    List.inj_on_of_nodup_map (hfwf j).1 hg hg1 (by rw [hfn, hfn1])
  subst hgg
  have hgwf := ((hfwf j).2 g hg).2
  have hk : k = k1 := by
    rw [← (hgwf k).2 l hl, ← (hgwf k1).2 l1 hl1, hline, hline1]
  subst hk
  have hll : l = l1 :=
    List.inj_on_of_nodup_map (hgwf k).1 hl hl1 (by rw [hline, hline1])
  subst hll
  rw [← hptr, ← hptr1]

/-- A state whose CC table has no node satisfies the invariant. -/
theorem cc_inv_empty {σ : Type} (s : State σ) (h : ∀ i, s.CC_table i = []) : cc_inv s := by
  have hno : ∀ file fn line p, ¬ has_leaf s.CC_table file fn line p := by
    rintro file fn line p ⟨i, f, hf, _⟩
    rw [h i] at hf
    simp at hf
  refine ⟨?_, ?_, ?_⟩
  · intro i
    rw [h i]
    simp
  · intro file fn line p hp
    exact absurd hp (hno _ _ _ _)
  · intro file fn line file1 fn1 line1 p hp
    exact absurd hp (hno _ _ _ _)

/-- The invariant is kept by `get_lineCC`. -/
theorem cc_inv_get_lineCC {σ : Type} (dbg : DebugInfo) (a : Addr) (s s1 : State σ) (p : Nat)
    (h : get_lineCC dbg a s = .ok (p, s1)) (hinv : cc_inv s) : cc_inv s1 := by
  obtain ⟨hlab, _, hheap, _, hwf, _⟩ := get_lineCC_spec dbg a s s1 p h
  obtain ⟨h1, h2, h3⟩ := hinv
  refine ⟨hwf h1, ?_, ?_⟩
  · intro file fn line q hq
    rcases (hlab file fn line q).1 hq with hq1 | ⟨hh, _, _, _, hq1⟩
    · have := h2 file fn line q hq1
      omega
    · omega
  · intro file fn line file1 fn1 line1 q hq hq1
    rcases (hlab file fn line q).1 hq with ha | ⟨_, ha1, ha2, ha3, ha4⟩
    · rcases (hlab file1 fn1 line1 q).1 hq1 with hb | ⟨_, _, _, _, hb4⟩
      · exact h3 _ _ _ _ _ _ q ha hb
      · have := h2 file fn line q ha
        omega
    · rcases (hlab file1 fn1 line1 q).1 hq1 with hb | ⟨_, hb1, hb2, hb3, _⟩
      · have := h2 file1 fn1 line1 q hb
        omega
      · exact ⟨by rw [ha1, hb1], by rw [ha2, hb2], by rw [ha3, hb3]⟩

/-- Every reachable state satisfies the invariant. -/
theorem cc_inv_of_reachable {σ : Type} (s : State σ) (h : Reachable s) : cc_inv s := by
  induction h with
  | empty s h => exact cc_inv_empty s h
  | step s s1 dbg a p _ h ih => exact cc_inv_get_lineCC dbg a s s1 p h ih

/-- A sequence of `get_lineCC` calls with non-negative line numbers returns, keeps
the invariant and every leaf, and every call's leaf is in the final table under
the triple of the call. -/
theorem get_lineCC_seq_spec {σ : Type} (calls : List (DebugInfo × Addr)) (s : State σ)
    (hinv : cc_inv s) (hline : ∀ c ∈ calls, 0 ≤ (debug_triple c.1 c.2).2.2) :
    ∃ ps s1, get_lineCC_seq calls s = .ok (ps, s1) ∧ cc_inv s1 ∧ ps.length = calls.length ∧
      (∀ file fn l q, has_leaf s.CC_table file fn l q → has_leaf s1.CC_table file fn l q) ∧
      (∀ (i : Nat) (c : DebugInfo × Addr) (p : Nat), calls[i]? = some c → ps[i]? = some p →
        has_leaf s1.CC_table (debug_triple c.1 c.2).1 (debug_triple c.1 c.2).2.1
          (debug_triple c.1 c.2).2.2 p) := by
  induction calls generalizing s with
  | nil =>
    refine ⟨[], s, rfl, hinv, rfl, fun _ _ _ _ h => h, ?_⟩
    intro i c p hc
    simp at hc
  | cons c0 rest ih =>
    obtain ⟨dbg, a⟩ := c0
    obtain ⟨⟨p0, s0⟩, h0⟩ := get_lineCC_returns dbg a s (hline (dbg, a) (List.mem_cons_self _ _))
    have hinv0 := cc_inv_get_lineCC dbg a s s0 p0 h0 hinv
    obtain ⟨hlab, hleaf, _⟩ := get_lineCC_spec dbg a s s0 p0 h0
    obtain ⟨ps, s1, hseq, hinv1, hlen, hmono, hall⟩ :=
      ih s0 hinv0 (fun c hc => hline c (List.mem_cons_of_mem _ hc))
    refine ⟨p0 :: ps, s1, ?_, hinv1, ?_, ?_, ?_⟩
    · simp only [get_lineCC_seq, h0, hseq]
    · simp [hlen]
    · intro file fn l q hq
      exact hmono _ _ _ _ ((hlab file fn l q).2 (Or.inl hq))
    · intro i c p hc hp
      cases i with
      | zero =>
        simp only [List.getElem?_cons_zero, Option.some.injEq] at hc hp
        subst hc hp
        exact hmono _ _ _ _ hleaf
      | succ i =>
        simp only [List.getElem?_cons_succ] at hc hp
        exact hall i c p hc hp

/-- C1. For every sequence of `get_lineCC` calls that starts from a state whose CC
table has no node, the line numbers being non-negative: all the calls return, and
any two calls that `get_debug_info` resolves to the same (file, function, line)
triple return the same leaf, while any two calls that resolve to the same file
and function but to different line numbers return different leaves. -/
theorem get_lineCC_leaf_stable {σ : Type} (s : State σ) (hempty : ∀ i, s.CC_table i = [])
    (calls : List (DebugInfo × Addr))
    (hline : ∀ c ∈ calls, 0 ≤ (debug_triple c.1 c.2).2.2) :
    ∃ ps s1, get_lineCC_seq calls s = .ok (ps, s1) ∧ ps.length = calls.length ∧
      ∀ (i j : Nat) (ci cj : DebugInfo × Addr) (pi pj : Nat), calls[i]? = some ci → calls[j]? = some cj →
        ps[i]? = some pi → ps[j]? = some pj →
        (debug_triple ci.1 ci.2 = debug_triple cj.1 cj.2 → pi = pj) ∧
        ((debug_triple ci.1 ci.2).1 = (debug_triple cj.1 cj.2).1 →
          (debug_triple ci.1 ci.2).2.1 = (debug_triple cj.1 cj.2).2.1 →
          (debug_triple ci.1 ci.2).2.2 ≠ (debug_triple cj.1 cj.2).2.2 → pi ≠ pj) := by
  obtain ⟨ps, s1, hseq, hinv, hlen, _, hall⟩ :=
    get_lineCC_seq_spec calls s (cc_inv_empty s hempty) hline
  refine ⟨ps, s1, hseq, hlen, ?_⟩
  intro i j ci cj pi pj hci hcj hpi hpj
  have hi := hall i ci pi hci hpi
  have hj := hall j cj pj hcj hpj
  constructor
  · intro heq
    rw [heq] at hi
    exact has_leaf_unique s1.CC_table hinv.1 _ _ _ pi pj hi hj
  · intro _ _ hne hpp
    subst hpp
    exact hne (hinv.2.2 _ _ _ _ _ _ pi hi hj).2.2

theorem get_lineCC_leaf_stable_witness :
    (∀ c ∈ demo_calls, 0 ≤ (debug_triple c.1 c.2).2.2) ∧
    (get_lineCC_seq demo_calls (State.init ())).toOption.map (fun r => r.1) = some [0, 1, 0] ∧
    ∃ ps s1, get_lineCC_seq demo_calls (State.init ()) = .ok (ps, s1) ∧
      ps.length = demo_calls.length ∧
      ∀ (i j : Nat) (ci cj : DebugInfo × Addr) (pi pj : Nat), demo_calls[i]? = some ci → demo_calls[j]? = some cj →
        ps[i]? = some pi → ps[j]? = some pj →
        (debug_triple ci.1 ci.2 = debug_triple cj.1 cj.2 → pi = pj) ∧
        ((debug_triple ci.1 ci.2).1 = (debug_triple cj.1 cj.2).1 →
          (debug_triple ci.1 ci.2).2.1 = (debug_triple cj.1 cj.2).2.1 →
          (debug_triple ci.1 ci.2).2.2 ≠ (debug_triple cj.1 cj.2).2.2 → pi ≠ pj) :=
  ⟨by decide, rfl,
    get_lineCC_leaf_stable (State.init ()) (fun _ => rfl) demo_calls (by decide)⟩

/-- C2. In every state reachable by `get_lineCC` calls from a state whose CC table
has no node, no chain holds two nodes with the same key: the file names of a
`CC_table` chain, the function names of a `fns[]` chain and the line numbers of a
`lines[]` chain are pairwise different. -/
theorem chains_have_unique_keys {σ : Type} (s : State σ) (h : Reachable s) :
    (∀ i, (s.CC_table i).Pairwise (fun x y => x.file ≠ y.file)) ∧
    (∀ i f, f ∈ s.CC_table i → ∀ j, (f.fns j).Pairwise (fun x y => x.fn ≠ y.fn)) ∧
    (∀ i f j g, f ∈ s.CC_table i → g ∈ f.fns j →
      ∀ k, (g.lines k).Pairwise (fun x y => x.line ≠ y.line)) := by
  have hwf := (cc_inv_of_reachable s h).1
  refine ⟨?_, ?_, ?_⟩
  · intro i
    exact List.pairwise_map.1 (hwf i).1
  · intro i f hf j
    exact List.pairwise_map.1 ((((hwf i).2 f hf).2 j).1)
  · intro i f j g hf hg k
    exact List.pairwise_map.1 (((((((hwf i).2 f hf).2 j).2 g hg).2) k).1)

theorem demo_state_reachable : Reachable demo_state :=
  Reachable.step (State.init ()) demo_state demo_dbg 4096 0
    (Reachable.empty _ (fun _ => rfl)) rfl

theorem chains_have_unique_keys_witness :
    Reachable demo_state ∧
    ((∀ i, (demo_state.CC_table i).Pairwise (fun x y => x.file ≠ y.file)) ∧
    (∀ i f, f ∈ demo_state.CC_table i → ∀ j, (f.fns j).Pairwise (fun x y => x.fn ≠ y.fn)) ∧
    (∀ i f j g, f ∈ demo_state.CC_table i → g ∈ f.fns j →
      ∀ k, (g.lines k).Pairwise (fun x y => x.line ≠ y.line))) :=
  ⟨demo_state_reachable, chains_have_unique_keys demo_state demo_state_reachable⟩

theorem fnCC_leaves_store (p : Nat) (f : lineCC → lineCC) (g : fnCC) :
    (g.store p f).leaves = g.leaves.map (lineCC.store p f) := by
  unfold fnCC.leaves fnCC.store
  simp only [List.map_flatMap]

theorem fileCC_leaves_store (p : Nat) (f : lineCC → lineCC) (fl : fileCC) :
    (fl.store p f).leaves = fl.leaves.map (lineCC.store p f) := by
  unfold fileCC.leaves fileCC.store
  simp only [List.map_flatMap, List.flatMap_map, fnCC_leaves_store]

/-- A store through a leaf pointer changes the list of leaves leaf by leaf. -/
theorem all_leaves_store (p : Nat) (f : lineCC → lineCC) (T : Nat → List fileCC) :
    all_leaves (table_store p f T) = (all_leaves T).map (lineCC.store p f) := by
  unfold all_leaves table_store
  simp only [List.map_flatMap, List.flatMap_map, fileCC_leaves_store]

theorem with_parent_ok {σ : Type} (n : instr_info) (f : lineCC → lineCC) (s : State σ) (p : Nat)
    (hp : n.parent = some p) (hlive : p ∈ (all_leaves s.CC_table).map lineCC.ptr) :
    with_parent n f s = .ok { s with CC_table := table_store p f s.CC_table } := by
  unfold with_parent
  rw [hp]
  simp only [if_pos hlive]

theorem ULong_add_small (x d : Nat) (h : x + d < 2 ^ 64) : ULong_add x d = x + d := by
  unfold ULong_add
  exact Nat.mod_eq_of_lt h

theorem CC_ref_small (c : CC) (d1 d2 : Nat) (ha : c.a + 1 < 2 ^ 64) (h1 : c.m1 + 1 < 2 ^ 64)
    (h2 : c.m2 + 1 < 2 ^ 64) (hd1 : d1 ≤ 1) (hd2 : d2 ≤ 1) :
    (c.ref d1 d2).a = c.a + 1 ∧ c.m1 ≤ (c.ref d1 d2).m1 ∧ (c.ref d1 d2).m1 ≤ c.m1 + 1 ∧
    c.m2 ≤ (c.ref d1 d2).m2 ∧ (c.ref d1 d2).m2 ≤ c.m2 + 1 := by
  unfold CC.ref
  simp only
  rw [ULong_add_small c.a 1 ha, ULong_add_small c.m1 d1 (by omega),
    ULong_add_small c.m2 d2 (by omega)]
  omega

/-- One accounting call on a record whose parent is the live leaf `p`: the call
returns, it is a store through `p`, and the leaf at `p` is advanced by the call. -/
theorem AccessCall_run_spec {σ : Type} (cs : CacheSim σ) (hsim : cs.adds_at_most_one)
    (c : AccessCall) (s : State σ) (p : Nat) (hp : c.record.parent = some p)
    (hlive : p ∈ (all_leaves s.CC_table).map lineCC.ptr) :
    ∃ s1 F, c.run cs s = .ok s1 ∧ s1.CC_table = table_store p F s.CC_table ∧
      ∀ L, L.ptr = p → (∀ x ∈ L.counters, x + 1 < 2 ^ 64) → leaf_after [c] L (F L) := by
  cases c with
  | c_1I_0D n =>
    simp only [AccessCall.record] at hp
    simp only [AccessCall.run, log_1I_0D_cache_access]
    obtain ⟨hi1, hi2, _, _⟩ := hsim s.sim n.instr_addr n.instr_size
    refine ⟨_, _, with_parent_ok n _ _ p hp hlive, rfl, ?_⟩
    intro L hL hov
    simp only [lineCC.counters, List.mem_cons, List.mem_singleton, forall_eq_or_imp, forall_eq,
      List.not_mem_nil, false_imp_iff, implies_true, and_true] at hov
    obtain ⟨h1, h2, h3, h4, h5, h6, h7, h8, h9⟩ := hov
    have hI := CC_ref_small L.Ir _ _ h1 h2 h3 hi1 hi2
    simp only [leaf_after, calls_on, lineCC.counters, AccessCall.record, AccessCall.reads,
      AccessCall.writes, hp, hL, List.filter, List.length, List.forall₂_cons, List.forall₂_nil_left_iff,
      Bool.true_and, Bool.false_and, decide_True, true_and, and_true]
    omega
  | c_1I_1Dr n a =>
    simp only [AccessCall.record] at hp
    simp only [AccessCall.run, log_1I_1Dr_cache_access]
    obtain ⟨hi1, hi2, _, _⟩ := hsim s.sim n.instr_addr n.instr_size
    obtain ⟨_, _, hd1, hd2⟩ := hsim (cs.I1_doref s.sim n.instr_addr n.instr_size).1 a n.data_size
    refine ⟨_, _, with_parent_ok n _ _ p hp hlive, rfl, ?_⟩
    intro L hL hov
    simp only [lineCC.counters, List.mem_cons, List.mem_singleton, forall_eq_or_imp, forall_eq,
      List.not_mem_nil, false_imp_iff, implies_true, and_true] at hov
    obtain ⟨h1, h2, h3, h4, h5, h6, h7, h8, h9⟩ := hov
    have hI := CC_ref_small L.Ir _ _ h1 h2 h3 hi1 hi2
    have hD := CC_ref_small L.Dr _ _ h4 h5 h6 hd1 hd2
    simp only [leaf_after, calls_on, lineCC.counters, AccessCall.record, AccessCall.reads,
      AccessCall.writes, hp, hL, List.filter, List.length, List.forall₂_cons, List.forall₂_nil_left_iff,
      Bool.true_and, Bool.false_and, decide_True, true_and, and_true]
    omega
  | c_1I_1Dw n a =>
    simp only [AccessCall.record] at hp
    simp only [AccessCall.run, log_1I_1Dw_cache_access]
    obtain ⟨hi1, hi2, _, _⟩ := hsim s.sim n.instr_addr n.instr_size
    obtain ⟨_, _, hd1, hd2⟩ := hsim (cs.I1_doref s.sim n.instr_addr n.instr_size).1 a n.data_size
    refine ⟨_, _, with_parent_ok n _ _ p hp hlive, rfl, ?_⟩
    intro L hL hov
    simp only [lineCC.counters, List.mem_cons, List.mem_singleton, forall_eq_or_imp, forall_eq,
      List.not_mem_nil, false_imp_iff, implies_true, and_true] at hov
    obtain ⟨h1, h2, h3, h4, h5, h6, h7, h8, h9⟩ := hov
    have hI := CC_ref_small L.Ir _ _ h1 h2 h3 hi1 hi2
    have hD := CC_ref_small L.Dw _ _ h7 h8 h9 hd1 hd2
    simp only [leaf_after, calls_on, lineCC.counters, AccessCall.record, AccessCall.reads,
      AccessCall.writes, hp, hL, List.filter, List.length, List.forall₂_cons, List.forall₂_nil_left_iff,
      Bool.true_and, Bool.false_and, decide_True, true_and, and_true]
    omega
  | c_1I_2D n a1 a2 =>
    simp only [AccessCall.record] at hp
    simp only [AccessCall.run, log_1I_2D_cache_access]
    obtain ⟨hi1, hi2, _, _⟩ := hsim s.sim n.instr_addr n.instr_size
    obtain ⟨_, _, hr1, hr2⟩ := hsim (cs.I1_doref s.sim n.instr_addr n.instr_size).1 a1 n.data_size
    obtain ⟨_, _, hw1, hw2⟩ := hsim
      (cs.D1_doref (cs.I1_doref s.sim n.instr_addr n.instr_size).1 a1 n.data_size).1 a2 n.data_size
    refine ⟨_, _, with_parent_ok n _ _ p hp hlive, rfl, ?_⟩
    intro L hL hov
    simp only [lineCC.counters, List.mem_cons, List.mem_singleton, forall_eq_or_imp, forall_eq,
      List.not_mem_nil, false_imp_iff, implies_true, and_true] at hov
    obtain ⟨h1, h2, h3, h4, h5, h6, h7, h8, h9⟩ := hov
    have hI := CC_ref_small L.Ir _ _ h1 h2 h3 hi1 hi2
    have hR := CC_ref_small L.Dr _ _ h4 h5 h6 hr1 hr2
    have hW := CC_ref_small L.Dw _ _ h7 h8 h9 hw1 hw2
    simp only [leaf_after, calls_on, lineCC.counters, AccessCall.record, AccessCall.reads,
      AccessCall.writes, hp, hL, List.filter, List.length, List.forall₂_cons, List.forall₂_nil_left_iff,
      Bool.true_and, Bool.false_and, decide_True, true_and, and_true]
    omega

theorem forall₂_compose {α : Type} (R S T : α → α → Prop) (hRS : ∀ a b c, R a b → S b c → T a c)
    (l1 l2 l3 : List α) (h1 : List.Forall₂ R l1 l2) (h2 : List.Forall₂ S l2 l3) :
    List.Forall₂ T l1 l3 := by
  induction h1 generalizing l3 with
  | nil =>
    cases h2
    exact List.Forall₂.nil
  | cons hab _ ih =>
    cases h2 with
    | cons hbc htl => exact List.Forall₂.cons (hRS _ _ _ hab hbc) (ih _ htl)

theorem forall₂_mem_right {α : Type} (R : α → α → Prop) (l1 l2 : List α)
    (h : List.Forall₂ R l1 l2) (b : α) (hb : b ∈ l2) : ∃ a, a ∈ l1 ∧ R a b := by
  induction h with
  | nil => simp at hb
  | cons hab _ ih =>
    rcases List.mem_cons.1 hb with hb1 | hb1
    · subst hb1
      exact ⟨_, List.mem_cons_self _ _, hab⟩
    · obtain ⟨a, ha, hr⟩ := ih hb1
      exact ⟨a, List.mem_cons_of_mem _ ha, hr⟩

theorem forall₂_map_ptr (R : lineCC → lineCC → Prop) (hR : ∀ a b, R a b → b.ptr = a.ptr)
    (l1 l2 : List lineCC) (h : List.Forall₂ R l1 l2) :
    l2.map lineCC.ptr = l1.map lineCC.ptr := by
  induction h with
  | nil => rfl
  | cons hab _ ih => simp [hR _ _ hab, ih]

theorem calls_on_cons (sel : AccessCall → Bool) (p : Nat) (c : AccessCall)
    (rest : List AccessCall) :
    calls_on sel p (c :: rest) = calls_on sel p [c] + calls_on sel p rest := by
  unfold calls_on
  simp only [List.filter_cons, List.filter_nil]
  split
  · simp
    omega
  · simp

theorem calls_on_le (sel : AccessCall → Bool) (p : Nat) (calls : List AccessCall) :
    calls_on sel p calls ≤ calls.length := by
  unfold calls_on
  exact List.length_filter_le _ _

theorem leaf_after_nil (L : lineCC) : leaf_after [] L L := by
  simp [leaf_after, calls_on, lineCC.counters]

theorem leaf_after_cons (c : AccessCall) (rest : List AccessCall) (L L0 L1 : lineCC)
    (h0 : leaf_after [c] L L0) (h1 : leaf_after rest L0 L1) : leaf_after (c :: rest) L L1 := by
  obtain ⟨a1, a2, a3, a4, a5, a6⟩ := h0
  obtain ⟨b1, b2, b3, b4, b5, b6⟩ := h1
  rw [a1] at b3 b4 b5
  simp only [lineCC.counters, List.forall₂_cons, List.forall₂_nil_left_iff, List.length_cons,
    List.length_nil] at a6 b6
  refine ⟨by rw [b1, a1], by rw [b2, a2], ?_, ?_, ?_, ?_⟩
  · rw [calls_on_cons]; omega
  · rw [calls_on_cons]; omega
  · rw [calls_on_cons]; omega
  · simp only [lineCC.counters, List.forall₂_cons, List.forall₂_nil_left_iff, List.length_cons,
      and_true]
    repeat' apply And.intro
    all_goals omega

/-- A leaf that a call is not made on is as it was. -/
theorem leaf_after_other (c : AccessCall) (L : lineCC) (h : c.record.parent ≠ some L.ptr) :
    leaf_after [c] L L := by
  simp [leaf_after, calls_on, lineCC.counters, h]

/-- A sequence of accounting calls, each on a record whose parent is a leaf of
the table, no counter being within the number of calls of `2 ^ 64`: the sequence
returns, and every leaf is related to its former contents by `leaf_after`. -/
theorem run_calls_spec {σ : Type} (cs : CacheSim σ) (hsim : cs.adds_at_most_one)
    (calls : List AccessCall) (s : State σ)
    (hpar : ∀ c ∈ calls, c.record.parent ∈ (all_leaves s.CC_table).map (fun L => some L.ptr))
    (hov : ∀ L ∈ all_leaves s.CC_table, ∀ x ∈ L.counters, x + calls.length < 2 ^ 64) :
    ∃ s1, run_calls cs calls s = .ok s1 ∧
      List.Forall₂ (leaf_after calls) (all_leaves s.CC_table) (all_leaves s1.CC_table) := by
  induction calls generalizing s with
  | nil =>
    exact ⟨s, rfl, List.forall₂_same.2 (fun L _ => leaf_after_nil L)⟩
  | cons c rest ih =>
    obtain ⟨L0, hL0, hL0p⟩ := List.mem_map.1 (hpar c (List.mem_cons_self _ _))
    have hlive : L0.ptr ∈ (all_leaves s.CC_table).map lineCC.ptr := List.mem_map.2 ⟨L0, hL0, rfl⟩
    obtain ⟨s0, F, hrun, hT, hF⟩ := AccessCall_run_spec cs hsim c s L0.ptr hL0p.symm hlive
    have hstep : List.Forall₂ (leaf_after [c]) (all_leaves s.CC_table) (all_leaves s0.CC_table) := by
      rw [hT, all_leaves_store, List.forall₂_map_right_iff, List.forall₂_same]
      intro L hL
      unfold lineCC.store
      split
      case isTrue hp =>
        apply hF L hp
        intro x hx
        have := hov L hL x hx
        simp only [List.length_cons] at this
        omega
      case isFalse hp =>
        apply leaf_after_other
        rw [← hL0p]
        intro heq
        exact hp (Option.some.inj heq).symm
    have hptrs : (all_leaves s0.CC_table).map lineCC.ptr = (all_leaves s.CC_table).map lineCC.ptr :=
      forall₂_map_ptr _ (fun a b h => h.1) _ _ hstep
    obtain ⟨s1, hrun1, hrest⟩ := ih s0
      (by
        intro c1 hc1
        obtain ⟨L1, hL1, hL1p⟩ := List.mem_map.1 (hpar c1 (List.mem_cons_of_mem _ hc1))
        have h1 : L1.ptr ∈ (all_leaves s0.CC_table).map lineCC.ptr := by
          rw [hptrs]
          exact List.mem_map.2 ⟨L1, hL1, rfl⟩
        obtain ⟨L2, hL2, hL2p⟩ := List.mem_map.1 h1
        exact List.mem_map.2 ⟨L2, hL2, by rw [hL2p, hL1p]⟩)
      (by
        intro L1 hL1 y hy
        obtain ⟨L, hL, hLL⟩ := forall₂_mem_right _ _ _ hstep L1 hL1
        have hb := hLL.2.2.2.2.2
        have hovL := hov L hL
        simp only [lineCC.counters, List.forall₂_cons, List.forall₂_nil_left_iff, List.length_cons,
          List.length_nil, List.mem_cons, List.mem_singleton, forall_eq_or_imp, forall_eq,
          List.not_mem_nil, false_imp_iff, implies_true, and_true] at hb hovL hy
        rcases hy with h | h | h | h | h | h | h | h | h | h <;> first | omega | exact absurd h id)
    refine ⟨s1, ?_, forall₂_compose _ _ _ (leaf_after_cons c rest) _ _ _ hstep hrest⟩
    simp only [run_calls, hrun, hrun1]

theorem run_calls_append {σ : Type} (cs : CacheSim σ) (pre post : List AccessCall) (s s1 : State σ)
    (h : run_calls cs pre s = .ok s1) : run_calls cs (pre ++ post) s = run_calls cs post s1 := by
  induction pre generalizing s with
  | nil =>
    simp only [run_calls, Except.ok.injEq] at h
    subst h
    rfl
  | cons c rest ih =>
    simp only [run_calls, List.cons_append] at h ⊢
    cases hc : c.run cs s with
    | error e => rw [hc] at h; simp at h
    | ok s0 =>
      rw [hc] at h
      simp only at h ⊢
      exact ih s0 h

/-- C3. For a simulator that adds 0 or 1 to a miss counter, and a sequence
`pre ++ post` of calls of the four accounting helpers, made on records whose
parent is a leaf of the CC table, no counter being within the number of calls of
`2 ^ 64`: the calls return; between any two moments of the sequence (after `pre`
and after `pre ++ post`) every one of the nine counters of every leaf has not
decreased; and at the end, for every leaf, `Ir.a` has advanced by the number of
calls made on records whose parent is the leaf, `Dr.a` by the number of `1I_1Dr`
and `1I_2D` calls among them and `Dw.a` by the number of `1I_1Dw` and `1I_2D`
calls among them, so that a leaf whose counters were zero holds exactly these
numbers. -/
theorem accounting_counters {σ : Type} (cs : CacheSim σ) (hsim : cs.adds_at_most_one)
    (pre post : List AccessCall) (s : State σ)
    (hpar : ∀ c ∈ pre ++ post,
      c.record.parent ∈ (all_leaves s.CC_table).map (fun L => some L.ptr))
    (hov : ∀ L ∈ all_leaves s.CC_table, ∀ x ∈ L.counters, x + (pre ++ post).length < 2 ^ 64) :
    ∃ s1 s2, run_calls cs pre s = .ok s1 ∧ run_calls cs (pre ++ post) s = .ok s2 ∧
      List.Forall₂ (fun L1 L2 => L2.ptr = L1.ptr ∧ L2.line = L1.line ∧
          List.Forall₂ (fun x y => x ≤ y) L1.counters L2.counters)
        (all_leaves s1.CC_table) (all_leaves s2.CC_table) ∧
      List.Forall₂ (fun L L2 => L2.ptr = L.ptr ∧ L2.line = L.line ∧
          L2.Ir.a = L.Ir.a + calls_on (fun _ => true) L.ptr (pre ++ post) ∧
          L2.Dr.a = L.Dr.a + calls_on AccessCall.reads L.ptr (pre ++ post) ∧
          L2.Dw.a = L.Dw.a + calls_on AccessCall.writes L.ptr (pre ++ post) ∧
          (L.counters = [0, 0, 0, 0, 0, 0, 0, 0, 0] →
            L2.Ir.a = calls_on (fun _ => true) L.ptr (pre ++ post) ∧
            L2.Dr.a = calls_on AccessCall.reads L.ptr (pre ++ post) ∧
            L2.Dw.a = calls_on AccessCall.writes L.ptr (pre ++ post)))
        (all_leaves s.CC_table) (all_leaves s2.CC_table) := by
  obtain ⟨s2, hrun2, hall⟩ := run_calls_spec cs hsim (pre ++ post) s hpar hov
  obtain ⟨s1, hrun1, hpre⟩ := run_calls_spec cs hsim pre s
    (fun c hc => hpar c (List.mem_append_left _ hc))
    (by
      intro L hL x hx
      have := hov L hL x hx
      simp only [List.length_append] at this
      omega)
  have hptrs : (all_leaves s1.CC_table).map lineCC.ptr = (all_leaves s.CC_table).map lineCC.ptr :=
    forall₂_map_ptr _ (fun a b h => h.1) _ _ hpre
  obtain ⟨s2a, hrun2a, hpost⟩ := run_calls_spec cs hsim post s1
    (by
      intro c hc
      obtain ⟨L1, hL1, hL1p⟩ := List.mem_map.1 (hpar c (List.mem_append_right _ hc))
      have h1 : L1.ptr ∈ (all_leaves s1.CC_table).map lineCC.ptr := by
        rw [hptrs]
        exact List.mem_map.2 ⟨L1, hL1, rfl⟩
      obtain ⟨L2, hL2, hL2p⟩ := List.mem_map.1 h1
      exact List.mem_map.2 ⟨L2, hL2, by rw [hL2p, hL1p]⟩)
    (by
      intro L1 hL1 y hy
      obtain ⟨L, hL, hLL⟩ := forall₂_mem_right _ _ _ hpre L1 hL1
      have hb := hLL.2.2.2.2.2
      have hovL := hov L hL
      simp only [lineCC.counters, List.forall₂_cons, List.forall₂_nil_left_iff, List.length_append,
        List.mem_cons, List.mem_singleton, forall_eq_or_imp, forall_eq,
        List.not_mem_nil, false_imp_iff, implies_true, and_true] at hb hovL hy
      rcases hy with h | h | h | h | h | h | h | h | h | h <;> first | omega | exact absurd h id)
  have hs2 : s2a = s2 := by
    have := run_calls_append cs pre post s s1 hrun1
    rw [hrun2, hrun2a] at this
    exact (Except.ok.inj this).symm
  subst hs2
  refine ⟨s1, s2a, hrun1, hrun2, ?_, ?_⟩
  · refine List.Forall₂.imp ?_ hpost
    intro L1 L2 h
    refine ⟨h.1, h.2.1, ?_⟩
    refine List.Forall₂.imp ?_ h.2.2.2.2.2
    intro x y hxy
    exact hxy.1
  · refine List.Forall₂.imp ?_ hall
    intro L L2 h
    refine ⟨h.1, h.2.1, h.2.2.1, h.2.2.2.1, h.2.2.2.2.1, ?_⟩
    intro hz
    simp only [lineCC.counters, List.cons.injEq, and_true] at hz
    obtain ⟨z1, _, _, z4, _, _, z7, _, _⟩ := hz
    have a1 := h.2.2.1
    have a2 := h.2.2.2.1
    have a3 := h.2.2.2.2.1
    rw [z1] at a1
    rw [z4] at a2
    rw [z7] at a3
    exact ⟨by omega, by omega, by omega⟩

theorem demo_sim_adds_at_most_one : demo_sim.adds_at_most_one :=
  fun _ _ _ => ⟨le_refl 1, le_refl 1, le_refl 1, le_refl 1⟩

set_option maxRecDepth 100000 in
theorem accounting_counters_witness :
    demo_sim.adds_at_most_one ∧
    (∀ c ∈ demo_access_pre ++ demo_access_post,
      c.record.parent ∈ (all_leaves demo_state.CC_table).map (fun L => some L.ptr)) ∧
    (∀ L ∈ all_leaves demo_state.CC_table, ∀ x ∈ L.counters,
      x + (demo_access_pre ++ demo_access_post).length < 2 ^ 64) ∧
    ∃ s1 s2, run_calls demo_sim demo_access_pre demo_state = .ok s1 ∧
      run_calls demo_sim (demo_access_pre ++ demo_access_post) demo_state = .ok s2 ∧
      List.Forall₂ (fun L1 L2 => L2.ptr = L1.ptr ∧ L2.line = L1.line ∧
          List.Forall₂ (fun x y => x ≤ y) L1.counters L2.counters)
        (all_leaves s1.CC_table) (all_leaves s2.CC_table) ∧
      List.Forall₂ (fun L L2 => L2.ptr = L.ptr ∧ L2.line = L.line ∧
          L2.Ir.a = L.Ir.a + calls_on (fun _ => true) L.ptr (demo_access_pre ++ demo_access_post) ∧
          L2.Dr.a = L.Dr.a + calls_on AccessCall.reads L.ptr (demo_access_pre ++ demo_access_post) ∧
          L2.Dw.a = L.Dw.a + calls_on AccessCall.writes L.ptr (demo_access_pre ++ demo_access_post) ∧
          (L.counters = [0, 0, 0, 0, 0, 0, 0, 0, 0] →
            L2.Ir.a = calls_on (fun _ => true) L.ptr (demo_access_pre ++ demo_access_post) ∧
            L2.Dr.a = calls_on AccessCall.reads L.ptr (demo_access_pre ++ demo_access_post) ∧
            L2.Dw.a = calls_on AccessCall.writes L.ptr (demo_access_pre ++ demo_access_post)))
        (all_leaves demo_state.CC_table) (all_leaves s2.CC_table) :=
  ⟨demo_sim_adds_at_most_one, by decide, by decide,
    accounting_counters demo_sim demo_sim_adds_at_most_one demo_access_pre demo_access_post
      demo_state (by decide) (by decide)⟩

theorem emitted_refl {σ : Type} (get : State σ → Nat) (f : lineCC → Nat)
    (a : List ReportLine × State σ) : emitted get f [] a a := by
  simp [emitted]

theorem emitted_trans {σ : Type} (get : State σ → Nat) (f : lineCC → Nat) (l1 l2 : List lineCC)
    (a b c : List ReportLine × State σ) (h1 : emitted get f l1 a b) (h2 : emitted get f l2 b c) :
    emitted get f (l1 ++ l2) a c := by
  obtain ⟨a1, a2, a3⟩ := h1
  obtain ⟨b1, b2, b3⟩ := h2
  refine ⟨by rw [b1, a1], ?_, ?_⟩
  · rw [b2, a2, List.map_append, List.append_assoc]
  · rw [b3, a3, List.foldl_append]

/-- A loop over a list whose body emits the leaves `F x` emits their concatenation. -/
theorem emitted_foldl {σ α : Type} (get : State σ → Nat) (f : lineCC → Nat)
    (T : Nat → List fileCC) (F : α → List lineCC)
    (step : List ReportLine × State σ → α → List ReportLine × State σ)
    (hstep : ∀ x a, a.2.CC_table = T → emitted get f (F x) a (step a x))
    (l : List α) (a : List ReportLine × State σ) (ha : a.2.CC_table = T) :
    emitted get f (l.flatMap F) a (l.foldl step a) := by
  induction l generalizing a with
  | nil => exact emitted_refl get f a
  | cons x xs ih =>
    simp only [List.flatMap_cons, List.foldl_cons]
    have h1 := hstep x a ha
    exact emitted_trans get f _ _ _ _ _ h1 (ih (step a x) (by rw [h1.1, ha]))

theorem emitted_line {σ : Type} (get : State σ → Nat) (f : lineCC → Nat)
    (hget : ∀ n (a : List ReportLine × State σ),
      get (fprint_lineCC n a).2 = ULong_add (get a.2) (f n))
    (n : lineCC) (a : List ReportLine × State σ) : emitted get f [n] a (fprint_lineCC n a) := by
  refine ⟨rfl, ?_, ?_⟩
  · simp [fprint_lineCC, record_fields, lineCC.counters, List.filterMap_append]
  · simp [hget]

theorem emitted_fnCC {σ : Type} (get : State σ → Nat) (f : lineCC → Nat)
    (hget : ∀ n (a : List ReportLine × State σ),
      get (fprint_lineCC n a).2 = ULong_add (get a.2) (f n))
    (g : fnCC) (a : List ReportLine × State σ) : emitted get f g.leaves a (fprint_fnCC g a) := by
  unfold fprint_fnCC fnCC.leaves
  have h0 : emitted get f [] a (a.1 ++ [ReportLine.fn g.fn], a.2) := by
    refine ⟨rfl, ?_, rfl⟩
    simp [record_fields, List.filterMap_append]
  have h1 := emitted_foldl get f a.2.CC_table g.lines
    (fun acc k => (g.lines k).foldl (fun acc curr_lineCC => fprint_lineCC curr_lineCC acc) acc)
    (by
      intro k b hb
      have := emitted_foldl get f a.2.CC_table (fun n => [n])
        (fun acc curr_lineCC => fprint_lineCC curr_lineCC acc)
        (fun n c _ => emitted_line get f hget n c) (g.lines k) b hb
      simpa using this)
    (List.range N_LINE_ENTRIES) (a.1 ++ [ReportLine.fn g.fn], a.2) rfl
  exact emitted_trans get f [] _ _ _ _ h0 h1

theorem emitted_fileCC {σ : Type} (get : State σ → Nat) (f : lineCC → Nat)
    (hget : ∀ n (a : List ReportLine × State σ),
      get (fprint_lineCC n a).2 = ULong_add (get a.2) (f n))
    (fl : fileCC) (a : List ReportLine × State σ) :
    emitted get f fl.leaves a (fprint_fileCC fl a) := by
  unfold fprint_fileCC fileCC.leaves
  have h0 : emitted get f [] a (a.1 ++ [ReportLine.fl fl.file], a.2) := by
    refine ⟨rfl, ?_, rfl⟩
    simp [record_fields, List.filterMap_append]
  have h1 := emitted_foldl get f a.2.CC_table (fun j => (fl.fns j).flatMap fnCC.leaves)
    (fun acc j => (fl.fns j).foldl (fun acc curr_fnCC => fprint_fnCC curr_fnCC acc) acc)
    (by
      intro j b hb
      exact emitted_foldl get f a.2.CC_table fnCC.leaves
        (fun acc curr_fnCC => fprint_fnCC curr_fnCC acc)
        (fun g c _ => emitted_fnCC get f hget g c) (fl.fns j) b hb)
    (List.range N_FN_ENTRIES) (a.1 ++ [ReportLine.fl fl.file], a.2) rfl
  exact emitted_trans get f [] _ _ _ _ h0 h1

/-- The six loops write the records of all the leaves of the table, in the order
of `all_leaves`, and add every leaf to the totals. -/
theorem emitted_table {σ : Type} (get : State σ → Nat) (f : lineCC → Nat)
    (hget : ∀ n (a : List ReportLine × State σ),
      get (fprint_lineCC n a).2 = ULong_add (get a.2) (f n))
    (a : List ReportLine × State σ) :
    emitted get f (all_leaves a.2.CC_table) a (fprint_table a) := by
  unfold fprint_table all_leaves
  exact emitted_foldl get f a.2.CC_table (fun i => (a.2.CC_table i).flatMap fileCC.leaves)
    (fun acc i =>
      (acc.2.CC_table i).foldl (fun acc curr_fileCC => fprint_fileCC curr_fileCC acc) acc)
    (by
      intro i b hb
      simp only [hb]
      exact emitted_foldl get f a.2.CC_table fileCC.leaves
        (fun acc curr_fileCC => fprint_fileCC curr_fileCC acc)
        (fun fl c _ => emitted_fileCC get f hget fl c) (a.2.CC_table i) b hb)
    (List.range N_FILE_ENTRIES) a rfl

/-- Adding numbers one after the other in 64-bit arithmetic gives the sum modulo
`2 ^ 64`. -/
theorem foldl_ULong_add {α : Type} (f : α → Nat) (l : List α) (t : Nat) :
    l.foldl (fun t n => ULong_add t (f n)) t % 2 ^ 64 = (t + (l.map f).sum) % 2 ^ 64 := by
  induction l generalizing t with
  | nil => simp
  | cons x xs ih =>
    simp only [List.foldl_cons, List.map_cons, List.sum_cons]
    rw [ih]
    unfold ULong_add
    omega

theorem foldl_ULong_add_zero {α : Type} (f : α → Nat) (l : List α) :
    l.foldl (fun t n => ULong_add t (f n)) 0 = (l.map f).sum % 2 ^ 64 := by
  have h := foldl_ULong_add f l 0
  rw [Nat.zero_add] at h
  rw [← h]
  symm
  apply Nat.mod_eq_of_lt
  cases l with
  | nil => simp
  | cons x xs =>
    have : ∀ (ys : List α) (t : Nat), t < 2 ^ 64 →
        ys.foldl (fun t n => ULong_add t (f n)) t < 2 ^ 64 := by
      intro ys
      induction ys with
      | nil => intro t ht; exact ht
      | cons y ys ih =>
        intro t _
        simp only [List.foldl_cons]
        exact ih _ (Nat.mod_lt _ (by norm_num))
    exact this _ 0 (by norm_num)

theorem summary_not_mem_of_record_fields (out : List ReportLine)
    (h : ∀ l ∈ out, ∀ t, l ≠ ReportLine.summary t) (t : List Nat) :
    ReportLine.summary t ∉ out :=
  fun hm => h _ hm t rfl

/-- No line written by the six loops is a summary line. -/
theorem fprint_table_no_summary {σ : Type} (a : List ReportLine × State σ)
    (h : ∀ l ∈ a.1, ∀ t, l ≠ ReportLine.summary t) :
    ∀ l ∈ (fprint_table a).1, ∀ t, l ≠ ReportLine.summary t := by
  have hline : ∀ (n : lineCC) (b : List ReportLine × State σ),
      (∀ l ∈ b.1, ∀ t, l ≠ ReportLine.summary t) →
      ∀ l ∈ (fprint_lineCC n b).1, ∀ t, l ≠ ReportLine.summary t := by
    intro n b hb l hl t
    simp only [fprint_lineCC, List.mem_append, List.mem_singleton] at hl
    rcases hl with hl | hl
    · exact hb l hl t
    · rw [hl]; simp
  have hfold : ∀ {α : Type} (step : List ReportLine × State σ → α → List ReportLine × State σ)
      (_ : ∀ x b, (∀ l ∈ b.1, ∀ t, l ≠ ReportLine.summary t) →
        ∀ l ∈ (step b x).1, ∀ t, l ≠ ReportLine.summary t)
      (xs : List α) (b : List ReportLine × State σ),
      (∀ l ∈ b.1, ∀ t, l ≠ ReportLine.summary t) →
      ∀ l ∈ (xs.foldl step b).1, ∀ t, l ≠ ReportLine.summary t := by
    intro α step hs xs
    induction xs with
    | nil => intro b hb; exact hb
    | cons x xs ih =>
      intro b hb
      simp only [List.foldl_cons]
      exact ih _ (hs x b hb)
  have hfn : ∀ (g : fnCC) (b : List ReportLine × State σ),
      (∀ l ∈ b.1, ∀ t, l ≠ ReportLine.summary t) →
      ∀ l ∈ (fprint_fnCC g b).1, ∀ t, l ≠ ReportLine.summary t := by
    intro g b hb
    unfold fprint_fnCC
    apply hfold
    · intro k c hc
      exact hfold _ (fun n d hd => hline n d hd) _ c hc
    · intro l hl t
      simp only [List.mem_append, List.mem_singleton] at hl
      rcases hl with hl | hl
      · exact hb l hl t
      · rw [hl]; simp
  have hfile : ∀ (f : fileCC) (b : List ReportLine × State σ),
      (∀ l ∈ b.1, ∀ t, l ≠ ReportLine.summary t) →
      ∀ l ∈ (fprint_fileCC f b).1, ∀ t, l ≠ ReportLine.summary t := by
    intro f b hb
    unfold fprint_fileCC
    apply hfold
    · intro j c hc
      exact hfold _ (fun g d hd => hfn g d hd) _ c hc
    · intro l hl t
      simp only [List.mem_append, List.mem_singleton] at hl
      rcases hl with hl | hl
      · exact hb l hl t
      · rw [hl]; simp
  unfold fprint_table
  apply hfold
  · intro i c hc
    exact hfold _ (fun f d hd => hfile f d hd) _ c hc
  · exact h

/-- C4. When `fprint_CC_table_and_calc_totals` runs with `Ir_total`, `Dr_total`
and `Dw_total` zero and the output file opened, the file ends with the summary
line, the per-line records written before it are those of the leaves of the CC
table, and each of the nine fields of the summary line is the sum, in 64-bit
unsigned arithmetic, of that field over all the per-line records written, which
is the sum of that counter over all the leaves of the CC table. -/
theorem summary_is_sum_of_records {σ : Type} (env : ReportEnv) (s : State σ)
    (hfd : 0 ≤ env.fd)
    (hzero : s.Ir_total = CC.zero ∧ s.Dr_total = CC.zero ∧ s.Dw_total = CC.zero) :
    ∃ body totals,
      (fprint_CC_table_and_calc_totals env s).1 = some (body ++ [ReportLine.summary totals]) ∧
      (∀ t, ReportLine.summary t ∉ body) ∧
      totals.length = 9 ∧
      record_fields body = (all_leaves s.CC_table).map lineCC.counters ∧
      ∀ i, i < 9 →
        totals.getD i 0 = column_sum i (record_fields body) % 2 ^ 64 ∧
        totals.getD i 0 =
          ((all_leaves s.CC_table).map (fun L => L.counters.getD i 0)).sum % 2 ^ 64 := by
  obtain ⟨hIr, hDr, hDw⟩ := hzero
  have hopen : ¬ env.fd < 0 := not_lt.2 hfd
  unfold fprint_CC_table_and_calc_totals
  rw [if_neg hopen]
  generalize ha : ([ReportLine.desc env.I1_desc env.D1_desc env.L2_desc,
    ReportLine.cmd env.client_argv, ReportLine.events], s) = a
  have ha1 : a.1 = [ReportLine.desc env.I1_desc env.D1_desc env.L2_desc,
    ReportLine.cmd env.client_argv, ReportLine.events] := by rw [← ha]
  have ha2 : a.2 = s := by rw [← ha]
  have hrec : record_fields (fprint_table a).1 = (all_leaves s.CC_table).map lineCC.counters := by
    have h := (emitted_table (fun s => s.Ir_total.a) (fun n => n.Ir.a) (fun _ _ => rfl) a).2.1
    rw [h, ha1, ha2]
    simp [record_fields]
  have hnos := fprint_table_no_summary a (by
    intro l hl t
    rw [ha1] at hl
    simp only [List.mem_cons, List.mem_singleton, List.not_mem_nil, or_false] at hl
    rcases hl with hl | hl | hl <;> rw [hl] <;> simp)
  have hsum : ∀ (get : State σ → Nat) (f : lineCC → Nat),
      (∀ n (b : List ReportLine × State σ),
        get (fprint_lineCC n b).2 = ULong_add (get b.2) (f n)) → get s = 0 →
      get (fprint_table a).2 = ((all_leaves s.CC_table).map f).sum % 2 ^ 64 := by
    intro get f hget h0
    have h := (emitted_table get f hget a).2.2
    rw [h, ha2, h0]
    exact foldl_ULong_add_zero f _
  have e1 := hsum (fun s => s.Ir_total.a) (fun n => n.Ir.a) (fun _ _ => rfl)
    (by show _ = 0; simp only [hIr]; rfl)
  have e2 := hsum (fun s => s.Ir_total.m1) (fun n => n.Ir.m1) (fun _ _ => rfl)
    (by show _ = 0; simp only [hIr]; rfl)
  have e3 := hsum (fun s => s.Ir_total.m2) (fun n => n.Ir.m2) (fun _ _ => rfl)
    (by show _ = 0; simp only [hIr]; rfl)
  have e4 := hsum (fun s => s.Dr_total.a) (fun n => n.Dr.a) (fun _ _ => rfl)
    (by show _ = 0; simp only [hDr]; rfl)
  have e5 := hsum (fun s => s.Dr_total.m1) (fun n => n.Dr.m1) (fun _ _ => rfl)
    (by show _ = 0; simp only [hDr]; rfl)
  have e6 := hsum (fun s => s.Dr_total.m2) (fun n => n.Dr.m2) (fun _ _ => rfl)
    (by show _ = 0; simp only [hDr]; rfl)
  have e7 := hsum (fun s => s.Dw_total.a) (fun n => n.Dw.a) (fun _ _ => rfl)
    (by show _ = 0; simp only [hDw]; rfl)
  have e8 := hsum (fun s => s.Dw_total.m1) (fun n => n.Dw.m1) (fun _ _ => rfl)
    (by show _ = 0; simp only [hDw]; rfl)
  have e9 := hsum (fun s => s.Dw_total.m2) (fun n => n.Dw.m2) (fun _ _ => rfl)
    (by show _ = 0; simp only [hDw]; rfl)
  generalize fprint_table a = r at hrec hnos e1 e2 e3 e4 e5 e6 e7 e8 e9
  obtain ⟨out, s1⟩ := r
  simp only at hrec hnos e1 e2 e3 e4 e5 e6 e7 e8 e9 ⊢
  refine ⟨out, _, rfl, fun t hm => hnos _ hm t rfl, rfl, hrec, ?_⟩
  intro i hi
  rw [hrec]
  unfold column_sum
  rw [List.map_map]
  have hcomp : ∀ (k : Nat), ((fun r : List Nat => r.getD k 0) ∘ lineCC.counters) =
      (fun L : lineCC => L.counters.getD k 0) := fun _ => rfl
  rw [hcomp]
  refine ⟨?_, ?_⟩ <;>
  · interval_cases i
    · exact e1
    · exact e2
    · exact e3
    · exact e4
    · exact e5
    · exact e6
    · exact e7
    · exact e8
    · exact e9

set_option maxRecDepth 100000 in
theorem summary_is_sum_of_records_witness :
    (0 ≤ demo_env.fd) ∧
    (demo_counted_state.Ir_total = CC.zero ∧ demo_counted_state.Dr_total = CC.zero ∧
      demo_counted_state.Dw_total = CC.zero) ∧
    (fprint_CC_table_and_calc_totals demo_env demo_counted_state).1 =
      some [ReportLine.desc [] [] [], ReportLine.cmd [], ReportLine.events,
        ReportLine.fl [97, 46, 99], ReportLine.fn [102],
        ReportLine.record 10 [3, 3, 3, 1, 1, 1, 2, 2, 2],
        ReportLine.summary [3, 3, 3, 1, 1, 1, 2, 2, 2]] ∧
    ∃ body totals,
      (fprint_CC_table_and_calc_totals demo_env demo_counted_state).1 =
        some (body ++ [ReportLine.summary totals]) ∧
      (∀ t, ReportLine.summary t ∉ body) ∧
      totals.length = 9 ∧
      record_fields body = (all_leaves demo_counted_state.CC_table).map lineCC.counters ∧
      ∀ i, i < 9 →
        totals.getD i 0 = column_sum i (record_fields body) % 2 ^ 64 ∧
        totals.getD i 0 =
          ((all_leaves demo_counted_state.CC_table).map
            (fun L => L.counters.getD i 0)).sum % 2 ^ 64 :=
  ⟨by decide, ⟨rfl, rfl, rfl⟩, by decide,
    summary_is_sum_of_records demo_env demo_counted_state (by decide) ⟨rfl, rfl, rfl⟩⟩

theorem is_pow2_lt (x : Int) (h : is_pow2 x) (hx : x < 2 ^ 31) : ∃ k : Nat, k < 31 ∧ x = 2 ^ k := by
  obtain ⟨k, hk⟩ := h
  refine ⟨k, ?_, hk⟩
  by_contra hge
  have hge : 31 ≤ k := not_lt.1 hge
  have h1 : (2 : Int) ^ 31 ≤ 2 ^ k := pow_le_pow_right₀ (by norm_num) hge
  omega

/-- The model of `VG_(log2)` returns -1 exactly for the `Int` values that are not
a positive power of two. -/
theorem VG_log2_spec (x : Int) (hx : is_Int x) : VG_log2 x = -1 ↔ ¬ is_pow2 x := by
  unfold VG_log2
  constructor
  · intro h hp
    obtain ⟨k, hk, hxk⟩ := is_pow2_lt x hp hx.2
    cases hf : (List.range 31).find? (fun i => decide ((2 : Int) ^ i = x)) with
    | some i =>
      rw [hf] at h
      simp only at h
      omega
    | none =>
      have := List.find?_eq_none.1 hf k (List.mem_range.2 hk)
      simp only [decide_eq_true_eq] at this
      exact this hxk.symm
  · intro hnp
    cases hf : (List.range 31).find? (fun i => decide ((2 : Int) ^ i = x)) with
    | some i =>
      have := (find_mem_and _ i _ hf).2
      simp only [decide_eq_true_eq] at this
      exact absurd ⟨i, this.symm⟩ hnp
    | none => rfl

theorem not_is_pow2_three : ¬ is_pow2 3 := by
  rintro ⟨k, hk⟩
  cases k with
  | zero => simp at hk
  | succ k =>
    have : (2 : Int) ^ (k + 1) = 2 * 2 ^ k := by ring
    omega

/-- C5. For a function `log2` that returns -1 exactly when its argument is not a
positive power of two, `check_cache` returns for the triple
`{size, assoc, line_size}` if and only if the three values are powers of two,
`line_size >= 16`, `size > line_size` and `assoc <= size / line_size`; for every
other triple it exits with status 1. `{4096, 3, 32}` and `{32, 1, 64}` are
rejected and `{32768, 8, 64}` is accepted. -/
theorem check_cache_accepts_iff (log2 : Int → Int)
    (hlog2 : ∀ x, is_Int x → (log2 x = -1 ↔ ¬ is_pow2 x))
    (c : cache_t) (hc : is_Int c.size ∧ is_Int c.assoc ∧ is_Int c.line_size) :
    (check_cache log2 c = .ok () ↔
      is_pow2 c.size ∧ is_pow2 c.assoc ∧ is_pow2 c.line_size ∧
      16 ≤ c.line_size ∧ c.line_size < c.size ∧ c.assoc ≤ c.size / c.line_size) ∧
    (check_cache log2 c ≠ .ok () → check_cache log2 c = .error (Fatal.exit 1)) ∧
    check_cache log2 ⟨4096, 3, 32⟩ = .error (Fatal.exit 1) ∧
    check_cache log2 ⟨32, 1, 64⟩ = .error (Fatal.exit 1) ∧
    check_cache log2 ⟨32768, 8, 64⟩ = .ok () := by
  have hgen : ∀ c : cache_t, is_Int c.size ∧ is_Int c.assoc ∧ is_Int c.line_size →
      ((check_cache log2 c = .ok () ↔
        is_pow2 c.size ∧ is_pow2 c.assoc ∧ is_pow2 c.line_size ∧
        16 ≤ c.line_size ∧ c.line_size < c.size ∧ c.assoc ≤ c.size / c.line_size) ∧
      (check_cache log2 c ≠ .ok () → check_cache log2 c = .error (Fatal.exit 1))) := by
    intro c hc
    have h1 := hlog2 c.size hc.1
    have h2 := hlog2 c.assoc hc.2.1
    have h3 := hlog2 c.line_size hc.2.2
    unfold check_cache MIN_LINE_SIZE
    by_cases e1 : -1 = log2 c.size
    · simp only [if_pos e1]
      have := h1.1 e1.symm
      simp [this]
    have p1 : is_pow2 c.size := by
      by_contra hn
      exact e1 (h1.2 hn).symm
    simp only [if_neg e1]
    by_cases e2 : -1 = log2 c.assoc
    · simp only [if_pos e2]
      have := h2.1 e2.symm
      simp [this]
    have p2 : is_pow2 c.assoc := by
      by_contra hn
      exact e2 (h2.2 hn).symm
    simp only [if_neg e2]
    by_cases e3 : -1 = log2 c.line_size
    · simp only [if_pos e3]
      have := h3.1 e3.symm
      simp [this]
    have p3 : is_pow2 c.line_size := by
      by_contra hn
      exact e3 (h3.2 hn).symm
    simp only [if_neg e3]
    by_cases e4 : c.line_size < 16
    · simp only [if_pos e4]
      simp
      intros
      omega
    simp only [if_neg e4]
    by_cases e5 : c.size ≤ c.line_size
    · simp only [if_pos e5]
      simp
      intros
      omega
    simp only [if_neg e5]
    have hdiv : Int.tdiv c.size c.line_size = c.size / c.line_size :=
      Int.tdiv_eq_ediv (by omega) (by omega)
    rw [hdiv]
    by_cases e6 : c.assoc > c.size / c.line_size
    · simp only [if_pos e6]
      simp
      intros
      omega
    simp only [if_neg e6]
    simp only [ne_eq, not_true_eq_false, false_imp_iff, and_true, true_iff]
    exact ⟨p1, p2, p3, by omega, by omega, by omega⟩
  refine ⟨(hgen c hc).1, (hgen c hc).2, ?_, ?_, ?_⟩
  · have h := hgen ⟨4096, 3, 32⟩ (by decide)
    apply h.2
    intro hh
    exact not_is_pow2_three (h.1.1 hh).2.1
  · have h := hgen ⟨32, 1, 64⟩ (by decide)
    apply h.2
    intro hh
    have := (h.1.1 hh).2.2.2.2.1
    simp at this
  · have h := hgen ⟨32768, 8, 64⟩ (by decide)
    rw [h.1]
    exact ⟨⟨15, by norm_num⟩, ⟨3, by norm_num⟩, ⟨6, by norm_num⟩, by decide, by decide, by decide⟩

theorem check_cache_accepts_iff_witness :
    (∀ x, is_Int x → (VG_log2 x = -1 ↔ ¬ is_pow2 x)) ∧
    (is_Int (32768 : Int) ∧ is_Int (8 : Int) ∧ is_Int (64 : Int)) ∧
    check_cache VG_log2 ⟨32768, 8, 64⟩ = .ok () ∧
    check_cache VG_log2 ⟨4096, 3, 32⟩ = .error (Fatal.exit 1) :=
  ⟨VG_log2_spec, by decide,
    (check_cache_accepts_iff VG_log2 VG_log2_spec ⟨32768, 8, 64⟩ (by decide)).2.2.2.2,
    rfl⟩

/-! ### The instr-info table -/

theorem HT_get_node_none_iff (t : VgHashTable) (a : Addr) :
    (HT_get_node t a).1 = none ↔ ∀ b ∈ t, b.BB_addr ≠ a := by
  unfold HT_get_node
  simp only [List.find?_eq_none, decide_eq_true_eq]

theorem HT_get_node_some (t : VgHashTable) (a : Addr) (bb : BB_info)
    (h : (HT_get_node t a).1 = some bb) : bb ∈ t ∧ bb.BB_addr = a := by
  unfold HT_get_node at h
  have := find_mem_and _ bb t h
  exact ⟨this.1, of_decide_eq_true this.2⟩

/-- Unlinking the node found by `HT_get_node`, chain by chain. -/
theorem HT_unlink_cons (x : BB_info) (xs : VgHashTable) (a : Addr) :
    HT_unlink (x :: xs) (HT_get_node (x :: xs) a).2 =
      if x.BB_addr = a then xs else x :: HT_unlink xs (HT_get_node xs a).2 := by
  unfold HT_unlink HT_get_node
  by_cases h : x.BB_addr = a
  · simp [List.takeWhile_cons, h]
  · simp [List.takeWhile_cons, h]

theorem HT_unlink_nil (a : Addr) : HT_unlink [] (HT_get_node [] a).2 = [] := rfl

/-- A lookup with another key is not affected by the unlinking. -/
theorem HT_unlink_get_other (t : VgHashTable) (a b : Addr) (hab : b ≠ a) :
    (HT_get_node (HT_unlink t (HT_get_node t a).2) b).1 = (HT_get_node t b).1 := by
  induction t with
  | nil => rfl
  | cons x xs ih =>
    rw [HT_unlink_cons]
    by_cases h : x.BB_addr = a
    · have hxb : ¬ x.BB_addr = b := fun hb => hab (hb.symm.trans h)
      simp only [if_pos h]
      unfold HT_get_node
      simp [List.find?_cons, hxb]
    · simp only [if_neg h]
      unfold HT_get_node at ih ⊢
      simp only at ih
      by_cases hb : x.BB_addr = b
      · simp [List.find?_cons, hb]
      · simp [List.find?_cons, hb, ih]

theorem HT_unlink_mem (t : VgHashTable) (a : Addr) (x : BB_info) :
    (x ∈ HT_unlink t (HT_get_node t a).2 → x ∈ t) ∧
    (x ∈ t → x.BB_addr ≠ a → x ∈ HT_unlink t (HT_get_node t a).2) := by
  induction t with
  | nil => simp [HT_unlink_nil]
  | cons y ys ih =>
    rw [HT_unlink_cons]
    by_cases h : y.BB_addr = a
    · simp only [if_pos h]
      constructor
      · intro hx
        exact List.mem_cons_of_mem _ hx
      · intro hx hxa
        rcases List.mem_cons.1 hx with hx1 | hx1
        · subst hx1
          exact absurd h hxa
        · exact hx1
    · simp only [if_neg h]
      constructor
      · intro hx
        rcases List.mem_cons.1 hx with hx1 | hx1
        · exact hx1 ▸ List.mem_cons_self _ _
        · exact List.mem_cons_of_mem _ (ih.1 hx1)
      · intro hx hxa
        rcases List.mem_cons.1 hx with hx1 | hx1
        · exact hx1 ▸ List.mem_cons_self _ _
        · exact List.mem_cons_of_mem _ (ih.2 hx1 hxa)

/-- With pairwise different keys, the key of the unlinked node is gone. -/
theorem HT_unlink_get_same (t : VgHashTable) (a : Addr)
    (hnd : (t.map BB_info.BB_addr).Nodup) :
    (HT_get_node (HT_unlink t (HT_get_node t a).2) a).1 = none := by
  rw [HT_get_node_none_iff]
  induction t with
  | nil => simp [HT_unlink_nil]
  | cons y ys ih =>
    rw [List.map_cons, List.nodup_cons] at hnd
    rw [HT_unlink_cons]
    by_cases h : y.BB_addr = a
    · simp only [if_pos h]
      intro b hb hba
      apply hnd.1
      rw [h, ← hba]
      exact List.mem_map.2 ⟨b, hb, rfl⟩
    · simp only [if_neg h]
      intro b hb
      rcases List.mem_cons.1 hb with hb1 | hb1
      · rw [hb1]; exact h
      · exact ih hnd.2 b hb1

theorem HT_unlink_nodup (t : VgHashTable) (a : Addr) (hnd : (t.map BB_info.BB_addr).Nodup) :
    ((HT_unlink t (HT_get_node t a).2).map BB_info.BB_addr).Nodup := by
  induction t with
  | nil => simp [HT_unlink_nil]
  | cons y ys ih =>
    rw [List.map_cons, List.nodup_cons] at hnd
    rw [HT_unlink_cons]
    by_cases h : y.BB_addr = a
    · simp only [if_pos h]
      exact hnd.2
    · simp only [if_neg h]
      rw [List.map_cons, List.nodup_cons]
      refine ⟨?_, ih hnd.2⟩
      intro hm
      obtain ⟨b, hb, hbk⟩ := List.mem_map.1 hm
      exact hnd.1 (List.mem_map.2 ⟨b, (HT_unlink_mem ys a b).1 hb, hbk⟩)

/-- What a returning `TL_(discard_basic_block_info)` did. -/
theorem discard_ok {σ : Type} (a : Addr) (size : Nat) (s s1 : State σ)
    (h : discard_basic_block_info a size s = .ok s1) :
    (∃ bb, (HT_get_node s.instr_info_table a).1 = some bb) ∧
    s1 =
      { s with
        instr_info_table := HT_unlink s.instr_info_table (HT_get_node s.instr_info_table a).2 } := by
  unfold discard_basic_block_info at h
  generalize hg : HT_get_node s.instr_info_table a = r at h
  obtain ⟨o, front⟩ := r
  cases o with
  | none => simp at h
  | some bb =>
    simp only [Except.ok.injEq] at h
    exact ⟨⟨bb, rfl⟩, h.symm⟩

/-- What a returning `get_BB_info` did. -/
theorem get_BB_info_ok {σ : Type} (cb : UCodeBlock) (a : Addr) (s s1 : State σ)
    (r : BB_info × Bool) (h : get_BB_info cb a s = .ok (r, s1)) :
    (∃ bb, (HT_get_node s.instr_info_table a).1 = some bb ∧ bb.n_instrs = count_instrs cb ∧
      r = (bb, true) ∧ s1 = { s with BB_retranslations := s.BB_retranslations + 1 }) ∨
    ((HT_get_node s.instr_info_table a).1 = none ∧
      r = (⟨a, count_instrs cb, List.replicate (count_instrs cb).toNat instr_info.zero⟩, false) ∧
      s1 = { s with
        instr_info_table := HT_add_node s.instr_info_table
          ⟨a, count_instrs cb, List.replicate (count_instrs cb).toNat instr_info.zero⟩,
        distinct_instrs := s.distinct_instrs + 1 }) := by
  unfold get_BB_info at h
  simp only at h
  cases hg : (HT_get_node s.instr_info_table a).1 with
  | some bb =>
    rw [hg] at h
    simp only at h
    split at h
    case isTrue hn =>
      simp only [Except.ok.injEq, Prod.mk.injEq] at h
      exact Or.inl ⟨bb, rfl, hn, h.1.symm, h.2.symm⟩
    case isFalse => simp at h
  | none =>
    rw [hg] at h
    simp only [Except.ok.injEq, Prod.mk.injEq] at h
    exact Or.inr ⟨rfl, h.1.symm, h.2.symm⟩

/-- In every reachable state of the instr-info table the keys are pairwise
different. -/
theorem blocks_nodup {σ : Type} (s : State σ) (h : BlocksReachable s) :
    (s.instr_info_table.map BB_info.BB_addr).Nodup := by
  induction h with
  | empty s h => rw [h]; exact List.nodup_nil
  | translate s s1 cb a r _ h ih =>
    rcases get_BB_info_ok cb a s s1 r h with ⟨bb, _, _, _, hs1⟩ | ⟨hnone, _, hs1⟩
    · rw [hs1]; exact ih
    · rw [hs1]
      simp only [HT_add_node, List.map_cons, List.nodup_cons]
      refine ⟨?_, ih⟩
      intro hm
      obtain ⟨b, hb, hbk⟩ := List.mem_map.1 hm
      exact (HT_get_node_none_iff _ _).1 hnone b hb hbk
  | discard s s1 a size _ h ih =>
    rw [(discard_ok a size s s1 h).2]
    exact HT_unlink_nodup _ a ih
  | other s s1 _ h ih =>
    have hk : s1.instr_info_table.map BB_info.BB_addr = s.instr_info_table.map BB_info.BB_addr := by
      have := congrArg (List.map Prod.fst) h
      simpa [List.map_map, Function.comp_def] using this
    rw [hk]
    exact ih

theorem count_instrs_pos (cb : UCodeBlock) : 1 ≤ count_instrs cb := by
  unfold count_instrs
  have : ∀ (l : UCodeBlock) (n0 : Int), 1 ≤ n0 →
      1 ≤ l.foldl (fun n_instrs u_in =>
        if Opcode.INCEIP = u_in.opcode then n_instrs + 1 else n_instrs) n0 := by
    intro l
    induction l with
    | nil => intro n0 h; exact h
    | cons u us ih =>
      intro n0 h
      simp only [List.foldl_cons]
      apply ih
      split <;> omega
  exact this cb 1 (le_refl 1)

/-- C6. `get_BB_info` called for an address whose record `bb` is in the
instr-info table returns if and only if the stored `n_instrs` equals the newly
counted number of instructions; when it returns, `*bb_seen_before` is true, the
record returned is the existing one and the table, with every field of every
record, is as it was; on a mismatch the assertion fails, so nothing is resized
or replaced. -/
theorem get_BB_info_retranslation {σ : Type} (cb : UCodeBlock) (a : Addr) (s : State σ)
    (bb : BB_info) (hpresent : (HT_get_node s.instr_info_table a).1 = some bb) :
    ((∃ r, get_BB_info cb a s = .ok r) ↔ bb.n_instrs = count_instrs cb) ∧
    (∀ r s1, get_BB_info cb a s = .ok (r, s1) →
      r = (bb, true) ∧ s1.instr_info_table = s.instr_info_table) ∧
    (bb.n_instrs ≠ count_instrs cb → get_BB_info cb a s = .error Fatal.assertion) := by
  have hdef : get_BB_info cb a s =
      if bb.n_instrs = count_instrs cb then
        .ok ((bb, true), { s with BB_retranslations := s.BB_retranslations + 1 })
      else .error Fatal.assertion := by
    unfold get_BB_info
    simp only [hpresent]
  rw [hdef]
  by_cases hn : bb.n_instrs = count_instrs cb
  · rw [if_pos hn]
    refine ⟨⟨fun _ => hn, fun _ => ⟨_, rfl⟩⟩, ?_, fun h => absurd hn h⟩
    intro r s1 h
    simp only [Except.ok.injEq, Prod.mk.injEq] at h
    rw [← h.1, ← h.2]
    exact ⟨rfl, rfl⟩
  · rw [if_neg hn]
    refine ⟨⟨?_, fun h => absurd h hn⟩, ?_, fun _ => rfl⟩
    · rintro ⟨r, hr⟩
      simp at hr
    · intro r s1 h
      simp at h

theorem get_BB_info_retranslation_witness :
    (HT_get_node demo_blocks_state.instr_info_table 4096).1 =
      some ⟨4096, 3, [instr_info.zero, instr_info.zero, instr_info.zero]⟩ ∧
    ((∃ r, get_BB_info demo_block 4096 demo_blocks_state = .ok r) ↔
      (3 : Int) = count_instrs demo_block) ∧
    get_BB_info demo_block2 4096 demo_blocks_state = .error Fatal.assertion :=
  ⟨rfl,
    (get_BB_info_retranslation demo_block 4096 demo_blocks_state
      ⟨4096, 3, [instr_info.zero, instr_info.zero, instr_info.zero]⟩ rfl).1,
    rfl⟩

/-- C7. For every address `a` and every block of `n` instructions: `get_BB_info`
on a table that has no record for `a`, then any writes into the slots of the
records, then `TL_(discard_basic_block_info)` for `a` (with any size), then
`get_BB_info` for `a` and a block of `n` instructions again: all three calls
return, the second `get_BB_info` reports `*bb_seen_before` false, and its record
is newly made, with `BB_addr = a`, `n_instrs = n` and `n` zeroed slots, whatever
was written into the slots of the first record. -/
theorem translate_discard_translate {σ : Type} (cb cb2 : UCodeBlock) (a : Addr) (size : Nat)
    (s : State σ) (hcount : count_instrs cb2 = count_instrs cb)
    (habsent : (HT_get_node s.instr_info_table a).1 = none) :
    ∃ bb1 s1, get_BB_info cb a s = .ok ((bb1, false), s1) ∧
      ∀ s1w : State σ, same_blocks s1w.instr_info_table s1.instr_info_table →
        ∃ s2, discard_basic_block_info a size s1w = .ok s2 ∧
          ∃ bb2 s3, get_BB_info cb2 a s2 = .ok ((bb2, false), s3) ∧
            bb2.BB_addr = a ∧ bb2.n_instrs = count_instrs cb ∧
            (bb2.instrs.length : Int) = count_instrs cb ∧
            (∀ slot ∈ bb2.instrs, slot = instr_info.zero) ∧
            (HT_get_node s3.instr_info_table a).1 = some bb2 := by
  have hget1 : get_BB_info cb a s = .ok ((⟨a, count_instrs cb,
      List.replicate (count_instrs cb).toNat instr_info.zero⟩, false),
      { s with
        instr_info_table := HT_add_node s.instr_info_table
          ⟨a, count_instrs cb, List.replicate (count_instrs cb).toNat instr_info.zero⟩,
        distinct_instrs := s.distinct_instrs + 1 }) := by
    unfold get_BB_info
    simp only [habsent]
  refine ⟨_, _, hget1, ?_⟩
  intro s1w hsame
  simp only [same_blocks, HT_add_node, List.map_cons] at hsame
  cases htab : s1w.instr_info_table with
  | nil => rw [htab] at hsame; simp at hsame
  | cons x rest =>
    rw [htab] at hsame
    simp only [List.map_cons, List.cons.injEq, Prod.mk.injEq] at hsame
    obtain ⟨⟨hxa, _⟩, hrest⟩ := hsame
    have hkeys : rest.map BB_info.BB_addr = s.instr_info_table.map BB_info.BB_addr := by
      have := congrArg (List.map Prod.fst) hrest
      simpa [List.map_map, Function.comp_def] using this
    have hdisc : discard_basic_block_info a size s1w =
        .ok { s1w with instr_info_table := rest } := by
      unfold discard_basic_block_info
      rw [htab]
      simp [HT_get_node, HT_unlink, hxa]
    refine ⟨_, hdisc, ?_⟩
    have hnone : (HT_get_node rest a).1 = none := by
      rw [HT_get_node_none_iff]
      intro b hb hba
      have hm : b.BB_addr ∈ s.instr_info_table.map BB_info.BB_addr := by
        rw [← hkeys]
        exact List.mem_map.2 ⟨b, hb, rfl⟩
      obtain ⟨c, hc, hck⟩ := List.mem_map.1 hm
      exact (HT_get_node_none_iff _ _).1 habsent c hc (hck.trans hba)
    have hget2 : get_BB_info cb2 a ({ s1w with instr_info_table := rest } : State σ) =
        .ok ((⟨a, count_instrs cb2,
          List.replicate (count_instrs cb2).toNat instr_info.zero⟩, false),
          { s1w with
            instr_info_table := HT_add_node rest
              ⟨a, count_instrs cb2, List.replicate (count_instrs cb2).toNat instr_info.zero⟩,
            distinct_instrs := s1w.distinct_instrs + 1 }) := by
      unfold get_BB_info
      simp only [hnone]
    refine ⟨_, _, hget2, rfl, hcount, ?_, ?_, ?_⟩
    · have := count_instrs_pos cb
      simp only [List.length_replicate, hcount]
      omega
    · intro slot hslot
      exact (List.mem_replicate.1 hslot).2
    · simp [HT_get_node, HT_add_node]

theorem translate_discard_translate_witness :
    count_instrs demo_block = count_instrs demo_block ∧
    (HT_get_node (State.init ()).instr_info_table 4096).1 = none ∧
    ∃ bb1 s1, get_BB_info demo_block 4096 (State.init ()) = .ok ((bb1, false), s1) ∧
      ∀ s1w : State Unit, same_blocks s1w.instr_info_table s1.instr_info_table →
        ∃ s2, discard_basic_block_info 4096 0 s1w = .ok s2 ∧
          ∃ bb2 s3, get_BB_info demo_block 4096 s2 = .ok ((bb2, false), s3) ∧
            bb2.BB_addr = 4096 ∧ bb2.n_instrs = count_instrs demo_block ∧
            (bb2.instrs.length : Int) = count_instrs demo_block ∧
            (∀ slot ∈ bb2.instrs, slot = instr_info.zero) ∧
            (HT_get_node s3.instr_info_table 4096).1 = some bb2 :=
  ⟨rfl, rfl, translate_discard_translate demo_block demo_block 4096 0 (State.init ()) rfl rfl⟩

/-- C8. `TL_(discard_basic_block_info)(a, size)` fails its assertion if and only
if the instr-info table holds no record with the key `a`; when there is such a
record the call returns, and the value of `size` plays no part in the outcome. -/
theorem discard_fails_iff_absent {σ : Type} (a : Addr) (size : Nat) (s : State σ) :
    (discard_basic_block_info a size s = .error Fatal.assertion ↔
      ∀ b ∈ s.instr_info_table, b.BB_addr ≠ a) ∧
    ((∃ s1, discard_basic_block_info a size s = .ok s1) ↔
      ∃ b ∈ s.instr_info_table, b.BB_addr = a) ∧
    (∀ size2, discard_basic_block_info a size2 s = discard_basic_block_info a size s) := by
  have hcases : ((HT_get_node s.instr_info_table a).1 = none ∧
        discard_basic_block_info a size s = .error Fatal.assertion) ∨
      ((∃ bb, (HT_get_node s.instr_info_table a).1 = some bb) ∧
        ∃ s1, discard_basic_block_info a size s = .ok s1) := by
    unfold discard_basic_block_info
    generalize HT_get_node s.instr_info_table a = r
    obtain ⟨o, front⟩ := r
    cases o with
    | none => exact Or.inl ⟨rfl, rfl⟩
    | some bb => exact Or.inr ⟨⟨bb, rfl⟩, _, rfl⟩
  refine ⟨?_, ?_, fun _ => rfl⟩
  · rcases hcases with ⟨hnone, herr⟩ | ⟨⟨bb, hsome⟩, s1, hok⟩
    · exact ⟨fun _ => (HT_get_node_none_iff _ _).1 hnone, fun _ => herr⟩
    · constructor
      · intro h
        rw [hok] at h
        simp at h
      · intro h
        have := HT_get_node_some _ _ _ hsome
        exact absurd this.2 (h bb this.1)
  · rcases hcases with ⟨hnone, herr⟩ | ⟨⟨bb, hsome⟩, s1, hok⟩
    · constructor
      · rintro ⟨s1, h⟩
        rw [herr] at h
        simp at h
      · rintro ⟨b, hb, hba⟩
        exact absurd hba ((HT_get_node_none_iff _ _).1 hnone b hb)
    · have := HT_get_node_some _ _ _ hsome
      exact ⟨fun _ => ⟨bb, this.1, this.2⟩, fun _ => ⟨s1, hok⟩⟩

/-- C9. After a returning `TL_(discard_basic_block_info)(a, _)` in a reachable
state of the instr-info table: a lookup of `a` finds no record; a lookup of any
other key finds what it found before, and every record with another key is still
in the table; and nothing but the instr-info table has changed, so the CC table,
with every node and all nine counters of every leaf, is as it was. -/
theorem discard_frame {σ : Type} (a : Addr) (size : Nat) (s s1 : State σ)
    (hreach : BlocksReachable s) (h : discard_basic_block_info a size s = .ok s1) :
    (HT_get_node s1.instr_info_table a).1 = none ∧
    (∀ b, b ≠ a →
      (HT_get_node s1.instr_info_table b).1 = (HT_get_node s.instr_info_table b).1) ∧
    (∀ bb ∈ s.instr_info_table, bb.BB_addr ≠ a → bb ∈ s1.instr_info_table) ∧
    s1.CC_table = s.CC_table ∧
    all_leaves s1.CC_table = all_leaves s.CC_table ∧
    s1 = { s with instr_info_table := s1.instr_info_table } := by
  obtain ⟨_, hs1⟩ := discard_ok a size s s1 h
  have hnd := blocks_nodup s hreach
  subst hs1
  refine ⟨HT_unlink_get_same _ a hnd, fun b hb => HT_unlink_get_other _ a b hb, ?_, rfl, rfl, rfl⟩
  intro bb hbb hne
  exact (HT_unlink_mem _ a bb).2 hbb hne

theorem demo_blocks_state_reachable : BlocksReachable demo_blocks_state :=
  BlocksReachable.translate (State.init ()) demo_blocks_state demo_block 4096
    (⟨4096, 3, [instr_info.zero, instr_info.zero, instr_info.zero]⟩, false)
    (BlocksReachable.empty _ rfl) rfl

theorem discard_frame_witness :
    BlocksReachable demo_blocks_state ∧
    discard_basic_block_info 4096 0 demo_blocks_state =
      .ok { demo_blocks_state with instr_info_table := [] } ∧
    (HT_get_node ({ demo_blocks_state with instr_info_table := [] } :
      State Unit).instr_info_table 4096).1 = none :=
  ⟨demo_blocks_state_reachable, rfl,
    (discard_frame 4096 0 demo_blocks_state { demo_blocks_state with instr_info_table := [] }
      demo_blocks_state_reachable rfl).1⟩

/-- C10. `do_details` with `bb_seen_before` true, when its call of `get_lineCC`
returns (as it does for every non-negative line number): it returns if and only
if the `instr_addr`, `instr_size` and `data_size` recorded in the slot all equal
the arguments, and any mismatch fails an assertion; when it returns, the slot is
as it was in all four fields, so `parent` is the leaf recorded before also when
`get_lineCC(instr_addr)` now returns another leaf. -/
theorem do_details_seen_before {σ : Type} (dbg : DebugInfo) (n : instr_info)
    (instr_addr : Addr) (instr_size data_size : Int) (s : State σ)
    (hline : 0 ≤ (debug_triple dbg instr_addr).2.2) :
    ((∃ r, do_details dbg n true instr_addr instr_size data_size s = .ok r) ↔
      (n.instr_addr = instr_addr ∧ (n.instr_size : Int) = instr_size ∧
        (n.data_size : Int) = data_size)) ∧
    (¬ (n.instr_addr = instr_addr ∧ (n.instr_size : Int) = instr_size ∧
        (n.data_size : Int) = data_size) →
      do_details dbg n true instr_addr instr_size data_size s = .error Fatal.assertion) ∧
    (∀ n1 s1, do_details dbg n true instr_addr instr_size data_size s = .ok (n1, s1) →
      n1 = n ∧ n1.instr_addr = n.instr_addr ∧ n1.instr_size = n.instr_size ∧
      n1.data_size = n.data_size ∧ n1.parent = n.parent ∧
      ∃ p, get_lineCC dbg instr_addr s = .ok (p, s1)) := by
  obtain ⟨⟨p, s0⟩, hg⟩ := get_lineCC_returns dbg instr_addr s hline
  have hdef : do_details dbg n true instr_addr instr_size data_size s =
      if ¬ (n.instr_addr = instr_addr) then .error Fatal.assertion
      else if ¬ ((n.instr_size : Int) = instr_size) then .error Fatal.assertion
      else if ¬ ((n.data_size : Int) = data_size) then .error Fatal.assertion
      else .ok (n, s0) := by
    unfold do_details
    rw [hg]
    rfl
  rw [hdef]
  by_cases h1 : n.instr_addr = instr_addr
  · by_cases h2 : (n.instr_size : Int) = instr_size
    · by_cases h3 : (n.data_size : Int) = data_size
      · rw [if_neg (not_not.2 h1), if_neg (not_not.2 h2), if_neg (not_not.2 h3)]
        refine ⟨⟨fun _ => ⟨h1, h2, h3⟩, fun _ => ⟨_, rfl⟩⟩, fun h => absurd ⟨h1, h2, h3⟩ h, ?_⟩
        intro n1 s1 h
        simp only [Except.ok.injEq, Prod.mk.injEq] at h
        obtain ⟨hn, hs⟩ := h
        subst hn hs
        exact ⟨rfl, rfl, rfl, rfl, rfl, p, hg⟩
      · rw [if_neg (not_not.2 h1), if_neg (not_not.2 h2), if_pos h3]
        refine ⟨⟨?_, fun h => absurd h.2.2 h3⟩, fun _ => rfl, ?_⟩
        · rintro ⟨r, hr⟩
          simp at hr
        · intro n1 s1 h
          simp at h
    · rw [if_neg (not_not.2 h1), if_pos h2]
      refine ⟨⟨?_, fun h => absurd h.2.1 h2⟩, fun _ => rfl, ?_⟩
      · rintro ⟨r, hr⟩
        simp at hr
      · intro n1 s1 h
        simp at h
  · rw [if_pos h1]
    refine ⟨⟨?_, fun h => absurd h.1 h1⟩, fun _ => rfl, ?_⟩
    · rintro ⟨r, hr⟩
      simp at hr
    · intro n1 s1 h
      simp at h

theorem do_details_seen_before_witness :
    (0 ≤ (debug_triple demo_dbg 4096).2.2) ∧
    ((∃ r, do_details demo_dbg demo_old_instr true 4096 3 4 (State.init ()) = .ok r) ↔
      (demo_old_instr.instr_addr = 4096 ∧ (demo_old_instr.instr_size : Int) = 3 ∧
        (demo_old_instr.data_size : Int) = 4)) ∧
    (get_lineCC demo_dbg 4096 (State.init ())).toOption.map (fun r => r.1) = some 0 ∧
    (do_details demo_dbg demo_old_instr true 4096 3 4 (State.init ())).toOption.map
      (fun r => r.1.parent) = some (some 7) ∧
    do_details demo_dbg demo_old_instr true 4096 3 8 (State.init ()) = .error Fatal.assertion :=
  ⟨by decide,
    (do_details_seen_before demo_dbg demo_old_instr 4096 3 4 (State.init ()) (by decide)).1,
    rfl, rfl, rfl⟩

/-- C11. `do_details` with `bb_seen_before` false and both sizes in 0..255: when
its call of `get_lineCC` returns (as it does for every non-negative line
number), it returns with the slot's `instr_addr`, `instr_size` and `data_size`
equal to the arguments and the slot's `parent` the leaf that `get_lineCC`
returned, in the state that `get_lineCC` left. -/
theorem do_details_first_time {σ : Type} (dbg : DebugInfo) (n : instr_info)
    (instr_addr : Addr) (instr_size data_size : Int) (s : State σ)
    (hisize : 0 ≤ instr_size ∧ instr_size ≤ 255) (hdsize : 0 ≤ data_size ∧ data_size ≤ 255) :
    (∀ p s1, get_lineCC dbg instr_addr s = .ok (p, s1) →
      ∃ n1, do_details dbg n false instr_addr instr_size data_size s = .ok (n1, s1) ∧
        n1.instr_addr = instr_addr ∧ (n1.instr_size : Int) = instr_size ∧
        (n1.data_size : Int) = data_size ∧ n1.parent = some p) ∧
    (0 ≤ (debug_triple dbg instr_addr).2.2 →
      ∃ r, do_details dbg n false instr_addr instr_size data_size s = .ok r) := by
  have hmain : ∀ p s1, get_lineCC dbg instr_addr s = .ok (p, s1) →
      ∃ n1, do_details dbg n false instr_addr instr_size data_size s = .ok (n1, s1) ∧
        n1.instr_addr = instr_addr ∧ (n1.instr_size : Int) = instr_size ∧
        (n1.data_size : Int) = data_size ∧ n1.parent = some p := by
    intro p s1 hg
    refine ⟨⟨instr_addr, (instr_size % 256).toNat, (data_size % 256).toNat, some p⟩, ?_, rfl,
      ?_, ?_, rfl⟩
    · unfold do_details
      rw [hg]
      rfl
    · simp only
      omega
    · simp only
      omega
  refine ⟨hmain, ?_⟩
  intro hline
  obtain ⟨⟨p, s1⟩, hg⟩ := get_lineCC_returns dbg instr_addr s hline
  obtain ⟨n1, hn1, _⟩ := hmain p s1 hg
  exact ⟨_, hn1⟩

theorem do_details_first_time_witness :
    ((0 : Int) ≤ 3 ∧ (3 : Int) ≤ 255) ∧ ((0 : Int) ≤ 4 ∧ (4 : Int) ≤ 255) ∧
    (do_details demo_dbg demo_new_instr false 4096 3 4 (State.init ())).toOption.map
      (fun r => r.1) = some ⟨4096, 3, 4, some 0⟩ ∧
    (0 ≤ (debug_triple demo_dbg 4096).2.2 →
      ∃ r, do_details demo_dbg demo_new_instr false 4096 3 4 (State.init ()) = .ok r) :=
  ⟨by decide, by decide, rfl,
    (do_details_first_time demo_dbg demo_new_instr 4096 3 4 (State.init ())
      (by decide) (by decide)).2⟩

theorem forall₂_map_self {α : Type} (R : α → α → Prop) (f : α → α) (l : List α)
    (h : ∀ x ∈ l, R x (f x)) : List.Forall₂ R l (l.map f) := by
  rw [List.forall₂_map_right_iff, List.forall₂_same]
  exact h

/-- A store through a leaf pointer keeps every node of the table in its place;
only the contents of the leaves at the address change. -/
theorem table_store_shape (p : Nat) (F : lineCC → lineCC) (T : Nat → List fileCC) (i : Nat) :
    List.Forall₂ (fun f f1 => f1.file = f.file ∧ ∀ j,
      List.Forall₂ (fun g g1 => g1.fn = g.fn ∧ ∀ k,
        List.Forall₂ (fun L L1 => L1 = if L.ptr = p then F L else L) (g.lines k) (g1.lines k))
        (f.fns j) (f1.fns j))
      (T i) (table_store p F T i) := by
  unfold table_store
  apply forall₂_map_self
  intro f _
  refine ⟨rfl, fun j => ?_⟩
  unfold fileCC.store
  apply forall₂_map_self
  intro g _
  refine ⟨rfl, fun k => ?_⟩
  unfold fnCC.store
  apply forall₂_map_self
  intro L _
  rfl

/-- C12. `log_1I_0D_cache_access(n)`, for a record whose parent is a leaf of the CC
table: it returns; the leaf `n->parent` has `Ir.a` incremented by 1 and `Ir.m1`,
`Ir.m2` increased by what the I1 simulator adds for the reference
`(n->instr_addr, n->instr_size)`, its `Dr` and `Dw` as before; every other leaf
is as before; every node of the CC table is in its place (none made, none moved);
and apart from the leaf and the simulator nothing in the state changes, the
instr-info table with the record `n` included. -/
theorem log_1I_0D_frame {σ : Type} (cs : CacheSim σ) (n : instr_info) (s : State σ) (p : Nat)
    (hp : n.parent = some p) (hlive : p ∈ (all_leaves s.CC_table).map lineCC.ptr) :
    ∃ s1, log_1I_0D_cache_access cs n s = .ok s1 ∧
      s1 = { s with CC_table := s1.CC_table,
                    sim := (cs.I1_doref s.sim n.instr_addr n.instr_size).1 } ∧
      s1.instr_info_table = s.instr_info_table ∧
      (∀ i, List.Forall₂ (fun f f1 => f1.file = f.file ∧ ∀ j,
        List.Forall₂ (fun g g1 => g1.fn = g.fn ∧ ∀ k,
          List.Forall₂ (fun L L1 =>
            L1.ptr = L.ptr ∧ L1.line = L.line ∧ L1.Dr = L.Dr ∧ L1.Dw = L.Dw ∧
            (L.ptr ≠ p → L1 = L) ∧
            (L.ptr = p →
              L1.Ir.a = ULong_add L.Ir.a 1 ∧
              L1.Ir.m1 = ULong_add L.Ir.m1 (cs.I1_doref s.sim n.instr_addr n.instr_size).2.1 ∧
              L1.Ir.m2 = ULong_add L.Ir.m2 (cs.I1_doref s.sim n.instr_addr n.instr_size).2.2))
            (g.lines k) (g1.lines k))
          (f.fns j) (f1.fns j))
        (s.CC_table i) (s1.CC_table i)) ∧
      List.Forall₂ (fun L L1 => L1.ptr = L.ptr ∧ (L.ptr ≠ p → L1 = L))
        (all_leaves s.CC_table) (all_leaves s1.CC_table) := by
  refine ⟨_, with_parent_ok n _ _ p hp hlive, rfl, rfl, ?_, ?_⟩
  · intro i
    refine List.Forall₂.imp ?_ (table_store_shape p _ s.CC_table i)
    intro f f1 hf
    refine ⟨hf.1, fun j => List.Forall₂.imp ?_ (hf.2 j)⟩
    intro g g1 hg
    refine ⟨hg.1, fun k => List.Forall₂.imp ?_ (hg.2 k)⟩
    intro L L1 hL
    subst hL
    by_cases hLp : L.ptr = p
    · rw [if_pos hLp]
      exact ⟨rfl, rfl, rfl, rfl, fun h => absurd hLp h, fun _ => ⟨rfl, rfl, rfl⟩⟩
    · rw [if_neg hLp]
      exact ⟨rfl, rfl, rfl, rfl, fun _ => rfl, fun h => absurd h hLp⟩
  · show List.Forall₂ _ (all_leaves s.CC_table) (all_leaves (table_store p _ s.CC_table))
    rw [all_leaves_store]
    apply forall₂_map_self
    intro L _
    unfold lineCC.store
    by_cases hLp : L.ptr = p
    · rw [if_pos hLp]
      exact ⟨rfl, fun h => absurd hLp h⟩
    · rw [if_neg hLp]
      exact ⟨rfl, fun _ => rfl⟩

set_option maxRecDepth 100000 in
theorem log_1I_0D_frame_witness :
    demo_instr.parent = some 0 ∧
    0 ∈ (all_leaves demo_state.CC_table).map lineCC.ptr ∧
    (log_1I_0D_cache_access demo_sim demo_instr demo_state).toOption.map
      (fun s1 => all_leaves s1.CC_table) = some [⟨0, 10, ⟨1, 1, 1⟩, CC.zero, CC.zero⟩] ∧
    ∃ s1, log_1I_0D_cache_access demo_sim demo_instr demo_state = .ok s1 ∧
      s1.instr_info_table = demo_state.instr_info_table :=
  ⟨rfl, by decide, by decide,
    (log_1I_0D_frame demo_sim demo_instr demo_state 0 rfl (by decide)).elim
      (fun s1 h => ⟨s1, h.1, h.2.2.1⟩)⟩

/-- C13. `log_1I_2D_cache_access(n, a1, a2)`, for a record whose parent is a leaf
of the CC table, makes three simulator references, in this order: the I1
reference `(n->instr_addr, n->instr_size)`, the D1 reference `(a1, n->data_size)`
and the D1 reference `(a2, n->data_size)`, each in the simulator state the one
before left, and no other (the log of a traced simulator grows by exactly these
three). What the first adds to its miss counters goes to `Ir.m1`, `Ir.m2` of
`n->parent`, the second to `Dr.m1`, `Dr.m2`, the third to `Dw.m1`, `Dw.m2`, and
`Ir.a`, `Dr.a`, `Dw.a` of `n->parent` are each incremented by 1. -/
theorem log_1I_2D_references {σ : Type} (cs : CacheSim σ) (n : instr_info)
    (data_addr1 data_addr2 : Addr) (s : State σ) (p : Nat)
    (hp : n.parent = some p) (hlive : p ∈ (all_leaves s.CC_table).map lineCC.ptr) :
    (∃ s1, log_1I_2D_cache_access cs n data_addr1 data_addr2 s = .ok s1 ∧
      s1.sim = (cs.D1_doref (cs.D1_doref (cs.I1_doref s.sim n.instr_addr n.instr_size).1
        data_addr1 n.data_size).1 data_addr2 n.data_size).1 ∧
      List.Forall₂ (fun L L1 => L1.ptr = L.ptr ∧ L1.line = L.line ∧ (L.ptr ≠ p → L1 = L) ∧
        (L.ptr = p →
          L1.Ir.a = ULong_add L.Ir.a 1 ∧ L1.Dr.a = ULong_add L.Dr.a 1 ∧
          L1.Dw.a = ULong_add L.Dw.a 1 ∧
          L1.Ir.m1 = ULong_add L.Ir.m1 (cs.I1_doref s.sim n.instr_addr n.instr_size).2.1 ∧
          L1.Ir.m2 = ULong_add L.Ir.m2 (cs.I1_doref s.sim n.instr_addr n.instr_size).2.2 ∧
          L1.Dr.m1 = ULong_add L.Dr.m1
            (cs.D1_doref (cs.I1_doref s.sim n.instr_addr n.instr_size).1
              data_addr1 n.data_size).2.1 ∧
          L1.Dr.m2 = ULong_add L.Dr.m2
            (cs.D1_doref (cs.I1_doref s.sim n.instr_addr n.instr_size).1
              data_addr1 n.data_size).2.2 ∧
          L1.Dw.m1 = ULong_add L.Dw.m1
            (cs.D1_doref (cs.D1_doref (cs.I1_doref s.sim n.instr_addr n.instr_size).1
              data_addr1 n.data_size).1 data_addr2 n.data_size).2.1 ∧
          L1.Dw.m2 = ULong_add L.Dw.m2
            (cs.D1_doref (cs.D1_doref (cs.I1_doref s.sim n.instr_addr n.instr_size).1
              data_addr1 n.data_size).1 data_addr2 n.data_size).2.2))
        (all_leaves s.CC_table) (all_leaves s1.CC_table)) ∧
    (∀ log : List SimRef, ∃ s2,
      log_1I_2D_cache_access cs.traced n data_addr1 data_addr2
        { s with sim := (s.sim, log) } = .ok s2 ∧
      s2.sim.2 = log ++ [SimRef.I1 n.instr_addr n.instr_size,
        SimRef.D1 data_addr1 n.data_size, SimRef.D1 data_addr2 n.data_size]) := by
  constructor
  · refine ⟨_, with_parent_ok n _ _ p hp hlive, rfl, ?_⟩
    show List.Forall₂ _ (all_leaves s.CC_table) (all_leaves (table_store p _ s.CC_table))
    rw [all_leaves_store]
    apply forall₂_map_self
    intro L _
    unfold lineCC.store
    by_cases hLp : L.ptr = p
    · rw [if_pos hLp]
      exact ⟨rfl, rfl, fun h => absurd hLp h, fun _ => ⟨rfl, rfl, rfl, rfl, rfl, rfl, rfl, rfl, rfl⟩⟩
    · rw [if_neg hLp]
      exact ⟨rfl, rfl, fun _ => rfl, fun h => absurd h hLp⟩
  · intro log
    refine ⟨_, with_parent_ok n _ _ p hp hlive, ?_⟩
    simp [CacheSim.traced]

set_option maxRecDepth 100000 in
theorem log_1I_2D_references_witness :
    demo_instr.parent = some 0 ∧
    0 ∈ (all_leaves demo_state.CC_table).map lineCC.ptr ∧
    (log_1I_2D_cache_access demo_sim demo_instr 8192 8200 demo_state).toOption.map
      (fun s1 => all_leaves s1.CC_table) = some [⟨0, 10, ⟨1, 1, 1⟩, ⟨1, 1, 1⟩, ⟨1, 1, 1⟩⟩] ∧
    (∀ log : List SimRef, ∃ s2,
      log_1I_2D_cache_access demo_sim.traced demo_instr 8192 8200
        { demo_state with sim := ((), log) } = .ok s2 ∧
      s2.sim.2 = log ++ [SimRef.I1 4096 3, SimRef.D1 8192 4, SimRef.D1 8200 4]) :=
  ⟨rfl, by decide, by decide,
    (log_1I_2D_references demo_sim demo_instr 8192 8200 demo_state 0 rfl (by decide)).2⟩

/-- Every intermediate value of `hash` is the `int` of a value below the table
size, for every table size that a `UInt` can hold. -/
theorem hash_fold_int32 (n : Nat) (hn : 0 < n) (s : CString) (h0 : Int)
    (h : ∃ y : Int, 0 ≤ y ∧ y < n ∧ h0 = to_int32 y) :
    ∃ y : Int, 0 ≤ y ∧ y < n ∧
      s.foldl (fun hash_value c =>
        to_int32 (((256 * hash_value + c) % 2 ^ 32) % (n : Int))) h0 = to_int32 y := by
  induction s generalizing h0 with
  | nil => exact h
  | cons c cs ih =>
    simp only [List.foldl_cons]
    apply ih
    have hpos : (0 : Int) < n := by exact_mod_cast hn
    exact ⟨_, Int.emod_nonneg _ (ne_of_gt hpos), Int.emod_lt_of_pos _ hpos, rfl⟩

/-- The result of `hash` is below the table size, for every table size that a
`UInt` can hold. -/
theorem hash_lt_UInt (s : CString) (n : Nat) (hn : 0 < n) (hn2 : n < 2 ^ 32) : hash s n < n := by
  have hn2' : (n : Int) < 2 ^ 32 := by exact_mod_cast hn2
  obtain ⟨y, hy0, hyn, hy⟩ := hash_fold_int32 n hn s 0
    ⟨0, le_refl 0, by exact_mod_cast hn, by simp [to_int32]⟩
  unfold hash
  simp only
  rw [hy]
  unfold to_int32
  split <;> omega

theorem hash_fold_eq_spec (n : Nat) (hn : 0 < n) (hn2 : n ≤ 2 ^ 23) (s : CString)
    (hs : ∀ c ∈ s, 0 ≤ c ∧ c ≤ 255) (h0 : Nat) (hh0 : h0 < n) :
    s.foldl (fun hash_value c =>
      to_int32 (((256 * hash_value + c) % 2 ^ 32) % (n : Int))) (h0 : Int) =
    (((s.map byte_of).foldl (fun h byte => (h * 256 + byte) % n) h0 : Nat) : Int) := by
  induction s generalizing h0 with
  | nil => rfl
  | cons c cs ih =>
    simp only [List.foldl_cons, List.map_cons]
    have hc := hs c (List.mem_cons_self _ _)
    have hstep : to_int32 (((256 * (h0 : Int) + c) % 2 ^ 32) % (n : Int)) =
        (((h0 * 256 + byte_of c) % n : Nat) : Int) := by
      have hb : ((byte_of c : Nat) : Int) = c := by
        unfold byte_of
        omega
      have h1 : (256 * (h0 : Int) + c) % 2 ^ 32 = 256 * (h0 : Int) + c := by
        apply Int.emod_eq_of_lt <;> omega
      rw [h1]
      have h2 : (256 * (h0 : Int) + c) = ((h0 * 256 + byte_of c : Nat) : Int) := by
        push_cast
        omega
      rw [h2]
      have h3 : (((h0 * 256 + byte_of c : Nat) : Int) % (n : Int)) =
          (((h0 * 256 + byte_of c) % n : Nat) : Int) := by
        norm_cast
      rw [h3]
      unfold to_int32
      rw [if_pos]
      have : (h0 * 256 + byte_of c) % n < n := Nat.mod_lt _ hn
      omega
    rw [hstep]
    exact ih (fun c hc => hs c (List.mem_cons_of_mem _ hc)) _ (Nat.mod_lt _ hn)

/-- C15, as amended. For every string and every table size that a `UInt` can
hold, `hash(s, table_size)` is below `table_size`; and when no `Char` of `s` has
a negative value and `table_size <= 2 ^ 23` (so that `256 * hash_value + *s` fits
an `int`), it is the value obtained by starting from `h = 0` and folding
`h := (h * 256 + byte) mod table_size` over the bytes of `s`. -/
theorem hash_refines_spec (s : CString) (table_size : Nat)
    (hsize : 0 < table_size ∧ table_size < 2 ^ 32) :
    hash s table_size < table_size ∧
    ((∀ c ∈ s, 0 ≤ c ∧ c ≤ 255) → table_size ≤ 2 ^ 23 →
      hash s table_size = hash_spec (s.map byte_of) table_size) := by
  refine ⟨hash_lt_UInt s table_size hsize.1 hsize.2, ?_⟩
  intro hs hsmall
  have h := hash_fold_eq_spec table_size hsize.1 hsmall s hs 0 hsize.1
  unfold hash hash_spec
  simp only
  have h' : List.foldl (fun hash_value c =>
      to_int32 (((256 * hash_value + c) % 2 ^ 32) % (table_size : Int))) 0 s =
      (((s.map byte_of).foldl (fun h byte => (h * 256 + byte) % table_size) 0 : Nat) : Int) := by
    exact_mod_cast h
  rw [h']
  have hlt : (s.map byte_of).foldl (fun h byte => (h * 256 + byte) % table_size) 0 < table_size := by
    have : ∀ (l : List Nat) (a : Nat), a < table_size →
        l.foldl (fun h byte => (h * 256 + byte) % table_size) a < table_size := by
      intro l
      induction l with
      | nil => intro a ha; exact ha
      | cons b bs ih => intro a _; exact ih _ (Nat.mod_lt _ hsize.1)
    exact this _ 0 hsize.1
  omega

theorem hash_refines_spec_witness :
    ((0 : Nat) < 251 ∧ 251 < 2 ^ 32) ∧
    hash [97, 46, 99] 251 = 244 ∧
    hash [97, 46, 99] 251 < 251 ∧
    ((∀ c ∈ ([97, 46, 99] : CString), 0 ≤ c ∧ c ≤ 255) → 251 ≤ 2 ^ 23 →
      hash [97, 46, 99] 251 = hash_spec (([97, 46, 99] : CString).map byte_of) 251) :=
  ⟨by decide, by decide, (hash_refines_spec [97, 46, 99] 251 (by decide)).1,
    (hash_refines_spec [97, 46, 99] 251 (by decide)).2⟩

/-- C15 fails as stated. For the string of the one byte 255, whose `Char` value
is -1, and the table size 251, `hash` gives 122 and the fold of the
specification gives 4; for the string of five bytes 127 and the table size
`2 ^ 32 - 1` the two differ as well. -/
theorem hash_differs_from_spec :
    byte_of (-1) = 255 ∧
    hash [-1] 251 = 122 ∧ hash_spec (([-1] : CString).map byte_of) 251 = 4 ∧
    hash [-1] 251 ≠ hash_spec (([-1] : CString).map byte_of) 251 ∧
    hash [127, 127, 127, 127, 127] 4294967295 ≠
      hash_spec (([127, 127, 127, 127, 127] : CString).map byte_of) 4294967295 := by
  decide

/-- C16 fails on the code. For the line number -1 the `%` of `get_lineCC` gives
-1, which the `UInt` `line_hash` holds as 4294967295: the index is not in 0..36,
and `get_lineCC` reads `lines[4294967295]`, outside the array of 37 entries. -/
theorem line_hash_negative :
    line_hash_of (-1) = 4294967295 ∧ ¬ line_hash_of (-1) < N_LINE_ENTRIES ∧
    (debug_triple demo_dbg_negative 4096).2.2 = -1 ∧
    get_lineCC demo_dbg_negative 4096 (State.init ()) = .error Fatal.undefined := by
  refine ⟨by decide, by decide, rfl, rfl⟩

/-- The store into the node a walk stopped at, seen on the chain: the nodes in
front of it and behind it stay. -/
theorem replaceFirst_split {α : Type} (p : α → Bool) (c c1 : α) (l : List α)
    (h : l.find? p = some c) :
    ∃ front back, l = front ++ c :: back ∧ (∀ x ∈ front, p x = false) ∧
      replaceFirst p c1 l = front ++ c1 :: back := by
  induction l with
  | nil => simp at h
  | cons y ys ih =>
    by_cases hp : p y = true
    · rw [List.find?_cons_of_pos _ hp] at h
      have hyc := Option.some.inj h
      subst hyc
      refine ⟨[], ys, rfl, by simp, ?_⟩
      simp [replaceFirst, hp]
    · rw [List.find?_cons_of_neg _ hp] at h
      obtain ⟨front, back, hl, hfront, hrep⟩ := ih h
      refine ⟨y :: front, back, by rw [hl]; rfl, ?_, ?_⟩
      · intro x hx
        rcases List.mem_cons.1 hx with hx1 | hx1
        · rw [hx1]
          simpa using hp
        · exact hfront x hx1
      · simp [replaceFirst, hp, hrep]

/-- A returning `chain_level`, as a `chain_step`. -/
theorem chain_level_step {α β κ : Type} [DecidableEq κ] (key : α → κ) (k0 : κ)
    (fresh : α) (k : α → Except Fatal (β × α)) (chain chain1 : List α) (b : β) (created : Bool)
    (h : chain_level (fun c => decide (k0 = key c)) fresh k chain = .ok (b, chain1, created)) :
    ∃ c c1, k c = .ok (b, c1) ∧ chain_step key k0 fresh chain chain1 c c1 := by
  obtain ⟨c, c1, hk, hcase⟩ := chain_level_ok _ fresh k chain chain1 b created h
  refine ⟨c, c1, hk, ?_⟩
  rcases hcase with ⟨_, hf, hch⟩ | ⟨_, hf, hc, hch⟩
  · right
    obtain ⟨front, back, hl, hfront, hrep⟩ := replaceFirst_split _ c c1 chain hf
    refine ⟨front, back, hl, ?_, ?_, by rw [hch, hrep]⟩
    · intro x hx hkx
      have := hfront x hx
      simp only [decide_eq_false_iff_not] at this
      exact this hkx.symm
    · exact (of_decide_eq_true (find_mem_and _ c chain hf).2).symm
  · left
    refine ⟨?_, hc, hch⟩
    intro x hx hkx
    have := List.find?_eq_none.1 hf x hx
    simp only [decide_eq_true_eq] at this
    exact this hkx.symm

/-- Level 3 of `get_lineCC`, seen on the chains of the function node. -/
theorem get_lineCC_level3_chains (line : Int) (hn : Nat) (g g1 : fnCC) (p : Nat) (created : Bool)
    (h : get_lineCC_level3 line hn g = .ok ((p, created), g1)) :
    g1.fn = g.fn ∧
    (∀ k, k ≠ line_hash_of line → g1.lines k = g.lines k) ∧
    ∃ cl, cl.ptr = p ∧
      chain_step lineCC.line line (new_lineCC hn line)
        (g.lines (line_hash_of line)) (g1.lines (line_hash_of line)) cl cl := by
  unfold get_lineCC_level3 at h
  simp only at h
  split at h
  case isFalse => simp at h
  case isTrue hlt =>
  split at h
  case h_2 => simp at h
  case h_1 ptr chain cr hcl =>
  simp only [Except.ok.injEq, Prod.mk.injEq] at h
  obtain ⟨⟨hp, hcr⟩, hg⟩ := h
  subst hp hcr hg
  obtain ⟨c, c1, hk, hstep⟩ := chain_level_step lineCC.line line _ _ _ _ _ _ hcl
  simp only [Except.ok.injEq, Prod.mk.injEq] at hk
  obtain ⟨hptr, hc1⟩ := hk
  subst hc1
  refine ⟨rfl, ?_, c, hptr, ?_⟩
  · intro k hk
    simp only [Function.update_noteq hk]
  · simp only [Function.update_same]
    exact hstep

/-- Levels 2 and 3 of `get_lineCC`, seen on the chains of the file node. -/
theorem get_lineCC_level2_chains (fn : CString) (line : Int) (hn : Nat) (f f1 : fileCC) (p : Nat)
    (new_line new_fn : Bool)
    (h : get_lineCC_level2 fn line hn f = .ok ((p, new_line, new_fn), f1)) :
    f1.file = f.file ∧
    (∀ j, j ≠ hash fn N_FN_ENTRIES → f1.fns j = f.fns j) ∧
    ∃ cg cg1, chain_step fnCC.fn fn (new_fnCC fn)
        (f.fns (hash fn N_FN_ENTRIES)) (f1.fns (hash fn N_FN_ENTRIES)) cg cg1 ∧
      cg1.fn = cg.fn ∧
      (∀ k, k ≠ line_hash_of line → cg1.lines k = cg.lines k) ∧
      ∃ cl, cl.ptr = p ∧
        chain_step lineCC.line line (new_lineCC hn line)
          (cg.lines (line_hash_of line)) (cg1.lines (line_hash_of line)) cl cl := by
  unfold get_lineCC_level2 at h
  simp only at h
  split at h
  case isFalse => simp at h
  case isTrue hlt =>
  split at h
  case h_2 => simp at h
  case h_1 ptr nl chain cr hcl =>
  simp only [Except.ok.injEq, Prod.mk.injEq] at h
  obtain ⟨⟨hp, hnl, hcr⟩, hf1⟩ := h
  subst hp hnl hcr hf1
  obtain ⟨c, c1, hk, hstep⟩ := chain_level_step fnCC.fn fn _ _ _ _ _ _ hcl
  obtain ⟨h1, h2, h3⟩ := get_lineCC_level3_chains line hn c c1 ptr nl hk
  refine ⟨rfl, ?_, c, c1, ?_, h1, h2, h3⟩
  · intro j hj
    simp only [Function.update_noteq hj]
  · simp only [Function.update_same]
    exact hstep

/-- C17. What a returning `get_lineCC` does to the chains, for the triple
`(file, fn, line)` of the call. At each of the three levels (the chain of
`CC_table` that `file` hashes to, the chain of `fns` of the file node that `fn`
hashes to, the chain of `lines` of the function node for `line`): when no node of
the chain has the key, the node made becomes the head and the nodes that were
in the chain follow it, unchanged and in their order; when a node has the key,
the chain keeps its nodes in their places (the node found holding what the lower
levels leave in it, and the leaf found being as it was). No other chain
changes. -/
theorem get_lineCC_chains {σ : Type} (dbg : DebugInfo) (a : Addr) (s s1 : State σ) (p : Nat)
    (h : get_lineCC dbg a s = .ok (p, s1)) :
    (s1.heap_next = s.heap_next → s1.CC_table = s.CC_table) ∧
    (∀ i, i ≠ hash (debug_triple dbg a).1 N_FILE_ENTRIES → s1.CC_table i = s.CC_table i) ∧
    ∃ cf cf1, chain_step fileCC.file (debug_triple dbg a).1 (new_fileCC (debug_triple dbg a).1)
        (s.CC_table (hash (debug_triple dbg a).1 N_FILE_ENTRIES))
        (s1.CC_table (hash (debug_triple dbg a).1 N_FILE_ENTRIES)) cf cf1 ∧
      cf1.file = cf.file ∧
      (∀ j, j ≠ hash (debug_triple dbg a).2.1 N_FN_ENTRIES → cf1.fns j = cf.fns j) ∧
      ∃ cg cg1, chain_step fnCC.fn (debug_triple dbg a).2.1 (new_fnCC (debug_triple dbg a).2.1)
          (cf.fns (hash (debug_triple dbg a).2.1 N_FN_ENTRIES))
          (cf1.fns (hash (debug_triple dbg a).2.1 N_FN_ENTRIES)) cg cg1 ∧
        cg1.fn = cg.fn ∧
        (∀ k, k ≠ line_hash_of (debug_triple dbg a).2.2 → cg1.lines k = cg.lines k) ∧
        ∃ cl, cl.ptr = p ∧
          chain_step lineCC.line (debug_triple dbg a).2.2
            (new_lineCC s.heap_next (debug_triple dbg a).2.2)
            (cg.lines (line_hash_of (debug_triple dbg a).2.2))
            (cg1.lines (line_hash_of (debug_triple dbg a).2.2)) cl cl := by
  refine ⟨(get_lineCC_spec dbg a s s1 p h).2.2.2.1, ?_⟩
  obtain ⟨ht, hT, hH, _⟩ := get_debug_info_frame dbg a s
  unfold get_lineCC at h
  generalize hgd : get_debug_info dbg a s = r at h ht hT hH
  obtain ⟨⟨file, fn, line⟩, s0⟩ := r
  simp only at h ht hT hH
  rw [← ht]
  simp only
  split at h
  case isFalse => simp at h
  case isTrue hlt =>
  split at h
  case h_2 => simp at h
  case h_1 ptr nl nf chain cr hcl =>
  simp only [Except.ok.injEq, Prod.mk.injEq] at h
  obtain ⟨hp, hs1⟩ := h
  subst hp hs1
  simp only
  rw [hT, hH] at hcl
  rw [hT]
  obtain ⟨c, c1, hk, hstep⟩ := chain_level_step fileCC.file file _ _ _ _ _ _ hcl
  obtain ⟨h1, h2, h3⟩ := get_lineCC_level2_chains fn line s.heap_next c c1 ptr nl nf hk
  refine ⟨?_, c, c1, ?_, h1, h2, h3⟩
  · intro i hi
    simp only [Function.update_noteq hi]
  · simp only [Function.update_same]
    exact hstep

set_option maxRecDepth 100000 in
theorem get_lineCC_chains_witness :
    get_lineCC demo_dbg_line47 4104 demo_state = .ok (1, demo_state_line47) ∧
    all_leaves demo_state.CC_table = [⟨0, 10, CC.zero, CC.zero, CC.zero⟩] ∧
    all_leaves demo_state_line47.CC_table =
      [⟨1, 47, CC.zero, CC.zero, CC.zero⟩, ⟨0, 10, CC.zero, CC.zero, CC.zero⟩] ∧
    ∀ i, i ≠ hash (debug_triple demo_dbg_line47 4104).1 N_FILE_ENTRIES →
      demo_state_line47.CC_table i = demo_state.CC_table i :=
  ⟨rfl, by decide, by decide,
    (get_lineCC_chains demo_dbg_line47 4104 demo_state demo_state_line47 1 rfl).2.1⟩

theorem wrote_refl {σ : Type} (a : List ReportLine × State σ) : wrote [] a a := by
  simp [wrote]

theorem wrote_trans {σ : Type} (l1 l2 : List ReportLine) (a b c : List ReportLine × State σ)
    (h1 : wrote l1 a b) (h2 : wrote l2 b c) : wrote (l1 ++ l2) a c := by
  refine ⟨?_, by rw [h2.2, h1.2]⟩
  rw [h2.1, h1.1, List.append_assoc]

/-- A loop over a list whose body writes the lines `G x` writes their
concatenation. -/
theorem wrote_foldl {σ α : Type} (T : Nat → List fileCC) (G : α → List ReportLine)
    (step : List ReportLine × State σ → α → List ReportLine × State σ)
    (hstep : ∀ x a, a.2.CC_table = T → wrote (G x) a (step a x))
    (l : List α) (a : List ReportLine × State σ) (ha : a.2.CC_table = T) :
    wrote (l.flatMap G) a (l.foldl step a) := by
  induction l generalizing a with
  | nil => exact wrote_refl a
  | cons x xs ih =>
    simp only [List.flatMap_cons, List.foldl_cons]
    have h1 := hstep x a ha
    exact wrote_trans _ _ _ _ _ h1 (ih (step a x) (by rw [h1.2, ha]))

theorem wrote_fnCC {σ : Type} (g : fnCC) (a : List ReportLine × State σ) :
    wrote (ReportLine.fn g.fn ::
      (List.range N_LINE_ENTRIES).flatMap (fun k => (g.lines k).map record_of))
      a (fprint_fnCC g a) := by
  unfold fprint_fnCC
  have h0 : wrote [ReportLine.fn g.fn] a (a.1 ++ [ReportLine.fn g.fn], a.2) := ⟨rfl, rfl⟩
  have h1 := wrote_foldl a.2.CC_table (fun k => (g.lines k).map record_of)
    (fun acc k => (g.lines k).foldl (fun acc curr_lineCC => fprint_lineCC curr_lineCC acc) acc)
    (by
      intro k b hb
      have := wrote_foldl a.2.CC_table (fun n => [record_of n])
        (fun acc curr_lineCC => fprint_lineCC curr_lineCC acc)
        (fun n c _ => ⟨rfl, rfl⟩) (g.lines k) b hb
      have hmap : (g.lines k).flatMap (fun n => [record_of n]) = (g.lines k).map record_of := by
        induction g.lines k with
        | nil => rfl
        | cons x xs ih => simp [List.flatMap_cons, ih]
      rw [hmap] at this
      exact this)
    (List.range N_LINE_ENTRIES) (a.1 ++ [ReportLine.fn g.fn], a.2) rfl
  exact wrote_trans [ReportLine.fn g.fn] _ _ _ _ h0 h1

theorem wrote_fileCC {σ : Type} (f : fileCC) (a : List ReportLine × State σ) :
    wrote (ReportLine.fl f.file ::
      (List.range N_FN_ENTRIES).flatMap (fun j => (f.fns j).flatMap (fun g =>
        ReportLine.fn g.fn ::
        (List.range N_LINE_ENTRIES).flatMap (fun k => (g.lines k).map record_of))))
      a (fprint_fileCC f a) := by
  unfold fprint_fileCC
  have h0 : wrote [ReportLine.fl f.file] a (a.1 ++ [ReportLine.fl f.file], a.2) := ⟨rfl, rfl⟩
  have h1 := wrote_foldl a.2.CC_table
    (fun j => (f.fns j).flatMap (fun g => ReportLine.fn g.fn ::
      (List.range N_LINE_ENTRIES).flatMap (fun k => (g.lines k).map record_of)))
    (fun acc j => (f.fns j).foldl (fun acc curr_fnCC => fprint_fnCC curr_fnCC acc) acc)
    (by
      intro j b hb
      exact wrote_foldl a.2.CC_table _
        (fun acc curr_fnCC => fprint_fnCC curr_fnCC acc)
        (fun g c _ => wrote_fnCC g c) (f.fns j) b hb)
    (List.range N_FN_ENTRIES) (a.1 ++ [ReportLine.fl f.file], a.2) rfl
  exact wrote_trans [ReportLine.fl f.file] _ _ _ _ h0 h1

/-- The six loops write exactly `report_body` of the table. -/
theorem wrote_table {σ : Type} (a : List ReportLine × State σ) :
    wrote (report_body a.2.CC_table) a (fprint_table a) := by
  unfold fprint_table report_body
  exact wrote_foldl a.2.CC_table _
    (fun acc i =>
      (acc.2.CC_table i).foldl (fun acc curr_fileCC => fprint_fileCC curr_fileCC acc) acc)
    (by
      intro i b hb
      simp only [hb]
      exact wrote_foldl a.2.CC_table _
        (fun acc curr_fileCC => fprint_fileCC curr_fileCC acc)
        (fun f c _ => wrote_fileCC f c) (a.2.CC_table i) b hb)
    (List.range N_FILE_ENTRIES) a rfl

theorem record_lines_flatMap {α : Type} (l : List α) (G : α → List ReportLine) :
    record_lines (l.flatMap G) = l.flatMap (fun x => record_lines (G x)) := by
  unfold record_lines
  induction l with
  | nil => rfl
  | cons x xs ih => simp only [List.flatMap_cons, List.filter_append, ih]

theorem record_lines_map (l : List lineCC) : record_lines (l.map record_of) = l.map record_of := by
  unfold record_lines
  induction l with
  | nil => rfl
  | cons x xs ih =>
    simp only [List.map_cons]
    rw [List.filter_cons_of_pos (by simp [record_of]), ih]

/-- The records among the lines of `report_body` are those of the leaves, in the
order of `all_leaves`. -/
theorem record_lines_report_body (T : Nat → List fileCC) :
    record_lines (report_body T) = (all_leaves T).map record_of := by
  unfold report_body all_leaves fileCC.leaves fnCC.leaves
  simp only [record_lines_flatMap, List.map_flatMap]
  have hfn : ∀ (g : fnCC),
      record_lines (ReportLine.fn g.fn ::
        (List.range N_LINE_ENTRIES).flatMap (fun k => (g.lines k).map record_of)) =
      (List.range N_LINE_ENTRIES).flatMap (fun k => (g.lines k).map record_of) := by
    intro g
    have : record_lines (ReportLine.fn g.fn ::
        (List.range N_LINE_ENTRIES).flatMap (fun k => (g.lines k).map record_of)) =
        record_lines ((List.range N_LINE_ENTRIES).flatMap (fun k => (g.lines k).map record_of)) := by
      unfold record_lines
      rw [List.filter_cons_of_neg (by simp)]
    rw [this, record_lines_flatMap]
    simp only [record_lines_map]
  have hfl : ∀ (f : fileCC) (rest : List ReportLine),
      record_lines (ReportLine.fl f.file :: rest) = record_lines rest := by
    intro f rest
    unfold record_lines
    rw [List.filter_cons_of_neg (by simp)]
  simp only [hfl, record_lines_flatMap, hfn]

theorem mem_fnCC_leaves (g : fnCC) (L : lineCC) :
    L ∈ g.leaves ↔ ∃ k, k < N_LINE_ENTRIES ∧ L ∈ g.lines k := by
  unfold fnCC.leaves
  simp only [List.mem_flatMap, List.mem_range]

theorem mem_fileCC_leaves (f : fileCC) (L : lineCC) :
    L ∈ f.leaves ↔ ∃ j g k, j < N_FN_ENTRIES ∧ g ∈ f.fns j ∧ k < N_LINE_ENTRIES ∧ L ∈ g.lines k := by
  unfold fileCC.leaves
  simp only [List.mem_flatMap, List.mem_range, mem_fnCC_leaves]
  constructor
  · rintro ⟨j, hj, g, hg, k, hk, hL⟩
    exact ⟨j, g, k, hj, hg, hk, hL⟩
  · rintro ⟨j, g, k, hj, hg, hk, hL⟩
    exact ⟨j, hj, g, hg, k, hk, hL⟩

/-- The leaves of `all_leaves` are the leaves in the arrays of the table. -/
theorem mem_all_leaves (T : Nat → List fileCC) (L : lineCC) :
    L ∈ all_leaves T ↔ ∃ i f j g k, leaf_at T i f j g k L := by
  unfold all_leaves leaf_at
  simp only [List.mem_flatMap, List.mem_range, mem_fileCC_leaves]
  constructor
  · rintro ⟨i, hi, f, hf, j, g, k, hj, hg, hk, hL⟩
    exact ⟨i, f, j, g, k, hi, hf, hj, hg, hk, hL⟩
  · rintro ⟨i, f, j, g, k, hi, hf, hj, hg, hk, hL⟩
    exact ⟨i, hi, f, hf, j, g, k, hj, hg, hk, hL⟩

/-- Under the invariant, two leaves of the table with the same address are the
same leaf at the same place. -/
theorem leaf_at_unique {σ : Type} (s : State σ) (hinv : cc_inv s)
    (i : Nat) (f : fileCC) (j : Nat) (g : fnCC) (k : Nat) (L : lineCC)
    (i1 : Nat) (f1 : fileCC) (j1 : Nat) (g1 : fnCC) (k1 : Nat) (L1 : lineCC)
    (h : leaf_at s.CC_table i f j g k L) (h1 : leaf_at s.CC_table i1 f1 j1 g1 k1 L1)
    (hptr : L.ptr = L1.ptr) :
    i = i1 ∧ f = f1 ∧ j = j1 ∧ g = g1 ∧ k = k1 ∧ L = L1 := by
  obtain ⟨hwf, _, hinj⟩ := hinv
  obtain ⟨_, hf, _, hg, _, hL⟩ := h
  obtain ⟨_, hf1, _, hg1, _, hL1⟩ := h1
  have hl : has_leaf s.CC_table f.file g.fn L.line L.ptr :=
    ⟨i, f, hf, rfl, j, g, hg, rfl, k, L, hL, rfl, rfl⟩
  have hl1 : has_leaf s.CC_table f1.file g1.fn L1.line L.ptr :=
    ⟨i1, f1, hf1, rfl, j1, g1, hg1, rfl, k1, L1, hL1, rfl, hptr.symm⟩
  obtain ⟨hfile, hfn, hline⟩ := hinj _ _ _ _ _ _ _ hl hl1
  have hi : i = i1 := by
    rw [← ((hwf i).2 f hf).1, ← ((hwf i1).2 f1 hf1).1, hfile]
  subst hi
  have hff : f = f1 := List.inj_on_of_nodup_map (hwf i).1 hf hf1 hfile
  subst hff
  have hfwf := ((hwf i).2 f hf).2
  have hj : j = j1 := by
    rw [← ((hfwf j).2 g hg).1, ← ((hfwf j1).2 g1 hg1).1, hfn]
  subst hj
  have hgg : g = g1 := List.inj_on_of_nodup_map (hfwf j).1 hg hg1 hfn
  subst hgg
  have hgwf := ((hfwf j).2 g hg).2
  have hk : k = k1 := by
    rw [← (hgwf k).2 L hL, ← (hgwf k1).2 L1 hL1, hline]
  subst hk
  have hLL : L = L1 := List.inj_on_of_nodup_map (hgwf k).1 hL hL1 hline
  exact ⟨rfl, rfl, rfl, rfl, rfl, hLL⟩

/-- Under the invariant no leaf occurs twice in `all_leaves`, and no address
belongs to two of its leaves. -/
theorem all_leaves_nodup {σ : Type} (s : State σ) (hinv : cc_inv s) :
    (all_leaves s.CC_table).Nodup ∧ ((all_leaves s.CC_table).map lineCC.ptr).Nodup := by
  have hwf := hinv.1
  have hnd : (all_leaves s.CC_table).Nodup := by
    unfold all_leaves
    rw [List.nodup_flatMap]
    constructor
    · intro i hi
      have hi' : i < N_FILE_ENTRIES := List.mem_range.1 hi
      rw [List.nodup_flatMap]
      constructor
      · intro f hf
        have hfwf := ((hwf i).2 f hf).2
        unfold fileCC.leaves
        rw [List.nodup_flatMap]
        constructor
        · intro j hj
          have hj' : j < N_FN_ENTRIES := List.mem_range.1 hj
          rw [List.nodup_flatMap]
          constructor
          · intro g hg
            have hgwf := ((hfwf j).2 g hg).2
            unfold fnCC.leaves
            rw [List.nodup_flatMap]
            constructor
            · intro k _
              exact List.Nodup.of_map _ (hgwf k).1
            · apply List.Nodup.pairwise_of_forall_ne (List.nodup_range _)
              intro k hk k1 hk1 hne L hL hL1
              exact hne (leaf_at_unique s hinv i f j g k L i f j g k1 L
                ⟨hi', hf, hj', hg, List.mem_range.1 hk, hL⟩
                ⟨hi', hf, hj', hg, List.mem_range.1 hk1, hL1⟩ rfl).2.2.2.2.1
          · apply List.Nodup.pairwise_of_forall_ne (List.Nodup.of_map _ (hfwf j).1)
            intro g hg g1 hg1 hne L hL hL1
            obtain ⟨k, hk, hLk⟩ := (mem_fnCC_leaves g L).1 hL
            obtain ⟨k1, hk1, hLk1⟩ := (mem_fnCC_leaves g1 L).1 hL1
            exact hne (leaf_at_unique s hinv i f j g k L i f j g1 k1 L
              ⟨hi', hf, hj', hg, hk, hLk⟩ ⟨hi', hf, hj', hg1, hk1, hLk1⟩ rfl).2.2.2.1
        · apply List.Nodup.pairwise_of_forall_ne (List.nodup_range _)
          intro j hj j1 hj1 hne L hL hL1
          obtain ⟨g, hg, hLg⟩ := List.mem_flatMap.1 hL
          obtain ⟨g1, hg1, hLg1⟩ := List.mem_flatMap.1 hL1
          obtain ⟨k, hk, hLk⟩ := (mem_fnCC_leaves g L).1 hLg
          obtain ⟨k1, hk1, hLk1⟩ := (mem_fnCC_leaves g1 L).1 hLg1
          exact hne (leaf_at_unique s hinv i f j g k L i f j1 g1 k1 L
            ⟨hi', hf, List.mem_range.1 hj, hg, hk, hLk⟩
            ⟨hi', hf, List.mem_range.1 hj1, hg1, hk1, hLk1⟩ rfl).2.2.1
      · apply List.Nodup.pairwise_of_forall_ne (List.Nodup.of_map _ (hwf i).1)
        intro f hf f1 hf1 hne L hL hL1
        obtain ⟨j, g, k, hj, hg, hk, hLk⟩ := (mem_fileCC_leaves f L).1 hL
        obtain ⟨j1, g1, k1, hj1, hg1, hk1, hLk1⟩ := (mem_fileCC_leaves f1 L).1 hL1
        exact hne (leaf_at_unique s hinv i f j g k L i f1 j1 g1 k1 L
          ⟨hi', hf, hj, hg, hk, hLk⟩ ⟨hi', hf1, hj1, hg1, hk1, hLk1⟩ rfl).2.1
    · apply List.Nodup.pairwise_of_forall_ne (List.nodup_range _)
      intro i hi i1 hi1 hne L hL hL1
      obtain ⟨f, hf, hLf⟩ := List.mem_flatMap.1 hL
      obtain ⟨f1, hf1, hLf1⟩ := List.mem_flatMap.1 hL1
      obtain ⟨j, g, k, hj, hg, hk, hLk⟩ := (mem_fileCC_leaves f L).1 hLf
      obtain ⟨j1, g1, k1, hj1, hg1, hk1, hLk1⟩ := (mem_fileCC_leaves f1 L).1 hLf1
      exact hne (leaf_at_unique s hinv i f j g k L i1 f1 j1 g1 k1 L
        ⟨List.mem_range.1 hi, hf, hj, hg, hk, hLk⟩
        ⟨List.mem_range.1 hi1, hf1, hj1, hg1, hk1, hLk1⟩ rfl).1
  refine ⟨hnd, List.Nodup.map_on ?_ hnd⟩
  intro L hL L1 hL1 hptr
  obtain ⟨i, f, j, g, k, hat⟩ := (mem_all_leaves _ L).1 hL
  obtain ⟨i1, f1, j1, g1, k1, hat1⟩ := (mem_all_leaves _ L1).1 hL1
  exact (leaf_at_unique s hinv _ _ _ _ _ _ _ _ _ _ _ _ hat hat1 hptr).2.2.2.2.2

theorem with_parent_inv {σ : Type} (n : instr_info) (f : lineCC → lineCC) (s s1 : State σ)
    (h : with_parent n f s = .ok s1) :
    ∃ p, n.parent = some p ∧ s1 = { s with CC_table := table_store p f s.CC_table } := by
  unfold with_parent at h
  cases hp : n.parent with
  | none => rw [hp] at h; simp at h
  | some p =>
    rw [hp] at h
    simp only at h
    split at h
    · simp only [Except.ok.injEq] at h
      exact ⟨p, rfl, h.symm⟩
    · simp at h

/-- A returning accounting call is a store through a leaf pointer that keeps the
address and the line number of the leaf, and leaves the allocation pointer. -/
theorem AccessCall_run_store {σ : Type} (cs : CacheSim σ) (c : AccessCall) (s s1 : State σ)
    (h : c.run cs s = .ok s1) :
    ∃ p F, s1.CC_table = table_store p F s.CC_table ∧ s1.heap_next = s.heap_next ∧
      ∀ L, (F L).ptr = L.ptr ∧ (F L).line = L.line := by
  cases c with
  | c_1I_0D n =>
    simp only [AccessCall.run, log_1I_0D_cache_access] at h
    obtain ⟨p, _, hs1⟩ := with_parent_inv _ _ _ _ h
    subst hs1
    exact ⟨p, _, rfl, rfl, fun L => ⟨rfl, rfl⟩⟩
  | c_1I_1Dr n a =>
    simp only [AccessCall.run, log_1I_1Dr_cache_access] at h
    obtain ⟨p, _, hs1⟩ := with_parent_inv _ _ _ _ h
    subst hs1
    exact ⟨p, _, rfl, rfl, fun L => ⟨rfl, rfl⟩⟩
  | c_1I_1Dw n a =>
    simp only [AccessCall.run, log_1I_1Dw_cache_access] at h
    obtain ⟨p, _, hs1⟩ := with_parent_inv _ _ _ _ h
    subst hs1
    exact ⟨p, _, rfl, rfl, fun L => ⟨rfl, rfl⟩⟩
  | c_1I_2D n a1 a2 =>
    simp only [AccessCall.run, log_1I_2D_cache_access] at h
    obtain ⟨p, _, hs1⟩ := with_parent_inv _ _ _ _ h
    subst hs1
    exact ⟨p, _, rfl, rfl, fun L => ⟨rfl, rfl⟩⟩

theorem fnCC_store_has_leaf (p : Nat) (F : lineCC → lineCC)
    (hF : ∀ L, (F L).ptr = L.ptr ∧ (F L).line = L.line) (g : fnCC) (line : Int) (q : Nat) :
    (g.store p F).has_leaf line q ↔ g.has_leaf line q := by
  have hst : ∀ L, (lineCC.store p F L).ptr = L.ptr ∧ (lineCC.store p F L).line = L.line := by
    intro L
    unfold lineCC.store
    split
    · exact hF L
    · exact ⟨rfl, rfl⟩
  unfold fnCC.has_leaf fnCC.store
  constructor
  · rintro ⟨k, l, hl, hline, hptr⟩
    obtain ⟨l0, hl0, rfl⟩ := List.mem_map.1 hl
    exact ⟨k, l0, hl0, by rw [← (hst l0).2]; exact hline, by rw [← (hst l0).1]; exact hptr⟩
  · rintro ⟨k, l, hl, hline, hptr⟩
    exact ⟨k, _, List.mem_map.2 ⟨l, hl, rfl⟩, by rw [(hst l).2]; exact hline,
      by rw [(hst l).1]; exact hptr⟩

theorem fileCC_store_has_leaf (p : Nat) (F : lineCC → lineCC)
    (hF : ∀ L, (F L).ptr = L.ptr ∧ (F L).line = L.line) (f : fileCC) (fn : CString)
    (line : Int) (q : Nat) :
    (f.store p F).has_leaf fn line q ↔ f.has_leaf fn line q := by
  unfold fileCC.has_leaf fileCC.store
  constructor
  · rintro ⟨j, g, hg, hfn, hl⟩
    obtain ⟨g0, hg0, rfl⟩ := List.mem_map.1 hg
    exact ⟨j, g0, hg0, hfn, (fnCC_store_has_leaf p F hF g0 line q).1 hl⟩
  · rintro ⟨j, g, hg, hfn, hl⟩
    exact ⟨j, _, List.mem_map.2 ⟨g, hg, rfl⟩, hfn, (fnCC_store_has_leaf p F hF g line q).2 hl⟩

theorem table_store_has_leaf (p : Nat) (F : lineCC → lineCC)
    (hF : ∀ L, (F L).ptr = L.ptr ∧ (F L).line = L.line) (T : Nat → List fileCC)
    (file fn : CString) (line : Int) (q : Nat) :
    has_leaf (table_store p F T) file fn line q ↔ has_leaf T file fn line q := by
  unfold has_leaf table_store
  constructor
  · rintro ⟨i, f, hf, hfile, hl⟩
    obtain ⟨f0, hf0, rfl⟩ := List.mem_map.1 hf
    exact ⟨i, f0, hf0, hfile, (fileCC_store_has_leaf p F hF f0 fn line q).1 hl⟩
  · rintro ⟨i, f, hf, hfile, hl⟩
    exact ⟨i, _, List.mem_map.2 ⟨f, hf, rfl⟩, hfile,
      (fileCC_store_has_leaf p F hF f fn line q).2 hl⟩

theorem fnCC_store_wf (p : Nat) (F : lineCC → lineCC)
    (hF : ∀ L, (F L).ptr = L.ptr ∧ (F L).line = L.line) (g : fnCC) (h : g.wf) :
    (g.store p F).wf := by
  have hst : ∀ L, (lineCC.store p F L).line = L.line := by
    intro L
    unfold lineCC.store
    split
    · exact (hF L).2
    · rfl
  intro k
  unfold fnCC.store
  simp only
  constructor
  · rw [List.map_map]
    have : (lineCC.line ∘ lineCC.store p F) = lineCC.line := funext hst
    rw [this]
    exact (h k).1
  · intro l hl
    obtain ⟨l0, hl0, rfl⟩ := List.mem_map.1 hl
    rw [hst]
    exact (h k).2 l0 hl0

theorem fileCC_store_wf (p : Nat) (F : lineCC → lineCC)
    (hF : ∀ L, (F L).ptr = L.ptr ∧ (F L).line = L.line) (f : fileCC) (h : f.wf) :
    (f.store p F).wf := by
  intro j
  unfold fileCC.store
  simp only
  constructor
  · rw [List.map_map]
    have : (fnCC.fn ∘ fnCC.store p F) = fnCC.fn := rfl
    rw [this]
    exact (h j).1
  · intro g hg
    obtain ⟨g0, hg0, rfl⟩ := List.mem_map.1 hg
    exact ⟨((h j).2 g0 hg0).1, fnCC_store_wf p F hF g0 ((h j).2 g0 hg0).2⟩

/-- The invariant of the CC table is kept by a store through a leaf pointer that
keeps the address and the line number of the leaf. -/
theorem cc_inv_store {σ : Type} (s s1 : State σ) (p : Nat) (F : lineCC → lineCC)
    (hF : ∀ L, (F L).ptr = L.ptr ∧ (F L).line = L.line)
    (hT : s1.CC_table = table_store p F s.CC_table) (hH : s1.heap_next = s.heap_next)
    (hinv : cc_inv s) : cc_inv s1 := by
  obtain ⟨h1, h2, h3⟩ := hinv
  unfold cc_inv
  rw [hT, hH]
  refine ⟨?_, ?_, ?_⟩
  · intro i
    unfold table_store
    constructor
    · rw [List.map_map]
      have : (fileCC.file ∘ fileCC.store p F) = fileCC.file := rfl
      rw [this]
      exact (h1 i).1
    · intro f hf
      obtain ⟨f0, hf0, rfl⟩ := List.mem_map.1 hf
      exact ⟨((h1 i).2 f0 hf0).1, fileCC_store_wf p F hF f0 ((h1 i).2 f0 hf0).2⟩
  · intro file fn line q hq
    exact h2 file fn line q ((table_store_has_leaf p F hF _ _ _ _ _).1 hq)
  · intro file fn line file1 fn1 line1 q hq hq1
    exact h3 _ _ _ _ _ _ q ((table_store_has_leaf p F hF _ _ _ _ _).1 hq)
      ((table_store_has_leaf p F hF _ _ _ _ _).1 hq1)

/-- Every state in which the report can be written satisfies the invariant. -/
theorem cc_inv_of_running {σ : Type} (s : State σ) (h : Running s) : cc_inv s := by
  induction h with
  | empty s h => exact cc_inv_empty s h
  | resolve s s1 dbg a p _ h ih => exact cc_inv_get_lineCC dbg a s s1 p h ih
  | access s s1 cs c _ h ih =>
    obtain ⟨p, F, hT, hH, hF⟩ := AccessCall_run_store cs c s s1 h
    exact cc_inv_store s s1 p F hF hT hH ih

theorem record_lines_append (a b : List ReportLine) :
    record_lines (a ++ b) = record_lines a ++ record_lines b := by
  unfold record_lines
  exact List.filter_append _ _

/-- C20. When the output file was opened, the per-line records that
`fprint_CC_table_and_calc_totals` writes are, in order, the records of the leaves
of the nested flattening of the table, one record for each occurrence: `CC_table`
buckets 0..250 in increasing order, the file chain of a bucket from its head, for
each file node its `fns` buckets 0..52 in increasing order and each chain from its
head, for each function node its `lines` buckets 0..36 in increasing order and
each chain from its head. The leaves of the flattening are exactly the leaves
stored in the table, and in every state in which the report can be written no
leaf (and no leaf address) occurs twice in it, so every leaf has exactly one
record. -/
theorem report_records_in_table_order {σ : Type} (env : ReportEnv) (s : State σ)
    (hfd : 0 ≤ env.fd) :
    (∃ out, (fprint_CC_table_and_calc_totals env s).1 = some out ∧
      record_lines out = (all_leaves s.CC_table).map record_of) ∧
    all_leaves s.CC_table =
      (List.range 251).flatMap (fun i => (s.CC_table i).flatMap (fun f =>
        (List.range 53).flatMap (fun j => (f.fns j).flatMap (fun g =>
          (List.range 37).flatMap (fun k => g.lines k))))) ∧
    (∀ L, L ∈ all_leaves s.CC_table ↔
      ∃ i f j g k, i < 251 ∧ f ∈ s.CC_table i ∧ j < 53 ∧ g ∈ f.fns j ∧ k < 37 ∧ L ∈ g.lines k) ∧
    (Running s →
      (all_leaves s.CC_table).Nodup ∧ ((all_leaves s.CC_table).map lineCC.ptr).Nodup) := by
  refine ⟨?_, rfl, fun L => mem_all_leaves s.CC_table L,
    fun h => all_leaves_nodup s (cc_inv_of_running s h)⟩
  have hw := wrote_table ([ReportLine.desc env.I1_desc env.D1_desc env.L2_desc,
          ReportLine.cmd env.client_argv, ReportLine.events], s)
  unfold fprint_CC_table_and_calc_totals
  rw [if_neg (not_lt.2 hfd)]
  refine ⟨_, rfl, ?_⟩
  rw [hw.1, record_lines_append, record_lines_append, record_lines_report_body]
  simp [record_lines]

/-- An instance of `report_records_in_table_order`: the report of the state of
the example after its accounting calls. -/
theorem report_records_in_table_order_witness :
    (0 : Int) ≤ demo_env.fd ∧
    ∃ out, (fprint_CC_table_and_calc_totals demo_env demo_counted_state).1 = some out ∧
      record_lines out = (all_leaves demo_counted_state.CC_table).map record_of :=
  ⟨by decide, (report_records_in_table_order demo_env demo_counted_state (by decide)).1⟩

/-- The whole output of `fprint_CC_table_and_calc_totals` when the output file
was opened and the totals were zero: the header, the lines of the table, and the
summary of the sums of the nine counters over the leaves. -/
theorem fprint_exact {σ : Type} (env : ReportEnv) (s : State σ) (hfd : 0 ≤ env.fd)
    (hzero : s.Ir_total = CC.zero ∧ s.Dr_total = CC.zero ∧ s.Dw_total = CC.zero) :
    (fprint_CC_table_and_calc_totals env s).1 =
      some ([ReportLine.desc env.I1_desc env.D1_desc env.L2_desc,
          ReportLine.cmd env.client_argv, ReportLine.events] ++ report_body s.CC_table ++
        [ReportLine.summary
          [((all_leaves s.CC_table).map (fun n => n.Ir.a)).sum % 2 ^ 64,
           ((all_leaves s.CC_table).map (fun n => n.Ir.m1)).sum % 2 ^ 64,
           ((all_leaves s.CC_table).map (fun n => n.Ir.m2)).sum % 2 ^ 64,
           ((all_leaves s.CC_table).map (fun n => n.Dr.a)).sum % 2 ^ 64,
           ((all_leaves s.CC_table).map (fun n => n.Dr.m1)).sum % 2 ^ 64,
           ((all_leaves s.CC_table).map (fun n => n.Dr.m2)).sum % 2 ^ 64,
           ((all_leaves s.CC_table).map (fun n => n.Dw.a)).sum % 2 ^ 64,
           ((all_leaves s.CC_table).map (fun n => n.Dw.m1)).sum % 2 ^ 64,
           ((all_leaves s.CC_table).map (fun n => n.Dw.m2)).sum % 2 ^ 64]]) := by
  obtain ⟨hIr, hDr, hDw⟩ := hzero
  have hopen : ¬ env.fd < 0 := not_lt.2 hfd
  unfold fprint_CC_table_and_calc_totals
  rw [if_neg hopen]
  generalize ha : ([ReportLine.desc env.I1_desc env.D1_desc env.L2_desc,
    ReportLine.cmd env.client_argv, ReportLine.events], s) = a
  have ha1 : a.1 = [ReportLine.desc env.I1_desc env.D1_desc env.L2_desc,
    ReportLine.cmd env.client_argv, ReportLine.events] := by rw [← ha]
  have ha2 : a.2 = s := by rw [← ha]
  have hw := (wrote_table a).1
  rw [ha1, ha2] at hw
  have hsum : ∀ (get : State σ → Nat) (f : lineCC → Nat),
      (∀ n (b : List ReportLine × State σ),
        get (fprint_lineCC n b).2 = ULong_add (get b.2) (f n)) → get s = 0 →
      get (fprint_table a).2 = ((all_leaves s.CC_table).map f).sum % 2 ^ 64 := by
    intro get f hget h0
    have h := (emitted_table get f hget a).2.2
    rw [h, ha2, h0]
    exact foldl_ULong_add_zero f _
  have e1 := hsum (fun s => s.Ir_total.a) (fun n => n.Ir.a) (fun _ _ => rfl)
    (by show _ = 0; simp only [hIr]; rfl)
  have e2 := hsum (fun s => s.Ir_total.m1) (fun n => n.Ir.m1) (fun _ _ => rfl)
    (by show _ = 0; simp only [hIr]; rfl)
  have e3 := hsum (fun s => s.Ir_total.m2) (fun n => n.Ir.m2) (fun _ _ => rfl)
    (by show _ = 0; simp only [hIr]; rfl)
  have e4 := hsum (fun s => s.Dr_total.a) (fun n => n.Dr.a) (fun _ _ => rfl)
    (by show _ = 0; simp only [hDr]; rfl)
  have e5 := hsum (fun s => s.Dr_total.m1) (fun n => n.Dr.m1) (fun _ _ => rfl)
    (by show _ = 0; simp only [hDr]; rfl)
  have e6 := hsum (fun s => s.Dr_total.m2) (fun n => n.Dr.m2) (fun _ _ => rfl)
    (by show _ = 0; simp only [hDr]; rfl)
  have e7 := hsum (fun s => s.Dw_total.a) (fun n => n.Dw.a) (fun _ _ => rfl)
    (by show _ = 0; simp only [hDw]; rfl)
  have e8 := hsum (fun s => s.Dw_total.m1) (fun n => n.Dw.m1) (fun _ _ => rfl)
    (by show _ = 0; simp only [hDw]; rfl)
  have e9 := hsum (fun s => s.Dw_total.m2) (fun n => n.Dw.m2) (fun _ _ => rfl)
    (by show _ = 0; simp only [hDw]; rfl)
  generalize fprint_table a = r at hw e1 e2 e3 e4 e5 e6 e7 e8 e9
  obtain ⟨out, s1⟩ := r
  simp only at hw e1 e2 e3 e4 e5 e6 e7 e8 e9 ⊢
  rw [hw, e1, e2, e3, e4, e5, e6, e7, e8, e9]

theorem update_nil_map {α β : Type} (g : α → β) (i : Nat) (v : List α) :
    (fun j => (Function.update (fun _ => ([] : List α)) i v j).map g) =
      Function.update (fun _ => ([] : List β)) i (v.map g) := by
  funext j
  by_cases h : j = i
  · subst h; simp
  · simp [Function.update, h]

/-- The CC table that holds one leaf, for line 10 of function `f` of file `a.c`. -/
theorem get_lineCC_first {σ : Type} (dbg : DebugInfo) (a : Addr) (s s1 : State σ) (p : Nat)
    (hempty : ∀ i, s.CC_table i = [])
    (hdbg : debug_triple dbg a = ([97, 46, 99], [102], 10))
    (hget : get_lineCC dbg a s = .ok (p, s1)) :
    s1.CC_table = Function.update (fun _ => []) (hash [97, 46, 99] N_FILE_ENTRIES)
      [⟨[97, 46, 99], Function.update (fun _ => []) (hash [102] N_FN_ENTRIES)
        [⟨[102], Function.update (fun _ => []) (line_hash_of 10) [new_lineCC p 10]⟩]⟩] ∧
    s1.Ir_total = s.Ir_total ∧ s1.Dr_total = s.Dr_total ∧ s1.Dw_total = s.Dw_total := by
  have hfr := get_debug_info_frame dbg a s
  unfold get_lineCC at hget
  generalize get_debug_info dbg a s = r at hfr hget
  obtain ⟨⟨file, fn, line⟩, s0⟩ := r
  obtain ⟨h1, h2, h3, _, _, h6, h7, h8⟩ := hfr
  simp only at h1 h2 h3 h6 h7 h8 hget
  rw [hdbg] at h1
  simp only [Prod.mk.injEq] at h1
  obtain ⟨rfl, rfl, rfl⟩ := h1
  have hT : s0.CC_table = fun _ => [] := by rw [h2]; exact funext hempty
  have hh1 : hash [97, 46, 99] N_FILE_ENTRIES < N_FILE_ENTRIES := by decide
  have hh2 : hash [102] N_FN_ENTRIES < N_FN_ENTRIES := by decide
  have hh3 : line_hash_of 10 < N_LINE_ENTRIES := by decide
  rw [if_pos hh1, hT] at hget
  simp only [chain_level, List.find?_nil, get_lineCC_level2, get_lineCC_level3, if_pos hh2,
    if_pos hh3, new_fileCC, new_fnCC, Except.ok.injEq, Prod.mk.injEq] at hget
  obtain ⟨hp, hs1⟩ := hget
  subst hs1
  simp only [new_lineCC] at hp
  subst hp
  exact ⟨by simp only [hT, h3, new_lineCC], h6, h7, h8⟩


set_option maxRecDepth 100000 in
/-- C14. Starting from a CC table with no node and totals zero, when the address
is resolved to file `a.c`, function `f`, line 10: `get_lineCC` returns, and after
one `log_1I_0D_cache_access` on a record whose parent is the leaf it returned,
with the simulator adding one L1 miss and one L2 miss, the table holds that leaf
alone, with `Ir = {a=1, m1=1, m2=1}` and `Dr = Dw = {0,0,0}`; the lines of the
table in the report are one `fl=a.c`, one `fn=f` and the record
`10 1 1 1 0 0 0 0 0 0`, and the output file is the header, these lines and the
line `summary: 1 1 1 0 0 0 0 0 0`. -/
theorem single_fetch_scenario {σ : Type} (dbg : DebugInfo) (a : Addr) (cs : CacheSim σ)
    (s : State σ) (n : instr_info) (env : ReportEnv)
    (hempty : ∀ i, s.CC_table i = [])
    (hzero : s.Ir_total = CC.zero ∧ s.Dr_total = CC.zero ∧ s.Dw_total = CC.zero)
    (hdbg : debug_triple dbg a = ([97, 46, 99], [102], 10))
    (hfd : 0 ≤ env.fd) :
    (∃ p s1, get_lineCC dbg a s = .ok (p, s1)) ∧
    ∀ p s1, get_lineCC dbg a s = .ok (p, s1) → n.parent = some p →
      (cs.I1_doref s1.sim n.instr_addr n.instr_size).2 = (1, 1) →
      ∃ s2, log_1I_0D_cache_access cs n s1 = .ok s2 ∧
        all_leaves s2.CC_table = [⟨p, 10, ⟨1, 1, 1⟩, ⟨0, 0, 0⟩, ⟨0, 0, 0⟩⟩] ∧
        report_body s2.CC_table =
          [ReportLine.fl [97, 46, 99], ReportLine.fn [102],
           ReportLine.record 10 [1, 1, 1, 0, 0, 0, 0, 0, 0]] ∧
        (report_body s2.CC_table).flatMap ReportLine.lines =
          ["fl=a.c", "fn=f", "10 1 1 1 0 0 0 0 0 0"] ∧
        (fprint_CC_table_and_calc_totals env s2).1 =
          some ([ReportLine.desc env.I1_desc env.D1_desc env.L2_desc,
              ReportLine.cmd env.client_argv, ReportLine.events] ++ report_body s2.CC_table ++
            [ReportLine.summary [1, 1, 1, 0, 0, 0, 0, 0, 0]]) ∧
        (ReportLine.summary [1, 1, 1, 0, 0, 0, 0, 0, 0]).lines =
          ["summary: 1 1 1 0 0 0 0 0 0"] := by
  constructor
  · obtain ⟨⟨p, s1⟩, h⟩ := get_lineCC_returns dbg a s (by rw [hdbg]; decide)
    exact ⟨p, s1, h⟩
  intro p s1 hget hpar hsim
  obtain ⟨hT, hIr, hDr, hDw⟩ := get_lineCC_first dbg a s s1 p hempty hdbg hget
  have hleaves : all_leaves s1.CC_table = [new_lineCC p 10] := by rw [hT]; rfl
  have hlive : p ∈ (all_leaves s1.CC_table).map lineCC.ptr := by
    rw [hleaves]; simp [new_lineCC]
  unfold log_1I_0D_cache_access
  generalize cs.I1_doref s1.sim n.instr_addr n.instr_size = i at hsim
  obtain ⟨st, d⟩ := i
  simp only at hsim
  subst hsim
  simp only
  have hrun := with_parent_ok n (fun L => { L with Ir := L.Ir.ref 1 1 })
    { s1 with sim := st } p hpar hlive
  refine ⟨_, hrun, ?_⟩
  have hT2 : table_store p (fun L => { L with Ir := L.Ir.ref 1 1 }) s1.CC_table =
      Function.update (fun _ => []) (hash [97, 46, 99] N_FILE_ENTRIES)
        [⟨[97, 46, 99], Function.update (fun _ => []) (hash [102] N_FN_ENTRIES)
          [⟨[102], Function.update (fun _ => []) (line_hash_of 10)
            [⟨p, 10, ⟨1, 1, 1⟩, ⟨0, 0, 0⟩, ⟨0, 0, 0⟩⟩]⟩]⟩] := by
    rw [hT]
    unfold table_store
    simp only [fileCC.store, fnCC.store, lineCC.store, update_nil_map,
      List.map_cons, List.map_nil, new_lineCC, if_true]
    rfl
  have hbody : report_body (Function.update (fun _ => []) (hash [97, 46, 99] N_FILE_ENTRIES)
        [⟨[97, 46, 99], Function.update (fun _ => []) (hash [102] N_FN_ENTRIES)
          [⟨[102], Function.update (fun _ => []) (line_hash_of 10)
            [⟨p, 10, ⟨1, 1, 1⟩, ⟨0, 0, 0⟩, ⟨0, 0, 0⟩⟩]⟩]⟩]) =
      [ReportLine.fl [97, 46, 99], ReportLine.fn [102],
       ReportLine.record 10 [1, 1, 1, 0, 0, 0, 0, 0, 0]] := rfl
  have hleaves2 : all_leaves (Function.update (fun _ => []) (hash [97, 46, 99] N_FILE_ENTRIES)
        [⟨[97, 46, 99], Function.update (fun _ => []) (hash [102] N_FN_ENTRIES)
          [⟨[102], Function.update (fun _ => []) (line_hash_of 10)
            [⟨p, 10, ⟨1, 1, 1⟩, ⟨0, 0, 0⟩, ⟨0, 0, 0⟩⟩]⟩]⟩]) =
      [⟨p, 10, ⟨1, 1, 1⟩, ⟨0, 0, 0⟩, ⟨0, 0, 0⟩⟩] := rfl
  have hex := fprint_exact env
    { s1 with sim := st, CC_table := table_store p (fun L => { L with Ir := L.Ir.ref 1 1 }) s1.CC_table }
    hfd ⟨hIr.trans hzero.1, hDr.trans hzero.2.1, hDw.trans hzero.2.2⟩
  simp only at hex ⊢
  rw [hT2] at hex ⊢
  rw [hleaves2] at hex
  rw [hbody] at hex ⊢
  refine ⟨hleaves2, rfl, by decide, ?_, by decide⟩
  rw [hex]
  rfl

/-- An instance of `single_fetch_scenario`: the instruction at `0x1000` of the
example, in the initial state, with the simulator that reports two misses. -/
theorem single_fetch_scenario_witness :
    (∀ i, (State.init ()).CC_table i = []) ∧
    debug_triple demo_dbg 4096 = ([97, 46, 99], [102], 10) ∧
    (0 : Int) ≤ demo_env.fd ∧
    get_lineCC demo_dbg 4096 (State.init ()) = .ok (0, demo_state) ∧
    demo_instr.parent = some 0 ∧
    (demo_sim.I1_doref demo_state.sim demo_instr.instr_addr demo_instr.instr_size).2 = (1, 1) ∧
    ∃ s2, log_1I_0D_cache_access demo_sim demo_instr demo_state = .ok s2 ∧
      all_leaves s2.CC_table = [⟨0, 10, ⟨1, 1, 1⟩, ⟨0, 0, 0⟩, ⟨0, 0, 0⟩⟩] ∧
      report_body s2.CC_table =
        [ReportLine.fl [97, 46, 99], ReportLine.fn [102],
         ReportLine.record 10 [1, 1, 1, 0, 0, 0, 0, 0, 0]] ∧
      (report_body s2.CC_table).flatMap ReportLine.lines =
        ["fl=a.c", "fn=f", "10 1 1 1 0 0 0 0 0 0"] ∧
      (fprint_CC_table_and_calc_totals demo_env s2).1 =
        some ([ReportLine.desc demo_env.I1_desc demo_env.D1_desc demo_env.L2_desc,
            ReportLine.cmd demo_env.client_argv, ReportLine.events] ++ report_body s2.CC_table ++
          [ReportLine.summary [1, 1, 1, 0, 0, 0, 0, 0, 0]]) ∧
      (ReportLine.summary [1, 1, 1, 0, 0, 0, 0, 0, 0]).lines =
        ["summary: 1 1 1 0 0 0 0 0 0"] :=
  ⟨fun _ => rfl, rfl, by decide, rfl, rfl, rfl,
    (single_fetch_scenario demo_dbg 4096 demo_sim (State.init ()) demo_instr demo_env
      (fun _ => rfl) ⟨rfl, rfl, rfl⟩ rfl (by decide)).2 0 demo_state rfl rfl rfl⟩

/-- C18. For every address and every state `get_debug_info` returns a triple
(the function is total): the file name is `"???"` and the line is 0 when the
provider found no file and line, the function name is `"???"` when the provider
found no function name, and what the provider found (file name and line,
function name) is returned as the provider gave it. -/
theorem get_debug_info_triple {σ : Type} (dbg : DebugInfo) (instr_addr : Addr) (s : State σ) :
    (dbg.get_filename_linenum instr_addr = none →
      (get_debug_info dbg instr_addr s).1.1 = [63, 63, 63] ∧
      (get_debug_info dbg instr_addr s).1.2.2 = 0) ∧
    (∀ file line, dbg.get_filename_linenum instr_addr = some (file, line) →
      (get_debug_info dbg instr_addr s).1.1 = file ∧
      (get_debug_info dbg instr_addr s).1.2.2 = line) ∧
    (dbg.get_fnname instr_addr = none →
      (get_debug_info dbg instr_addr s).1.2.1 = [63, 63, 63]) ∧
    (∀ fn, dbg.get_fnname instr_addr = some fn →
      (get_debug_info dbg instr_addr s).1.2.1 = fn) := by
  refine ⟨?_, ?_, ?_, ?_⟩
  · intro h; simp [get_debug_info, debug_triple, h, unknown_name]
  · intro file line h; simp [get_debug_info, debug_triple, h]
  · intro h; simp [get_debug_info, debug_triple, h, unknown_name]
  · intro fn h; simp [get_debug_info, debug_triple, h]

/-- An instance of `get_debug_info_triple`: an address the provider of the
example knows nothing about, and one it knows the file, line and function of. -/
theorem get_debug_info_triple_witness :
    demo_dbg.get_filename_linenum 0 = none ∧
    ((get_debug_info demo_dbg 0 (State.init ())).1.1 = [63, 63, 63] ∧
      (get_debug_info demo_dbg 0 (State.init ())).1.2.2 = 0) ∧
    demo_dbg.get_fnname 4096 = some [102] ∧
    (get_debug_info demo_dbg 4096 (State.init ())).1.2.1 = [102] :=
  ⟨rfl, (get_debug_info_triple demo_dbg 0 (State.init ())).1 rfl, rfl,
    (get_debug_info_triple demo_dbg 4096 (State.init ())).2.2.2 [102] rfl⟩

/-- C19. A call of `get_debug_info` adds one to exactly one of the four counters
`full_debug_BBs`, `file_line_debug_BBs`, `fn_debug_BBs`, `no_debug_BBs`, the one
selected by the pair (`found_file_line`, `found_fn`), and changes nothing else of
the state: the other three counters and the CC table are as before. -/
theorem get_debug_info_counters {σ : Type} (dbg : DebugInfo) (instr_addr : Addr) (s : State σ) :
    (get_debug_info dbg instr_addr s).2 =
      (match (dbg.get_filename_linenum instr_addr).isSome,
          (dbg.get_fnname instr_addr).isSome with
       | true, true => { s with full_debug_BBs := s.full_debug_BBs + 1 }
       | true, false => { s with file_line_debug_BBs := s.file_line_debug_BBs + 1 }
       | false, true => { s with fn_debug_BBs := s.fn_debug_BBs + 1 }
       | false, false => { s with no_debug_BBs := s.no_debug_BBs + 1 }) ∧
    (get_debug_info dbg instr_addr s).2.CC_table = s.CC_table ∧
    (get_debug_info dbg instr_addr s).2.full_debug_BBs +
      (get_debug_info dbg instr_addr s).2.file_line_debug_BBs +
      (get_debug_info dbg instr_addr s).2.fn_debug_BBs +
      (get_debug_info dbg instr_addr s).2.no_debug_BBs =
      s.full_debug_BBs + s.file_line_debug_BBs + s.fn_debug_BBs + s.no_debug_BBs + 1 := by
  unfold get_debug_info
  cases h1 : (dbg.get_filename_linenum instr_addr).isSome <;>
  cases h2 : (dbg.get_fnname instr_addr).isSome <;> simp <;> omega

theorem report_body_by_nodes (T : Nat → List fileCC) : report_body T = report_by_nodes T := by
  unfold report_body report_by_nodes file_nodes fileCC.fn_nodes fnCC.leaves
  rw [List.flatMap_assoc]
  congr 1
  funext i
  congr 1
  funext f
  congr 1
  rw [List.flatMap_assoc]
  congr 1
  funext j
  congr 1
  funext g
  congr 1
  rw [List.map_flatMap]

theorem fl_lines_append (a b : List ReportLine) : fl_lines (a ++ b) = fl_lines a ++ fl_lines b := by
  unfold fl_lines
  exact List.filter_append _ _

theorem fn_lines_append (a b : List ReportLine) : fn_lines (a ++ b) = fn_lines a ++ fn_lines b := by
  unfold fn_lines
  exact List.filter_append _ _

theorem fl_lines_flatMap {α : Type} (l : List α) (f : α → List ReportLine) :
    fl_lines (l.flatMap f) = l.flatMap (fun x => fl_lines (f x)) := by
  induction l with
  | nil => rfl
  | cons x xs ih => simp only [List.flatMap_cons, fl_lines_append, ih]

theorem fn_lines_flatMap {α : Type} (l : List α) (f : α → List ReportLine) :
    fn_lines (l.flatMap f) = l.flatMap (fun x => fn_lines (f x)) := by
  induction l with
  | nil => rfl
  | cons x xs ih => simp only [List.flatMap_cons, fn_lines_append, ih]

theorem fl_lines_records (l : List lineCC) : fl_lines (l.map record_of) = [] := by
  induction l with
  | nil => rfl
  | cons x xs ih =>
    have : fl_lines (List.map record_of xs) = [] := ih
    simp only [List.map_cons, fl_lines, record_of, List.filter_cons] at this ⊢
    simpa using this

theorem fn_lines_records (l : List lineCC) : fn_lines (l.map record_of) = [] := by
  induction l with
  | nil => rfl
  | cons x xs ih =>
    have : fn_lines (List.map record_of xs) = [] := ih
    simp only [List.map_cons, fn_lines, record_of, List.filter_cons] at this ⊢
    simpa using this

theorem flatMap_nil_of_forall {α β : Type} (l : List α) (f : α → List β) (h : ∀ x, f x = []) :
    l.flatMap f = [] := by
  induction l with
  | nil => rfl
  | cons x xs ih => simp [List.flatMap_cons, h, ih]

theorem flatMap_singleton_map {α β : Type} (l : List α) (f : α → β) :
    l.flatMap (fun x => [f x]) = l.map f := by
  induction l with
  | nil => rfl
  | cons x xs ih => simp [List.flatMap_cons, ih]

theorem fl_lines_report_by_nodes (T : Nat → List fileCC) :
    fl_lines (report_by_nodes T) = (file_nodes T).map (fun f => ReportLine.fl f.file) := by
  unfold report_by_nodes
  rw [fl_lines_flatMap, ← flatMap_singleton_map]
  congr 1
  funext f
  have h : fl_lines (f.fn_nodes.flatMap
      (fun g => ReportLine.fn g.fn :: g.leaves.map record_of)) = [] := by
    rw [fl_lines_flatMap]
    apply flatMap_nil_of_forall
    intro g
    have := fl_lines_records g.leaves
    simp only [fl_lines, List.filter_cons] at this ⊢
    simpa using this
  simp only [fl_lines, List.filter_cons] at h ⊢
  simpa using h

theorem fn_lines_report_by_nodes (T : Nat → List fileCC) :
    fn_lines (report_by_nodes T) =
      ((file_nodes T).flatMap fileCC.fn_nodes).map (fun g => ReportLine.fn g.fn) := by
  unfold report_by_nodes
  rw [fn_lines_flatMap, List.map_flatMap]
  congr 1
  funext f
  have h : fn_lines (f.fn_nodes.flatMap
      (fun g => ReportLine.fn g.fn :: g.leaves.map record_of)) =
      f.fn_nodes.map (fun g => ReportLine.fn g.fn) := by
    rw [fn_lines_flatMap, ← flatMap_singleton_map]
    congr 1
    funext g
    have := fn_lines_records g.leaves
    simp only [fn_lines, List.filter_cons] at this ⊢
    simpa using this
  simp only [fn_lines, List.filter_cons] at h ⊢
  simpa using h

/-- C21. When the output file was opened, the report is the header, then for
every file node of the CC table (in the order of the traversal) its `fl=` line
followed, for every function node of that file node, by the `fn=` line and
directly after it the records of the leaves of that function node, then the
summary line. So the `fl=` lines of the report are one for each file node and the
`fn=` lines one for each function node, the `fl=` line of a file is in front of
all records of its functions, the `fn=` line of a function is directly in front
of its records, and no such line stands between two records of one function. -/
theorem report_fl_fn_lines {σ : Type} (env : ReportEnv) (s : State σ) (hfd : 0 ≤ env.fd) :
    ∃ out totals, (fprint_CC_table_and_calc_totals env s).1 = some out ∧
      out = [ReportLine.desc env.I1_desc env.D1_desc env.L2_desc,
          ReportLine.cmd env.client_argv, ReportLine.events] ++
        (file_nodes s.CC_table).flatMap (fun f =>
          ReportLine.fl f.file ::
          f.fn_nodes.flatMap (fun g => ReportLine.fn g.fn :: g.leaves.map record_of)) ++
        [ReportLine.summary totals] ∧
      fl_lines out = (file_nodes s.CC_table).map (fun f => ReportLine.fl f.file) ∧
      fn_lines out =
        ((file_nodes s.CC_table).flatMap fileCC.fn_nodes).map (fun g => ReportLine.fn g.fn) := by
  have hw := wrote_table ([ReportLine.desc env.I1_desc env.D1_desc env.L2_desc,
          ReportLine.cmd env.client_argv, ReportLine.events], s)
  have hout : ∃ totals, (fprint_CC_table_and_calc_totals env s).1 =
      some ([ReportLine.desc env.I1_desc env.D1_desc env.L2_desc,
          ReportLine.cmd env.client_argv, ReportLine.events] ++ report_by_nodes s.CC_table ++
        [ReportLine.summary totals]) := by
    unfold fprint_CC_table_and_calc_totals
    rw [if_neg (not_lt.2 hfd)]
    generalize fprint_table ([ReportLine.desc env.I1_desc env.D1_desc env.L2_desc,
          ReportLine.cmd env.client_argv, ReportLine.events], s) = r at hw
    obtain ⟨out, s1⟩ := r
    have h1 := hw.1
    simp only at h1 ⊢
    rw [h1, report_body_by_nodes]
    exact ⟨_, rfl⟩
  obtain ⟨totals, hout⟩ := hout
  refine ⟨_, totals, hout, rfl, ?_, ?_⟩
  · rw [fl_lines_append, fl_lines_append, fl_lines_report_by_nodes]
    simp [fl_lines]
  · rw [fn_lines_append, fn_lines_append, fn_lines_report_by_nodes]
    simp [fn_lines]

set_option maxRecDepth 100000 in
/-- An instance of `report_fl_fn_lines`: the report of the state of the example
after its accounting calls, which has one file node and one function node. -/
theorem report_fl_fn_lines_witness :
    (0 : Int) ≤ demo_env.fd ∧
    (file_nodes demo_counted_state.CC_table).map (fun f => ReportLine.fl f.file) =
      [ReportLine.fl [97, 46, 99]] ∧
    ∃ out totals, (fprint_CC_table_and_calc_totals demo_env demo_counted_state).1 = some out ∧
      out = [ReportLine.desc demo_env.I1_desc demo_env.D1_desc demo_env.L2_desc,
          ReportLine.cmd demo_env.client_argv, ReportLine.events] ++
        (file_nodes demo_counted_state.CC_table).flatMap (fun f =>
          ReportLine.fl f.file ::
          f.fn_nodes.flatMap (fun g => ReportLine.fn g.fn :: g.leaves.map record_of)) ++
        [ReportLine.summary totals] ∧
      fl_lines out =
        (file_nodes demo_counted_state.CC_table).map (fun f => ReportLine.fl f.file) ∧
      fn_lines out =
        ((file_nodes demo_counted_state.CC_table).flatMap fileCC.fn_nodes).map
          (fun g => ReportLine.fn g.fn) :=
  ⟨by decide, by decide, report_fl_fn_lines demo_env demo_counted_state (by decide)⟩

theorem scan_digits_append (d : List Int) (c : Int) (rest : List Int) (i : Nat)
    (hd : all_digits d) (hc : VG_isdigit c = false) :
    scan_digits (d ++ c :: rest) i = some (i + d.length) := by
  induction d generalizing i with
  | nil => simp [scan_digits, hc]
  | cons x xs ih =>
    have hx : VG_isdigit x = true := hd x (List.mem_cons_self _ _)
    have hxs : all_digits xs := fun y hy => hd y (List.mem_cons_of_mem _ hy)
    have h := ih (i + 1) hxs
    rw [List.cons_append, scan_digits, if_pos hx, h, List.length_cons]
    congr 1
    omega

theorem scan_digits_some (l : List Int) (i j : Nat) (h : scan_digits l i = some j) :
    ∃ d c rest, l = d ++ c :: rest ∧ all_digits d ∧ VG_isdigit c = false ∧ j = i + d.length := by
  induction l generalizing i with
  | nil => simp [scan_digits] at h
  | cons x xs ih =>
    unfold scan_digits at h
    by_cases hx : VG_isdigit x = true
    · rw [if_pos hx] at h
      obtain ⟨d, c, rest, hl, hd, hc, hj⟩ := ih (i + 1) h
      refine ⟨x :: d, c, rest, by rw [hl]; rfl, ?_, hc, ?_⟩
      · intro y hy
        rcases List.mem_cons.1 hy with rfl | hy
        · exact hx
        · exact hd y hy
      · simp only [List.length_cons]
        omega
    · rw [if_neg hx] at h
      simp only [Option.some.injEq] at h
      refine ⟨[], x, xs, rfl, ?_, by simp [hx], by simp [h]⟩
      intro y hy
      simp at hy

theorem scan_digits_returns (l : List Int) (i : Nat) (h : ∃ c ∈ l, VG_isdigit c = false) :
    ∃ j, scan_digits l i = some j := by
  induction l generalizing i with
  | nil => obtain ⟨c, hc, _⟩ := h; simp at hc
  | cons x xs ih =>
    unfold scan_digits
    by_cases hx : VG_isdigit x = true
    · rw [if_pos hx]
      apply ih
      obtain ⟨c, hc, hcd⟩ := h
      rcases List.mem_cons.1 hc with rfl | hc
      · rw [hx] at hcd; simp at hcd
      · exact ⟨c, hc, hcd⟩
    · rw [if_neg hx]
      exact ⟨i, rfl⟩

/-- Reading, writing and skipping at the place of a separator in a buffer. -/
theorem buffer_at (a : List Int) (x : Int) (r : List Int) :
    (a ++ x :: r)[a.length]? = some x ∧
    (∀ v, (a ++ x :: r).set a.length v = a ++ v :: r) ∧
    (a ++ x :: r).drop (a.length + 1) = r := by
  induction a with
  | nil => simp
  | cons y ys ih =>
    obtain ⟨h1, h2, h3⟩ := ih
    refine ⟨by simpa using h1, fun v => by simp, by simp⟩

theorem all_digits_not_mem (d : List Int) (hd : all_digits d) (c : Int)
    (hc : VG_isdigit c = false) : c ∉ d := by
  intro h
  rw [hd c h] at hc
  simp at hc

theorem all_digits_append_cons (a b : List Int) (x : Int) (ha : all_digits a)
    (hb : all_digits b) (hx : VG_isdigit x = true) : all_digits (a ++ x :: b) := by
  intro y hy
  rcases List.mem_append.1 hy with h | h
  · exact ha y h
  · rcases List.mem_cons.1 h with rfl | h
    · exact hx
    · exact hb y h

/-- A string has one place for its first NUL. -/
theorem first_nul_unique (l1 l2 r1 r2 : List Int) (h1 : (0 : Int) ∉ l1) (h2 : (0 : Int) ∉ l2)
    (h : l1 ++ 0 :: r1 = l2 ++ 0 :: r2) : l1 = l2 ∧ r1 = r2 := by
  induction l1 generalizing l2 with
  | nil =>
    cases l2 with
    | nil => simpa using h
    | cons y ys =>
      simp only [List.nil_append, List.cons_append, List.cons.injEq] at h
      exact absurd (by rw [← h.1]; exact List.mem_cons_self _ _) h2
  | cons x xs ih =>
    cases l2 with
    | nil =>
      simp only [List.nil_append, List.cons_append, List.cons.injEq] at h
      exact absurd (by rw [h.1]; exact List.mem_cons_self _ _) h1
    | cons y ys =>
      simp only [List.cons_append, List.cons.injEq] at h
      obtain ⟨hxy, ht⟩ := h
      obtain ⟨e1, e2⟩ := ih ys (fun hm => h1 (List.mem_cons_of_mem _ hm))
        (fun hm => h2 (List.mem_cons_of_mem _ hm)) ht
      exact ⟨by rw [hxy, e1], e2⟩

/-- What `parse_cache_opt` does with a buffer that starts with three runs of
digits, two commas between them and a NUL behind them. -/
theorem parse_cache_opt_shape (atoll : List Int → Int) (cache : cache_t)
    (a b c rest : List Int) (ha : all_digits a) (hb : all_digits b) (hc : all_digits c) :
    parse_cache_opt atoll cache (a ++ 44 :: (b ++ 44 :: (c ++ 0 :: rest))) =
      .ok (⟨Long_to_Int (atoll (a ++ 0 :: (b ++ 0 :: (c ++ 0 :: rest)))),
            Long_to_Int (atoll (b ++ 0 :: (c ++ 0 :: rest))),
            Long_to_Int (atoll (c ++ 0 :: rest))⟩,
        a ++ 44 :: (b ++ 44 :: (c ++ 0 :: rest))) := by
  have h44 : VG_isdigit 44 = false := by decide
  have h0 : VG_isdigit 0 = false := by decide
  obtain ⟨ra, sa, da⟩ := buffer_at a 44 (b ++ 44 :: (c ++ 0 :: rest))
  obtain ⟨ra0, sa0, da0⟩ := buffer_at a 0 (b ++ 44 :: (c ++ 0 :: rest))
  obtain ⟨rb, sb, db⟩ := buffer_at (a ++ 0 :: b) 44 (c ++ 0 :: rest)
  obtain ⟨rb0, sb0, db0⟩ := buffer_at (a ++ 0 :: b) 0 (c ++ 0 :: rest)
  obtain ⟨rc, sc, dc⟩ := buffer_at (a ++ 0 :: (b ++ 0 :: c)) 0 rest
  obtain ⟨ra00, sa00, da00⟩ := buffer_at a 0 (b ++ 0 :: (c ++ 0 :: rest))
  have e1 : (a ++ 0 :: b) ++ 44 :: (c ++ 0 :: rest) = a ++ 0 :: (b ++ 44 :: (c ++ 0 :: rest)) := by
    simp
  have e2 : (a ++ 0 :: b) ++ 0 :: (c ++ 0 :: rest) = a ++ 0 :: (b ++ 0 :: (c ++ 0 :: rest)) := by
    simp
  have e3 : (a ++ 0 :: (b ++ 0 :: c)) ++ 0 :: rest = a ++ 0 :: (b ++ 0 :: (c ++ 0 :: rest)) := by
    simp
  have e4 : (a ++ 44 :: b) ++ 0 :: (c ++ 0 :: rest) = a ++ 44 :: (b ++ 0 :: (c ++ 0 :: rest)) := by
    simp
  have lb : (a ++ 0 :: b).length = a.length + 1 + b.length := by
    simp only [List.length_append, List.length_cons]; omega
  have lb4 : (a ++ 44 :: b).length = a.length + 1 + b.length := by
    simp only [List.length_append, List.length_cons]; omega
  have lc : (a ++ 0 :: (b ++ 0 :: c)).length = a.length + 1 + b.length + 1 + c.length := by
    simp only [List.length_append, List.length_cons]; omega
  rw [e1] at rb sb db
  rw [e2] at rb0 sb0 db0
  rw [e3] at rc sc dc
  rw [lb] at rb sb db rb0 sb0 db0
  rw [lc] at rc
  obtain ⟨_, sb4, _⟩ := buffer_at (a ++ 44 :: b) 0 (c ++ 0 :: rest)
  rw [e4, lb4] at sb4
  unfold parse_cache_opt
  have s1 : skip_digits (a ++ 44 :: (b ++ 44 :: (c ++ 0 :: rest))) 0 = some a.length := by
    unfold skip_digits
    rw [List.drop_zero, scan_digits_append a 44 _ 0 ha h44, Nat.zero_add]
  rw [s1]
  simp only
  rw [if_pos ra, sa 0]
  have s2 : skip_digits (a ++ 0 :: (b ++ 44 :: (c ++ 0 :: rest))) (a.length + 1) =
      some (a.length + 1 + b.length) := by
    unfold skip_digits
    rw [da0, scan_digits_append b 44 _ _ hb h44]
  rw [s2]
  simp only
  rw [if_pos rb, sb 0, e2]
  have s3 : skip_digits (a ++ 0 :: (b ++ 0 :: (c ++ 0 :: rest))) (a.length + 1 + b.length + 1) =
      some (a.length + 1 + b.length + 1 + c.length) := by
    unfold skip_digits
    rw [db0, scan_digits_append c 0 _ _ hc h0]
  rw [s3]
  simp only
  rw [if_pos rc, da00, db0]
  simp only [Nat.add_sub_cancel]
  rw [sa00 44, sb4 44]
  simp


theorem skip_digits_zero (opt : List Int) : skip_digits opt 0 = scan_digits opt 0 := by
  unfold skip_digits
  rw [List.drop_zero]

/-- A buffer on which `parse_cache_opt` returns starts with three runs of digits,
two commas between them and a NUL behind them. -/
theorem parse_cache_opt_ok (atoll : List Int → Int) (cache : cache_t) (opt : List Int)
    (r : cache_t × List Int) (h : parse_cache_opt atoll cache opt = .ok r) :
    ∃ a b c rest, all_digits a ∧ all_digits b ∧ all_digits c ∧
      opt = a ++ 44 :: (b ++ 44 :: (c ++ 0 :: rest)) := by
  unfold parse_cache_opt at h
  rw [skip_digits_zero] at h
  cases h1 : scan_digits opt 0 with
  | none => rw [h1] at h; simp at h
  | some i =>
    rw [h1] at h
    simp only at h
    obtain ⟨a, x, r1, rfl, ha, hx, hi⟩ := scan_digits_some opt 0 i h1
    rw [Nat.zero_add] at hi
    subst hi
    obtain ⟨ra, sa, da⟩ := buffer_at a x r1
    rw [ra] at h
    by_cases hx44 : x = 44
    swap
    · rw [if_neg (by simpa using hx44)] at h
      simp at h
    subst hx44
    rw [if_pos rfl, sa 0] at h
    obtain ⟨_, _, da0⟩ := buffer_at a 0 r1
    unfold skip_digits at h
    rw [da0] at h
    cases h2 : scan_digits r1 (a.length + 1) with
    | none => rw [h2] at h; simp at h
    | some j =>
      rw [h2] at h
      simp only at h
      obtain ⟨b, y, r2, rfl, hb, hy, hj⟩ := scan_digits_some r1 _ j h2
      subst hj
      obtain ⟨rb, sb, db⟩ := buffer_at (a ++ 0 :: b) y r2
      have lb : (a ++ 0 :: b).length = a.length + 1 + b.length := by
        simp only [List.length_append, List.length_cons]; omega
      have e1 : (a ++ 0 :: b) ++ y :: r2 = a ++ 0 :: (b ++ y :: r2) := by simp
      rw [e1, lb] at rb sb db
      rw [rb] at h
      by_cases hy44 : y = 44
      swap
      · rw [if_neg (by simpa using hy44)] at h
        simp at h
      subst hy44
      obtain ⟨_, _, db0⟩ := buffer_at (a ++ 0 :: b) 0 r2
      rw [lb] at db0
      rw [if_pos rfl, sb 0, db0] at h
      cases h3 : scan_digits r2 (a.length + 1 + b.length + 1) with
      | none => rw [h3] at h; simp at h
      | some k =>
        rw [h3] at h
        simp only at h
        obtain ⟨c, z, r3, rfl, hc, hz, hk⟩ := scan_digits_some r2 _ k h3
        subst hk
        obtain ⟨rc, _, _⟩ := buffer_at ((a ++ 0 :: b) ++ 0 :: c) z r3
        have lc : ((a ++ 0 :: b) ++ 0 :: c).length = a.length + 1 + b.length + 1 + c.length := by
          simp only [List.length_append, List.length_cons]; omega
        have e2 : ((a ++ 0 :: b) ++ 0 :: c) ++ z :: r3 = (a ++ 0 :: b) ++ 0 :: (c ++ z :: r3) := by
          simp
        rw [e2, lc] at rc
        rw [rc] at h
        by_cases hz0 : z = 0
        swap
        · rw [if_neg (by simpa using hz0)] at h
          simp at h
        subst hz0
        exact ⟨a, b, c, r3, ha, hb, hc, rfl⟩

/-- On a buffer that holds a NUL, `parse_cache_opt` reads inside the buffer: the
buffer has the shape it accepts, or the call ends in `VG_(bad_option)`. -/
theorem parse_cache_opt_cases (atoll : List Int → Int) (cache : cache_t) (opt : List Int)
    (h0 : (0 : Int) ∈ opt) :
    (∃ a b c rest, all_digits a ∧ all_digits b ∧ all_digits c ∧
      opt = a ++ 44 :: (b ++ 44 :: (c ++ 0 :: rest))) ∨
    parse_cache_opt atoll cache opt = .error Fatal.bad_option := by
  have hd0 : VG_isdigit 0 = false := by decide
  have mem_tail : ∀ (a : List Int) (x : Int) (r : List Int), all_digits a → x ≠ 0 →
      (0 : Int) ∈ a ++ x :: r → (0 : Int) ∈ r := by
    intro a x r ha hx hm
    rcases List.mem_append.1 hm with h | h
    · exact absurd h (all_digits_not_mem a ha 0 hd0)
    · rcases List.mem_cons.1 h with h | h
      · exact absurd h.symm hx
      · exact h
  unfold parse_cache_opt
  rw [skip_digits_zero]
  obtain ⟨i, h1⟩ := scan_digits_returns opt 0 ⟨0, h0, hd0⟩
  rw [h1]
  simp only
  obtain ⟨a, x, r1, rfl, ha, hx, hi⟩ := scan_digits_some opt 0 i h1
  rw [Nat.zero_add] at hi
  subst hi
  obtain ⟨ra, sa, da⟩ := buffer_at a x r1
  rw [ra]
  by_cases hx44 : x = 44
  swap
  · right
    rw [if_neg (by simpa using hx44)]
  subst hx44
  rw [if_pos rfl, sa 0]
  obtain ⟨_, _, da0⟩ := buffer_at a 0 r1
  unfold skip_digits
  rw [da0]
  have h0r1 : (0 : Int) ∈ r1 := mem_tail a 44 r1 ha (by decide) h0
  obtain ⟨j, h2⟩ := scan_digits_returns r1 (a.length + 1) ⟨0, h0r1, hd0⟩
  rw [h2]
  simp only
  obtain ⟨b, y, r2, rfl, hb, hy, hj⟩ := scan_digits_some r1 _ j h2
  subst hj
  obtain ⟨rb, sb, db⟩ := buffer_at (a ++ 0 :: b) y r2
  have lb : (a ++ 0 :: b).length = a.length + 1 + b.length := by
    simp only [List.length_append, List.length_cons]; omega
  have e1 : (a ++ 0 :: b) ++ y :: r2 = a ++ 0 :: (b ++ y :: r2) := by simp
  rw [e1, lb] at rb sb db
  rw [rb]
  by_cases hy44 : y = 44
  swap
  · right
    rw [if_neg (by simpa using hy44)]
  subst hy44
  obtain ⟨_, _, db0⟩ := buffer_at (a ++ 0 :: b) 0 r2
  rw [lb] at db0
  rw [if_pos rfl, sb 0, db0]
  have h0r2 : (0 : Int) ∈ r2 := mem_tail b 44 r2 hb (by decide) h0r1
  obtain ⟨k, h3⟩ := scan_digits_returns r2 (a.length + 1 + b.length + 1) ⟨0, h0r2, hd0⟩
  rw [h3]
  simp only
  obtain ⟨c, z, r3, rfl, hc, hz, hk⟩ := scan_digits_some r2 _ k h3
  subst hk
  obtain ⟨rc, _, _⟩ := buffer_at ((a ++ 0 :: b) ++ 0 :: c) z r3
  have lc : ((a ++ 0 :: b) ++ 0 :: c).length = a.length + 1 + b.length + 1 + c.length := by
    simp only [List.length_append, List.length_cons]; omega
  have e2 : ((a ++ 0 :: b) ++ 0 :: c) ++ z :: r3 = (a ++ 0 :: b) ++ 0 :: (c ++ z :: r3) := by
    simp
  rw [e2, lc] at rc
  rw [rc]
  by_cases hz0 : z = 0
  swap
  · right
    rw [if_neg (by simpa using hz0)]
  subst hz0
  left
  exact ⟨a, b, c, r3, ha, hb, hc, rfl⟩

theorem decimal_fold_ge (d : List Int) (n : Nat) :
    n ≤ d.foldl (fun n c => 10 * n + (c - 48).toNat) n := by
  induction d generalizing n with
  | nil => exact Nat.le_refl _
  | cons x xs ih =>
    simp only [List.foldl_cons]
    exact Nat.le_trans (by omega) (ih _)

theorem to_int64_small (x : Int) (h0 : 0 ≤ x) (h1 : x < 2 ^ 63) : to_int64 x = x := by
  unfold to_int64
  omega

theorem atoll_digits_eq (d : List Int) (c : Int) (rest : List Int) (hd : all_digits d)
    (hc : VG_isdigit c = false) (n : Nat)
    (hbound : d.foldl (fun n c => 10 * n + (c - 48).toNat) n < 2 ^ 63) :
    atoll_digits (d ++ c :: rest) (n : Int) =
      ((d.foldl (fun n c => 10 * n + (c - 48).toNat) n : Nat) : Int) := by
  induction d generalizing n with
  | nil => simp [atoll_digits, hc]
  | cons x xs ih =>
    have hx : VG_isdigit x = true := hd x (List.mem_cons_self _ _)
    have hxs : all_digits xs := fun y hy => hd y (List.mem_cons_of_mem _ hy)
    simp only [List.foldl_cons] at hbound ⊢
    have hge := decimal_fold_ge xs (10 * n + (x - 48).toNat)
    have hx2 : 48 ≤ x ∧ x ≤ 57 := by simpa [VG_isdigit] using hx
    have hcast : (10 : Int) * (n : Int) + (x - 48) = ((10 * n + (x - 48).toNat : Nat) : Int) := by
      push_cast
      omega
    rw [List.cons_append, atoll_digits, if_pos hx, hcast, to_int64_small _ (by omega) (by omega)]
    exact ih hxs _ hbound

/-- `VG_(atoll)` on a run of digits that ends at a NUL is the number the digits
denote, when that is below `2 ^ 63`. -/
theorem VG_atoll_digits (d : List Int) (rest : List Int) (hd : all_digits d)
    (hbound : decimal_value d < 2 ^ 63) :
    VG_atoll (d ++ 0 :: rest) = (decimal_value d : Int) := by
  have h := atoll_digits_eq d 0 rest hd (by decide) 0 hbound
  unfold VG_atoll
  split
  · rename_i r heq
    cases d with
    | nil => simp at heq
    | cons x xs =>
      simp only [List.cons_append, List.cons.injEq] at heq
      have hx : VG_isdigit x = true := hd x (List.mem_cons_self _ _)
      rw [heq.1] at hx
      exact absurd hx (by decide)
  · exact h

theorem Long_to_Int_small (x : Nat) (h : x < 2 ^ 31) : Long_to_Int (x : Int) = (x : Int) := by
  unfold Long_to_Int to_int32
  have h1 : ((x : Int)) % 2 ^ 32 = x := by omega
  rw [h1, if_pos (by omega)]

/-- C22, as amended. For an option value `s` (a string, so without NUL) in a
buffer, `parse_cache_opt` returns if and only if `s` is three runs of decimal
digits, each of which may be empty, separated by two commas, with nothing else
in the string; for every other value the call ends in `VG_(bad_option)`. -/
theorem parse_cache_opt_accepts_iff (atoll : List Int → Int) (cache : cache_t)
    (s : CString) (rest : List Int) (hs : (0 : Int) ∉ s) :
    ((∃ r, parse_cache_opt atoll cache (s ++ 0 :: rest) = .ok r) ↔
      ∃ a b c, all_digits a ∧ all_digits b ∧ all_digits c ∧ s = a ++ 44 :: (b ++ 44 :: c)) ∧
    ((¬ ∃ a b c, all_digits a ∧ all_digits b ∧ all_digits c ∧ s = a ++ 44 :: (b ++ 44 :: c)) →
      parse_cache_opt atoll cache (s ++ 0 :: rest) = .error Fatal.bad_option) := by
  have hd0 : VG_isdigit 0 = false := by decide
  have hd44 : VG_isdigit 44 = true → False := by decide
  have hshape : ∀ a b c rest1, all_digits a → all_digits b → all_digits c →
      s ++ 0 :: rest = a ++ 44 :: (b ++ 44 :: (c ++ 0 :: rest1)) →
      s = a ++ 44 :: (b ++ 44 :: c) := by
    intro a b c rest1 ha hb hc he
    have e : a ++ 44 :: (b ++ 44 :: (c ++ 0 :: rest1)) = (a ++ 44 :: (b ++ 44 :: c)) ++ 0 :: rest1 := by
      simp
    rw [e] at he
    refine (first_nul_unique _ _ _ _ hs ?_ he).1
    intro hm
    rcases List.mem_append.1 hm with h | h
    · exact all_digits_not_mem a ha 0 hd0 h
    · rcases List.mem_cons.1 h with h | h
      · exact absurd h (by decide)
      · rcases List.mem_append.1 h with h | h
        · exact all_digits_not_mem b hb 0 hd0 h
        · rcases List.mem_cons.1 h with h | h
          · exact absurd h (by decide)
          · exact all_digits_not_mem c hc 0 hd0 h
  constructor
  · constructor
    · rintro ⟨r, hr⟩
      obtain ⟨a, b, c, rest1, ha, hb, hc, he⟩ := parse_cache_opt_ok atoll cache _ r hr
      exact ⟨a, b, c, ha, hb, hc, hshape a b c rest1 ha hb hc he⟩
    · rintro ⟨a, b, c, ha, hb, hc, rfl⟩
      have e : (a ++ 44 :: (b ++ 44 :: c)) ++ 0 :: rest = a ++ 44 :: (b ++ 44 :: (c ++ 0 :: rest)) := by
        simp
      rw [e]
      exact ⟨_, parse_cache_opt_shape atoll cache a b c rest ha hb hc⟩
  · intro hno
    rcases parse_cache_opt_cases atoll cache (s ++ 0 :: rest)
      (List.mem_append_right _ (List.mem_cons_self _ _)) with h | h
    · obtain ⟨a, b, c, rest1, ha, hb, hc, he⟩ := h
      exact absurd ⟨a, b, c, ha, hb, hc, hshape a b c rest1 ha hb hc he⟩ hno
    · exact h

/-- An instance of `parse_cache_opt_accepts_iff`: the value `65536,2,64` is
accepted and the value `65536,2` ends in `VG_(bad_option)`. -/
theorem parse_cache_opt_accepts_iff_witness :
    ((0 : Int) ∉ ([54, 53, 53, 51, 54, 44, 50, 44, 54, 52] : CString)) ∧
    (∃ r, parse_cache_opt VG_atoll UNDEFINED_CACHE
      ([54, 53, 53, 51, 54, 44, 50, 44, 54, 52] ++ 0 :: []) = .ok r) ∧
    parse_cache_opt VG_atoll UNDEFINED_CACHE [54, 53, 53, 51, 54, 44, 50, 0] =
      .error Fatal.bad_option :=
  ⟨by decide,
    (parse_cache_opt_accepts_iff VG_atoll UNDEFINED_CACHE
      [54, 53, 53, 51, 54, 44, 50, 44, 54, 52] [] (by decide)).1.2
      ⟨[54, 53, 53, 51, 54], [50], [54, 52], by decide, by decide, by decide, rfl⟩,
    rfl⟩

/-- C22 fails as stated. The option value `,,`, whose three fields are empty, is
accepted: `parse_cache_opt` returns, with the three sizes zero, and it is not of
the form of three non-empty runs of digits separated by two commas. -/
theorem parse_cache_opt_accepts_empty_fields :
    parse_cache_opt VG_atoll UNDEFINED_CACHE [44, 44, 0] = .ok (⟨0, 0, 0⟩, [44, 44, 0]) ∧
    ¬ ∃ a b c : CString, a ≠ [] ∧ b ≠ [] ∧ c ≠ [] ∧
      all_digits a ∧ all_digits b ∧ all_digits c ∧
      ([44, 44] : CString) = a ++ 44 :: (b ++ 44 :: c) := by
  refine ⟨rfl, ?_⟩
  rintro ⟨a, b, c, ha, _, _, hda, _, _, he⟩
  cases a with
  | nil => exact ha rfl
  | cons x xs =>
    simp only [List.cons_append, List.cons.injEq] at he
    have hx := hda x (List.mem_cons_self _ _)
    rw [← he.1] at hx
    exact absurd hx (by decide)

/-- C23. For an option value of three runs of decimal digits separated by two
commas, each run denoting a number below `2 ^ 31`, `parse_cache_opt` returns and
sets `cache->size`, `cache->assoc` and `cache->line_size` to the numbers that the
first, the second and the third run denote (`VG_(atoll)` being the decimal
reading of a run of digits). -/
theorem parse_cache_opt_values (cache : cache_t) (a b c : CString) (rest : List Int)
    (hdigits : all_digits a ∧ all_digits b ∧ all_digits c)
    (hsmall : decimal_value a < 2 ^ 31 ∧ decimal_value b < 2 ^ 31 ∧ decimal_value c < 2 ^ 31) :
    parse_cache_opt VG_atoll cache (a ++ 44 :: (b ++ 44 :: (c ++ 0 :: rest))) =
      .ok (⟨decimal_value a, decimal_value b, decimal_value c⟩,
        a ++ 44 :: (b ++ 44 :: (c ++ 0 :: rest))) := by
  obtain ⟨ha, hb, hc⟩ := hdigits
  obtain ⟨hva, hvb, hvc⟩ := hsmall
  rw [parse_cache_opt_shape VG_atoll cache a b c rest ha hb hc]
  rw [VG_atoll_digits a _ ha (by omega), VG_atoll_digits b _ hb (by omega),
    VG_atoll_digits c _ hc (by omega), Long_to_Int_small _ hva, Long_to_Int_small _ hvb,
    Long_to_Int_small _ hvc]

/-- An instance of `parse_cache_opt_values`: the option value `65536,2,64` gives
`{size = 65536, assoc = 2, line_size = 64}`. -/
theorem parse_cache_opt_values_witness :
    (all_digits [54, 53, 53, 51, 54] ∧ all_digits [50] ∧ all_digits [54, 52]) ∧
    (decimal_value [54, 53, 53, 51, 54] = 65536 ∧ decimal_value [50] = 2 ∧
      decimal_value [54, 52] = 64) ∧
    parse_cache_opt VG_atoll UNDEFINED_CACHE [54, 53, 53, 51, 54, 44, 50, 44, 54, 52, 0] =
      .ok (⟨65536, 2, 64⟩, [54, 53, 53, 51, 54, 44, 50, 44, 54, 52, 0]) ∧
    parse_cache_opt VG_atoll UNDEFINED_CACHE
        ([54, 53, 53, 51, 54] ++ 44 :: ([50] ++ 44 :: ([54, 52] ++ 0 :: []))) =
      .ok (⟨decimal_value [54, 53, 53, 51, 54], decimal_value [50], decimal_value [54, 52]⟩,
        [54, 53, 53, 51, 54] ++ 44 :: ([50] ++ 44 :: ([54, 52] ++ 0 :: []))) :=
  ⟨by decide, by decide, rfl,
    parse_cache_opt_values UNDEFINED_CACHE [54, 53, 53, 51, 54] [50] [54, 52] []
      (by decide) (by decide)⟩

/-- C24. When `parse_cache_opt` returns, the buffer of the option string is,
byte for byte, what it was before the call: the two commas that were overwritten
with NUL are both put back, and no other byte was written. -/
theorem parse_cache_opt_restores (atoll : List Int → Int) (cache cache1 : cache_t)
    (opt opt1 : List Int) (h : parse_cache_opt atoll cache opt = .ok (cache1, opt1)) :
    opt1 = opt := by
  obtain ⟨a, b, c, rest, ha, hb, hc, rfl⟩ := parse_cache_opt_ok atoll cache opt _ h
  rw [parse_cache_opt_shape atoll cache a b c rest ha hb hc] at h
  simp only [Except.ok.injEq, Prod.mk.injEq] at h
  exact h.2.symm

/-- An instance of `parse_cache_opt_restores`: the buffer that holds `65536,2,64`. -/
theorem parse_cache_opt_restores_witness :
    parse_cache_opt VG_atoll UNDEFINED_CACHE [54, 53, 53, 51, 54, 44, 50, 44, 54, 52, 0] =
      .ok (⟨65536, 2, 64⟩, [54, 53, 53, 51, 54, 44, 50, 44, 54, 52, 0]) ∧
    ([54, 53, 53, 51, 54, 44, 50, 44, 54, 52, 0] : List Int) =
      [54, 53, 53, 51, 54, 44, 50, 44, 54, 52, 0] :=
  ⟨rfl, parse_cache_opt_restores VG_atoll UNDEFINED_CACHE ⟨65536, 2, 64⟩
    [54, 53, 53, 51, 54, 44, 50, 44, 54, 52, 0] [54, 53, 53, 51, 54, 44, 50, 44, 54, 52, 0] rfl⟩

theorem DEFINED_iff (L : cache_t) : DEFINED L = true ↔ L ≠ UNDEFINED_CACHE := by
  obtain ⟨x, y, z⟩ := L
  simp only [DEFINED, UNDEFINED_CACHE, decide_eq_true_eq, ne_eq, cache_t.mk.injEq]
  omega

theorem n_clos_eq (I1 D1 L2 : cache_t) :
    n_clos I1 D1 L2 = (([I1, D1, L2].filter DEFINED).length : Int) := by
  unfold n_clos
  cases h1 : DEFINED I1 <;> cases h2 : DEFINED D1 <;> cases h3 : DEFINED L2 <;>
    simp [List.filter, h1, h2, h3]

/-- C25, as amended. `configure_caches` counts in `n_clos` those of the three
command-line triples for which `DEFINED` holds, that is, those with at least one
field different from the unset value -1 (the triples that differ from
`UNDEFINED_CACHE`); for a triple that is `UNDEFINED_CACHE` or has no field equal
to -1 this is the same as having all three fields set. The flag passed to
`VGA_(configure_caches)` is true if and only if `DEFINED` holds for all three
triples: the call gives what it gives with a collaborator that is handed that
flag. -/
theorem configure_caches_counts (VGA_configure_caches : Caches → Bool → Caches)
    (log2 : Int → Int) (clo_I1_cache clo_D1_cache clo_L2_cache : cache_t) (caches : Caches) :
    n_clos clo_I1_cache clo_D1_cache clo_L2_cache =
      (([clo_I1_cache, clo_D1_cache, clo_L2_cache].filter DEFINED).length : Int) ∧
    (∀ L, DEFINED L = true ↔ L ≠ UNDEFINED_CACHE) ∧
    (∀ L, L = UNDEFINED_CACHE ∨ fully_specified L = true → DEFINED L = fully_specified L) ∧
    (3 = n_clos clo_I1_cache clo_D1_cache clo_L2_cache ↔
      DEFINED clo_I1_cache = true ∧ DEFINED clo_D1_cache = true ∧ DEFINED clo_L2_cache = true) ∧
    configure_caches VGA_configure_caches log2 clo_I1_cache clo_D1_cache clo_L2_cache caches =
      configure_caches
        (fun c _ => VGA_configure_caches c
          (DEFINED clo_I1_cache && DEFINED clo_D1_cache && DEFINED clo_L2_cache))
        log2 clo_I1_cache clo_D1_cache clo_L2_cache caches := by
  have hflag : decide (3 = n_clos clo_I1_cache clo_D1_cache clo_L2_cache) =
      (DEFINED clo_I1_cache && DEFINED clo_D1_cache && DEFINED clo_L2_cache) := by
    unfold n_clos
    cases h1 : DEFINED clo_I1_cache <;> cases h2 : DEFINED clo_D1_cache <;>
      cases h3 : DEFINED clo_L2_cache <;> simp
  refine ⟨n_clos_eq _ _ _, DEFINED_iff, ?_, ?_, ?_⟩
  · intro L hL
    rcases hL with rfl | hL
    · rfl
    · rw [hL]
      obtain ⟨x, y, z⟩ := L
      simp only [fully_specified, decide_eq_true_eq] at hL
      simp only [DEFINED, decide_eq_true_eq]
      omega
  · have := hflag
    cases h1 : DEFINED clo_I1_cache <;> cases h2 : DEFINED clo_D1_cache <;>
      cases h3 : DEFINED clo_L2_cache <;> simp [h1, h2, h3] at this ⊢ <;> omega
  · unfold configure_caches
    rw [hflag]

/-- An instance of `configure_caches_counts`: for the triple that the option
value `65536,2,64` sets, `DEFINED` and having all three fields set agree. -/
theorem configure_caches_counts_witness :
    fully_specified ⟨65536, 2, 64⟩ = true ∧
    DEFINED ⟨65536, 2, 64⟩ = fully_specified ⟨65536, 2, 64⟩ ∧
    n_clos ⟨65536, 2, 64⟩ UNDEFINED_CACHE UNDEFINED_CACHE = 1 :=
  ⟨by decide,
    (configure_caches_counts demo_detect VG_log2 ⟨65536, 2, 64⟩ UNDEFINED_CACHE UNDEFINED_CACHE
      demo_caches).2.2.1 ⟨65536, 2, 64⟩ (Or.inr (by decide)),
    by decide⟩

set_option maxRecDepth 100000 in
/-- C25 fails as stated. The triple `{-1, 2, 64}`, which the option value
`4294967295,2,64` sets, has a field equal to the unset value -1, so it is not
fully specified in the sense of the claim; `DEFINED` holds for it and
`configure_caches` counts it in `n_clos`, and with three such triples the flag
passed to the auto-detection is true. And the triple that the option value
`4294967295,4294967295,4294967295` sets is `UNDEFINED_CACHE`, which is not
counted although the user gave all three fields. -/
theorem n_clos_counts_partly_set :
    parse_cache_opt VG_atoll UNDEFINED_CACHE
        [52, 50, 57, 52, 57, 54, 55, 50, 57, 53, 44, 50, 44, 54, 52, 0] =
      .ok (⟨-1, 2, 64⟩, [52, 50, 57, 52, 57, 54, 55, 50, 57, 53, 44, 50, 44, 54, 52, 0]) ∧
    fully_specified ⟨-1, 2, 64⟩ = false ∧
    DEFINED ⟨-1, 2, 64⟩ = true ∧
    n_clos ⟨-1, 2, 64⟩ UNDEFINED_CACHE UNDEFINED_CACHE = 1 ∧
    (([⟨-1, 2, 64⟩, UNDEFINED_CACHE, UNDEFINED_CACHE] : List cache_t).filter
      fully_specified).length = 0 ∧
    decide (3 = n_clos ⟨-1, 2, 64⟩ ⟨-1, 2, 64⟩ ⟨-1, 2, 64⟩) = true ∧
    parse_cache_opt VG_atoll ⟨0, 0, 0⟩
        [52, 50, 57, 52, 57, 54, 55, 50, 57, 53, 44, 52, 50, 57, 52, 57, 54, 55, 50, 57, 53, 44,
         52, 50, 57, 52, 57, 54, 55, 50, 57, 53, 0] =
      .ok (UNDEFINED_CACHE,
        [52, 50, 57, 52, 57, 54, 55, 50, 57, 53, 44, 52, 50, 57, 52, 57, 54, 55, 50, 57, 53, 44,
         52, 50, 57, 52, 57, 54, 55, 50, 57, 53, 0]) ∧
    n_clos UNDEFINED_CACHE UNDEFINED_CACHE UNDEFINED_CACHE = 0 := by
  refine ⟨rfl, by decide, by decide, by decide, by decide, by decide, rfl, by decide⟩

/-- Every way in which `check_cache` does not return is `VG_(exit)(1)`. -/
theorem check_cache_ok_or_exit (log2 : Int → Int) (c : cache_t) :
    check_cache log2 c = .ok () ∨ check_cache log2 c = .error (Fatal.exit 1) := by
  unfold check_cache
  split_ifs <;> simp

/-- C26. In `configure_caches`, after the overlay each of `*I1c`, `*D1c`, `*L2c`
is the command-line triple of that cache when `DEFINED` holds for it and what the
auto-detection left in it otherwise, each cache by its own triple alone; these
overlaid triples are what `check_cache` is called on, and what the caches hold
when `configure_caches` returns. The call returns exactly when `check_cache`
returns for all three, and exits with status 1 otherwise. -/
theorem configure_caches_overlay (VGA_configure_caches : Caches → Bool → Caches)
    (log2 : Int → Int) (clo_I1_cache clo_D1_cache clo_L2_cache : cache_t) (caches : Caches)
    (detected : Caches) (I1c D1c L2c : cache_t)
    (hdetected : detected = VGA_configure_caches caches
      (decide (3 = n_clos clo_I1_cache clo_D1_cache clo_L2_cache)))
    (hI1 : I1c = if DEFINED clo_I1_cache then clo_I1_cache else detected.I1c)
    (hD1 : D1c = if DEFINED clo_D1_cache then clo_D1_cache else detected.D1c)
    (hL2 : L2c = if DEFINED clo_L2_cache then clo_L2_cache else detected.L2c) :
    (check_cache log2 I1c = .ok () ∧ check_cache log2 D1c = .ok () ∧
        check_cache log2 L2c = .ok () →
      configure_caches VGA_configure_caches log2 clo_I1_cache clo_D1_cache clo_L2_cache caches =
        .ok ⟨I1c, D1c, L2c⟩) ∧
    (¬ (check_cache log2 I1c = .ok () ∧ check_cache log2 D1c = .ok () ∧
        check_cache log2 L2c = .ok ()) →
      configure_caches VGA_configure_caches log2 clo_I1_cache clo_D1_cache clo_L2_cache caches =
        .error (Fatal.exit 1)) ∧
    (∀ r, configure_caches VGA_configure_caches log2 clo_I1_cache clo_D1_cache clo_L2_cache
        caches = .ok r →
      r = ⟨I1c, D1c, L2c⟩ ∧ check_cache log2 r.I1c = .ok () ∧
        check_cache log2 r.D1c = .ok () ∧ check_cache log2 r.L2c = .ok ()) := by
  have hcc : configure_caches VGA_configure_caches log2 clo_I1_cache clo_D1_cache clo_L2_cache
      caches =
      (match check_cache log2 I1c with
      | .error e => .error e
      | .ok _ =>
        match check_cache log2 D1c with
        | .error e => .error e
        | .ok _ =>
          match check_cache log2 L2c with
          | .error e => .error e
          | .ok _ => .ok ⟨I1c, D1c, L2c⟩) := by
    subst hI1 hD1 hL2 hdetected
    rfl
  rw [hcc]
  rcases check_cache_ok_or_exit log2 I1c with h1 | h1 <;>
  rcases check_cache_ok_or_exit log2 D1c with h2 | h2 <;>
  rcases check_cache_ok_or_exit log2 L2c with h3 | h3 <;>
  simp [h1, h2, h3]

/-- An instance of `configure_caches_overlay`: the I1 cache given on the command
line as `32768,8,64`, the other two detected. -/
theorem configure_caches_overlay_witness :
    (check_cache VG_log2 ⟨32768, 8, 64⟩ = .ok () ∧ check_cache VG_log2 ⟨65536, 2, 64⟩ = .ok () ∧
      check_cache VG_log2 ⟨65536, 2, 64⟩ = .ok ()) ∧
    configure_caches demo_detect VG_log2 ⟨32768, 8, 64⟩ UNDEFINED_CACHE UNDEFINED_CACHE
        demo_caches =
      .ok ⟨⟨32768, 8, 64⟩, ⟨65536, 2, 64⟩, ⟨65536, 2, 64⟩⟩ :=
  ⟨⟨rfl, rfl, rfl⟩,
    (configure_caches_overlay demo_detect VG_log2 ⟨32768, 8, 64⟩ UNDEFINED_CACHE UNDEFINED_CACHE
      demo_caches ⟨⟨65536, 2, 64⟩, ⟨65536, 2, 64⟩, ⟨65536, 2, 64⟩⟩
      ⟨32768, 8, 64⟩ ⟨65536, 2, 64⟩ ⟨65536, 2, 64⟩ rfl rfl rfl rfl).1 ⟨rfl, rfl, rfl⟩⟩

/-- C28, as amended. `check_cache` never changes the configuration it is given:
it returns to its caller exactly when none of its six checks fails, and
otherwise it calls `VG_(exit)(1)`. So `configure_caches` either exits with
status 1 or returns with the three overlaid triples as they were before the
checks, all three accepted by `check_cache`. -/
theorem check_cache_never_repairs (log2 : Int → Int) (c : cache_t) :
    (check_cache log2 c = .ok () ∨ check_cache log2 c = .error (Fatal.exit 1)) ∧
    (check_cache log2 c = .error (Fatal.exit 1) ↔
      (-1 = log2 c.size ∨ -1 = log2 c.assoc ∨ -1 = log2 c.line_size ∨
        c.line_size < MIN_LINE_SIZE ∨ c.size ≤ c.line_size ∨
        c.assoc > Int.tdiv c.size c.line_size)) ∧
    (∀ (VGA_configure_caches : Caches → Bool → Caches)
        (clo_I1_cache clo_D1_cache clo_L2_cache : cache_t) (caches : Caches),
      configure_caches VGA_configure_caches log2 clo_I1_cache clo_D1_cache clo_L2_cache caches =
        .error (Fatal.exit 1) ∨
      ∃ r, configure_caches VGA_configure_caches log2 clo_I1_cache clo_D1_cache clo_L2_cache
          caches = .ok r ∧
        check_cache log2 r.I1c = .ok () ∧ check_cache log2 r.D1c = .ok () ∧
        check_cache log2 r.L2c = .ok () ∧
        r.I1c = (if DEFINED clo_I1_cache then clo_I1_cache
          else (VGA_configure_caches caches
            (decide (3 = n_clos clo_I1_cache clo_D1_cache clo_L2_cache))).I1c) ∧
        r.D1c = (if DEFINED clo_D1_cache then clo_D1_cache
          else (VGA_configure_caches caches
            (decide (3 = n_clos clo_I1_cache clo_D1_cache clo_L2_cache))).D1c) ∧
        r.L2c = (if DEFINED clo_L2_cache then clo_L2_cache
          else (VGA_configure_caches caches
            (decide (3 = n_clos clo_I1_cache clo_D1_cache clo_L2_cache))).L2c)) := by
  refine ⟨check_cache_ok_or_exit log2 c, ?_, ?_⟩
  · unfold check_cache
    split_ifs <;> simp_all
  · intro VGA I1 D1 L2 caches
    unfold configure_caches
    simp only
    generalize (if DEFINED I1 = true then I1
      else (VGA caches (decide (3 = n_clos I1 D1 L2))).I1c) = a
    generalize (if DEFINED D1 = true then D1
      else (VGA caches (decide (3 = n_clos I1 D1 L2))).D1c) = b
    generalize (if DEFINED L2 = true then L2
      else (VGA caches (decide (3 = n_clos I1 D1 L2))).L2c) = d
    rcases check_cache_ok_or_exit log2 a with h1 | h1 <;>
    rcases check_cache_ok_or_exit log2 b with h2 | h2 <;>
    rcases check_cache_ok_or_exit log2 d with h3 | h3 <;>
    simp [h1, h2, h3]

/-- An instance of `check_cache_never_repairs`: with the I1 cache given on the
command line as `4096,3,32`, `configure_caches` exits. -/
theorem check_cache_never_repairs_witness :
    check_cache VG_log2 ⟨4096, 3, 32⟩ = .error (Fatal.exit 1) ∧
    (-1 = VG_log2 4096 ∨ -1 = VG_log2 3 ∨ -1 = VG_log2 32 ∨
      (32 : Int) < MIN_LINE_SIZE ∨ (4096 : Int) ≤ 32 ∨ (3 : Int) > Int.tdiv 4096 32) :=
  ⟨rfl, (check_cache_never_repairs VG_log2 ⟨4096, 3, 32⟩).2.1.1 rfl⟩

/-- C28 fails as stated. For the configuration `{4096, 3, 32}`, whose
associativity is not a power of two, `check_cache` does not return to its
caller and repairs nothing: it calls `VG_(exit)(1)`, and so does
`configure_caches` when that configuration was given on the command line. -/
theorem check_cache_exits :
    check_cache VG_log2 ⟨4096, 3, 32⟩ = .error (Fatal.exit 1) ∧
    check_cache VG_log2 ⟨4096, 3, 32⟩ ≠ .ok () ∧
    configure_caches demo_detect VG_log2 ⟨4096, 3, 32⟩ UNDEFINED_CACHE UNDEFINED_CACHE
      demo_caches = .error (Fatal.exit 1) := by
  refine ⟨rfl, ?_, rfl⟩
  intro h
  have h2 : check_cache VG_log2 ⟨4096, 3, 32⟩ = .error (Fatal.exit 1) := rfl
  rw [h2] at h
  exact absurd h (by simp)

/-- C29. `is_valid_data_size(d)` is true exactly for `d` in 1, 2, 4, 8, 10, 16 (so
not for 0); the clamp `if (data_size > MIN_LINE_SIZE) data_size = MIN_LINE_SIZE`
leaves every size up to 16 as it is and makes 16 of every larger one, which
`is_valid_data_size` accepts. -/
theorem is_valid_data_size_iff (d : Int) :
    (is_valid_data_size d = true ↔ d = 1 ∨ d = 2 ∨ d = 4 ∨ d = 8 ∨ d = 10 ∨ d = 16) ∧
    is_valid_data_size 0 = false ∧
    (d ≤ 16 → clamp_data_size d = d) ∧
    (16 < d → clamp_data_size d = 16 ∧ is_valid_data_size (clamp_data_size d) = true) := by
  refine ⟨?_, by decide, ?_, ?_⟩
  · simp only [is_valid_data_size, MIN_LINE_SIZE, decide_eq_true_eq]
    omega
  · intro h
    unfold clamp_data_size MIN_LINE_SIZE
    rw [if_neg (by omega)]
  · intro h
    have e : clamp_data_size d = 16 := by
      unfold clamp_data_size MIN_LINE_SIZE
      rw [if_pos (by omega)]
    rw [e]
    exact ⟨rfl, by decide⟩

/-- An instance of `is_valid_data_size_iff`: the sizes 28 and 8. -/
theorem is_valid_data_size_iff_witness :
    ((16 : Int) < 28 ∧ clamp_data_size 28 = 16 ∧
      is_valid_data_size (clamp_data_size 28) = true) ∧
    ((8 : Int) ≤ 16 ∧ clamp_data_size 8 = 8) :=
  ⟨⟨by decide, (is_valid_data_size_iff 28).2.2.2 (by decide)⟩,
    ⟨by decide, (is_valid_data_size_iff 8).2.2.1 (by decide)⟩⟩

/-- C30. When the output file could not be opened (`fd < 0`),
`fprint_CC_table_and_calc_totals` prints the two messages of `file_err` and
returns with nothing written and the state as it was: the CC table is not
traversed, so `Ir_total`, `Dr_total`, `Dw_total` and every leaf are unchanged. -/
theorem fprint_file_error {σ : Type} (cachegrind_out_file : CString) (env : ReportEnv)
    (s : State σ) (hfd : env.fd < 0) :
    fprint_CC_table_and_calc_totals env s = (none, s) ∧
    fprint_CC_table_and_calc_totals_messages cachegrind_out_file env =
      file_err cachegrind_out_file ∧
    (fprint_CC_table_and_calc_totals env s).2.Ir_total = s.Ir_total ∧
    (fprint_CC_table_and_calc_totals env s).2.Dr_total = s.Dr_total ∧
    (fprint_CC_table_and_calc_totals env s).2.Dw_total = s.Dw_total ∧
    all_leaves (fprint_CC_table_and_calc_totals env s).2.CC_table = all_leaves s.CC_table := by
  have h : fprint_CC_table_and_calc_totals env s = (none, s) := by
    unfold fprint_CC_table_and_calc_totals
    rw [if_pos hfd]
  refine ⟨h, ?_, ?_, ?_, ?_, ?_⟩
  · unfold fprint_CC_table_and_calc_totals_messages
    rw [if_pos hfd]
  all_goals rw [h]

set_option maxRecDepth 100000 in
/-- An instance of `fprint_file_error`: the state of the example after its
accounting calls, with an output file that could not be opened. -/
theorem fprint_file_error_witness :
    demo_env_closed.fd < 0 ∧
    (fprint_CC_table_and_calc_totals demo_env_closed demo_counted_state).1 = none ∧
    (fprint_CC_table_and_calc_totals demo_env_closed demo_counted_state).2.Ir_total = CC.zero ∧
    all_leaves (fprint_CC_table_and_calc_totals demo_env_closed demo_counted_state).2.CC_table =
      [⟨0, 10, ⟨3, 3, 3⟩, ⟨1, 1, 1⟩, ⟨2, 2, 2⟩⟩] :=
  ⟨by decide,
    congrArg Prod.fst (fprint_file_error [] demo_env_closed demo_counted_state (by decide)).1,
    (fprint_file_error [] demo_env_closed demo_counted_state (by decide)).2.2.1.trans rfl,
    (fprint_file_error [] demo_env_closed demo_counted_state (by decide)).2.2.2.2.2.trans
      (by decide)⟩

theorem bind_no_division_by_zero {α β : Type} (x : Except Fatal α) (f : α → Except Fatal β)
    (hx : x ≠ .error Fatal.division_by_zero)
    (hf : ∀ a, f a ≠ .error Fatal.division_by_zero) :
    (x >>= f) ≠ .error Fatal.division_by_zero := by
  cases x with
  | error e =>
    intro h
    apply hx
    simpa [bind, Except.bind] using h
  | ok a => exact hf a

theorem ULong_div_no_division_by_zero (x y : Nat) (hy : y ≠ 0) :
    ULong_div x y ≠ .error Fatal.division_by_zero := by
  unfold ULong_div
  rw [if_neg hy]
  simp

theorem percentify_no_division_by_zero (n ex field_width : Int) (buf_size : Nat) (hex : ex ≠ 0) :
    percentify n ex field_width buf_size ≠ .error Fatal.division_by_zero := by
  unfold percentify
  rw [if_neg hex]
  simp only
  split_ifs <;> simp

theorem Int_div_no_division_by_zero (x y : Int) (hy : y ≠ 0) :
    Int_div x y ≠ .error Fatal.division_by_zero := by
  unfold Int_div
  rw [if_neg hy]
  simp

theorem ULong_add_ne_zero (x y : Nat) (hx : x ≠ 0) (h : x + y < 2 ^ 64) : ULong_add x y ≠ 0 := by
  unfold ULong_add
  rw [Nat.mod_eq_of_lt h]
  omega

theorem fini_no_dz {σ : Type} (clo_verbosity : Int) (env : ReportEnv) (s0 : State σ)
    (hsum : (fprint_CC_table_and_calc_totals env s0).2.Ir_total.a +
      (fprint_CC_table_and_calc_totals env s0).2.Dr_total.a +
      (fprint_CC_table_and_calc_totals env s0).2.Dw_total.a + 2 < 2 ^ 64)
    (hstats : clo_verbosity ≤ 1 ∨
      (fprint_CC_table_and_calc_totals env s0).2.full_debug_BBs +
      (fprint_CC_table_and_calc_totals env s0).2.fn_debug_BBs +
      (fprint_CC_table_and_calc_totals env s0).2.file_line_debug_BBs +
      (fprint_CC_table_and_calc_totals env s0).2.no_debug_BBs ≠ 0) :
    TL_fini clo_verbosity env s0 ≠ .error Fatal.division_by_zero := by
  unfold TL_fini
  generalize fprint_CC_table_and_calc_totals env s0 = r at hsum hstats
  obtain ⟨out, s⟩ := r
  simp only at hsum hstats ⊢
  by_cases hv : clo_verbosity = 0
  · rw [if_pos hv]
    simp
  rw [if_neg hv]
  have g1 : (if s.Ir_total.a = 0 then 1 else s.Ir_total.a) ≠ 0 := by split_ifs <;> omega
  have g2 : (if ULong_add s.Dr_total.a s.Dw_total.a = 0 then 1
      else ULong_add s.Dr_total.a s.Dw_total.a) ≠ 0 := by split_ifs <;> omega
  have g3 : (if s.Dr_total.a = 0 then 1 else s.Dr_total.a) ≠ 0 := by split_ifs <;> omega
  have g4 : (if s.Dw_total.a = 0 then 1 else s.Dw_total.a) ≠ 0 := by split_ifs <;> omega
  have hD : ULong_add s.Dr_total.a s.Dw_total.a = s.Dr_total.a + s.Dw_total.a := by
    unfold ULong_add
    exact Nat.mod_eq_of_lt (by omega)
  have g5 : ULong_add (if s.Ir_total.a = 0 then 1 else s.Ir_total.a)
      (if ULong_add s.Dr_total.a s.Dw_total.a = 0 then 1
        else ULong_add s.Dr_total.a s.Dw_total.a) ≠ 0 := by
    apply ULong_add_ne_zero _ _ g1
    rw [hD]
    split_ifs <;> omega
  have g6 : ULong_add (if s.Ir_total.a = 0 then 1 else s.Ir_total.a)
      (if s.Dr_total.a = 0 then 1 else s.Dr_total.a) ≠ 0 := by
    apply ULong_add_ne_zero _ _ g1
    split_ifs <;> omega
  refine bind_no_division_by_zero _ _ (ULong_div_no_division_by_zero _ _ g1) (fun _ => ?_)
  refine bind_no_division_by_zero _ _ (percentify_no_division_by_zero _ _ _ _ (by decide)) (fun _ => ?_)
  refine bind_no_division_by_zero _ _ (ULong_div_no_division_by_zero _ _ g1) (fun _ => ?_)
  refine bind_no_division_by_zero _ _ (percentify_no_division_by_zero _ _ _ _ (by decide)) (fun _ => ?_)
  refine bind_no_division_by_zero _ _ (ULong_div_no_division_by_zero _ _ g2) (fun _ => ?_)
  refine bind_no_division_by_zero _ _ (percentify_no_division_by_zero _ _ _ _ (by decide)) (fun _ => ?_)
  refine bind_no_division_by_zero _ _ (ULong_div_no_division_by_zero _ _ g3) (fun _ => ?_)
  refine bind_no_division_by_zero _ _ (percentify_no_division_by_zero _ _ _ _ (by decide)) (fun _ => ?_)
  refine bind_no_division_by_zero _ _ (ULong_div_no_division_by_zero _ _ g4) (fun _ => ?_)
  refine bind_no_division_by_zero _ _ (percentify_no_division_by_zero _ _ _ _ (by decide)) (fun _ => ?_)
  refine bind_no_division_by_zero _ _ (ULong_div_no_division_by_zero _ _ g2) (fun _ => ?_)
  refine bind_no_division_by_zero _ _ (percentify_no_division_by_zero _ _ _ _ (by decide)) (fun _ => ?_)
  refine bind_no_division_by_zero _ _ (ULong_div_no_division_by_zero _ _ g3) (fun _ => ?_)
  refine bind_no_division_by_zero _ _ (percentify_no_division_by_zero _ _ _ _ (by decide)) (fun _ => ?_)
  refine bind_no_division_by_zero _ _ (ULong_div_no_division_by_zero _ _ g4) (fun _ => ?_)
  refine bind_no_division_by_zero _ _ (percentify_no_division_by_zero _ _ _ _ (by decide)) (fun _ => ?_)
  refine bind_no_division_by_zero _ _ (ULong_div_no_division_by_zero _ _ g5) (fun _ => ?_)
  refine bind_no_division_by_zero _ _ (percentify_no_division_by_zero _ _ _ _ (by decide)) (fun _ => ?_)
  refine bind_no_division_by_zero _ _ (ULong_div_no_division_by_zero _ _ g6) (fun _ => ?_)
  refine bind_no_division_by_zero _ _ (percentify_no_division_by_zero _ _ _ _ (by decide)) (fun _ => ?_)
  refine bind_no_division_by_zero _ _ (ULong_div_no_division_by_zero _ _ g4) (fun _ => ?_)
  refine bind_no_division_by_zero _ _ (percentify_no_division_by_zero _ _ _ _ (by decide)) (fun _ => ?_)
  by_cases hv1 : clo_verbosity > 1
  · rw [if_pos hv1]
    rcases hstats with hstats | hstats
    · omega
    refine bind_no_division_by_zero _ _ (Int_div_no_division_by_zero _ _ hstats) (fun _ => ?_)
    refine bind_no_division_by_zero _ _ (Int_div_no_division_by_zero _ _ hstats) (fun _ => ?_)
    refine bind_no_division_by_zero _ _ (Int_div_no_division_by_zero _ _ hstats) (fun _ => ?_)
    refine bind_no_division_by_zero _ _ (Int_div_no_division_by_zero _ _ hstats) (fun _ => ?_)
    simp
  · rw [if_neg hv1]
    simp

/-- C27, as amended. In `TL_(fini)`, when the three access totals that
`fprint_CC_table_and_calc_totals` computed add up to less than `2 ^ 64 - 2`, no
miss-rate percentage computation divides by zero: each of `Ir_total.a`,
`D_total.a`, `Dr_total.a`, `Dw_total.a` is non-zero after a zero was replaced by
one, the sums `Ir_total.a + D_total.a` and `Ir_total.a + Dr_total.a` are non-zero,
and the call does not end in a division by zero (the statistics of verbosity
above 1 apart, unless `BB_lookups` is non-zero). An access kind with zero accesses
and zero misses yields the numerator 0. -/
theorem fini_no_division_by_zero {σ : Type} (clo_verbosity : Int) (env : ReportEnv)
    (s0 : State σ) (Ir_a Dr_a Dw_a : Nat)
    (hIr : (fprint_CC_table_and_calc_totals env s0).2.Ir_total.a = Ir_a)
    (hDr : (fprint_CC_table_and_calc_totals env s0).2.Dr_total.a = Dr_a)
    (hDw : (fprint_CC_table_and_calc_totals env s0).2.Dw_total.a = Dw_a)
    (hsum : Ir_a + Dr_a + Dw_a + 2 < 2 ^ 64)
    (hstats : clo_verbosity ≤ 1 ∨
      (fprint_CC_table_and_calc_totals env s0).2.full_debug_BBs +
      (fprint_CC_table_and_calc_totals env s0).2.fn_debug_BBs +
      (fprint_CC_table_and_calc_totals env s0).2.file_line_debug_BBs +
      (fprint_CC_table_and_calc_totals env s0).2.no_debug_BBs ≠ 0) :
    TL_fini clo_verbosity env s0 ≠ .error Fatal.division_by_zero ∧
    (if Ir_a = 0 then 1 else Ir_a) ≠ 0 ∧
    (if ULong_add Dr_a Dw_a = 0 then 1 else ULong_add Dr_a Dw_a) ≠ 0 ∧
    (if Dr_a = 0 then 1 else Dr_a) ≠ 0 ∧
    (if Dw_a = 0 then 1 else Dw_a) ≠ 0 ∧
    ULong_add (if Ir_a = 0 then 1 else Ir_a)
      (if ULong_add Dr_a Dw_a = 0 then 1 else ULong_add Dr_a Dw_a) ≠ 0 ∧
    ULong_add (if Ir_a = 0 then 1 else Ir_a) (if Dr_a = 0 then 1 else Dr_a) ≠ 0 ∧
    (∀ p, ULong_div (ULong_mul (ULong_mul 0 100) p) (if (0 : Nat) = 0 then 1 else 0) = .ok 0) := by
  have g1 : (if Ir_a = 0 then 1 else Ir_a) ≠ 0 := by split_ifs <;> omega
  have hD : ULong_add Dr_a Dw_a = Dr_a + Dw_a := by
    unfold ULong_add
    exact Nat.mod_eq_of_lt (by omega)
  refine ⟨?_, g1, by split_ifs <;> omega, by split_ifs <;> omega, by split_ifs <;> omega,
    ?_, ?_, ?_⟩
  · exact fini_no_dz clo_verbosity env s0 (by rw [hIr, hDr, hDw]; exact hsum) hstats
  · apply ULong_add_ne_zero _ _ g1
    rw [hD]
    split_ifs <;> omega
  · apply ULong_add_ne_zero _ _ g1
    split_ifs <;> omega
  · intro p
    simp [ULong_div, ULong_mul]

set_option maxRecDepth 100000 in
/-- An instance of `fini_no_division_by_zero`: the state of the example after its
accounting calls, whose totals are 3 fetches, 1 read and 2 writes. -/
theorem fini_no_division_by_zero_witness :
    (fprint_CC_table_and_calc_totals demo_env demo_counted_state).2.Ir_total.a = 3 ∧
    (fprint_CC_table_and_calc_totals demo_env demo_counted_state).2.Dr_total.a = 1 ∧
    (fprint_CC_table_and_calc_totals demo_env demo_counted_state).2.Dw_total.a = 2 ∧
    TL_fini 1 demo_env demo_counted_state ≠ .error Fatal.division_by_zero ∧
    ULong_add (if (3 : Nat) = 0 then 1 else 3)
      (if ULong_add 1 2 = 0 then 1 else ULong_add 1 2) ≠ 0 :=
  ⟨by decide, by decide, by decide,
    (fini_no_division_by_zero 1 demo_env demo_counted_state 3 1 2 (by decide) (by decide)
      (by decide) (by decide) (Or.inl (by decide))).1,
    (fini_no_division_by_zero 1 demo_env demo_counted_state 3 1 2 (by decide) (by decide)
      (by decide) (by decide) (Or.inl (by decide))).2.2.2.2.2.1⟩

set_option maxRecDepth 100000 in
/-- C27 fails as stated. With 18446744073709551614 instruction fetches, one data
read and one data write counted, every access total is non-zero, yet the sum
`Ir_total.a + D_total.a` is `2 ^ 64`, which a `ULong` holds as 0: the computation
of the L2 miss rate divides by zero. -/
theorem fini_divides_by_zero :
    (fprint_CC_table_and_calc_totals demo_env demo_state_wrapped).2.Ir_total =
      ⟨18446744073709551614, 0, 0⟩ ∧
    (fprint_CC_table_and_calc_totals demo_env demo_state_wrapped).2.Dr_total = ⟨1, 0, 0⟩ ∧
    (fprint_CC_table_and_calc_totals demo_env demo_state_wrapped).2.Dw_total = ⟨1, 0, 0⟩ ∧
    ULong_add 18446744073709551614 (ULong_add 1 1) = 0 ∧
    TL_fini 1 demo_env demo_state_wrapped = .error Fatal.division_by_zero := by
  refine ⟨by decide, by decide, by decide, by decide, rfl⟩

theorem ULong_width_loop_eq (fuel n w : Nat) (h : decimal_digits n ≤ fuel) :
    ULong_width_loop fuel n w = w + decimal_digits n := by
  induction fuel generalizing n w with
  | zero =>
    have h0 : decimal_digits n = 0 := Nat.le_zero.1 h
    rw [ULong_width_loop, h0, Nat.add_zero]
  | succ fuel ih =>
    rw [ULong_width_loop]
    by_cases hn : n > 0
    · rw [if_pos hn]
      have hd : decimal_digits n = decimal_digits (n / 10) + 1 := by
        unfold decimal_digits
        rw [Nat.digits_def' (by decide) hn, List.length_cons]
      rw [ih (n / 10) (w + 1) (by omega), hd]
      omega
    · rw [if_neg hn]
      have : n = 0 := by omega
      subst this
      simp [decimal_digits]

theorem decimal_digits_le_self (n : Nat) : decimal_digits n ≤ n := by
  unfold decimal_digits
  by_cases hn : n = 0
  · subst hn; simp
  · have h1 := Nat.base_pow_length_digits_le 10 n (by decide) hn
    have h2 : (Nat.digits 10 n).length < 10 ^ (Nat.digits 10 n).length :=
      Nat.lt_pow_self (by decide) _
    have h3 : (Nat.digits 10 n).length + 1 ≤ 10 ^ (Nat.digits 10 n).length := h2
    by_contra hlt
    push_neg at hlt
    have h4 : 10 * (n + 1) ≤ 10 * (Nat.digits 10 n).length := by omega
    have h5 : (Nat.digits 10 n).length ≠ 0 := by
      intro h0
      rw [h0] at hlt
      omega
    obtain ⟨k, hk⟩ := Nat.exists_eq_succ_of_ne_zero h5
    rw [hk] at h1 hlt h4
    have h6 : k + 1 ≤ 10 ^ k := Nat.lt_pow_self (by decide) _
    rw [pow_succ] at h1
    omega

theorem decimal_digits_pos (n : Nat) (h : 1 ≤ n) : 1 ≤ decimal_digits n := by
  unfold decimal_digits
  rw [Nat.digits_def' (by decide) (by omega), List.length_cons]
  omega

theorem decimal_digits_le_20 (n : Nat) (h : n < 2 ^ 64) : decimal_digits n ≤ 20 := by
  unfold decimal_digits
  by_cases hn : n = 0
  · subst hn; simp
  · have h1 := Nat.base_pow_length_digits_le 10 n (by decide) hn
    by_contra hlt
    push_neg at hlt
    have h2 : 10 ^ 21 ≤ 10 ^ (Nat.digits 10 n).length :=
      Nat.pow_le_pow_right (by decide) hlt
    have h3 : (10 : Nat) * n < 10 ^ 21 := by
      have : (2 : Nat) ^ 64 = 18446744073709551616 := by norm_num
      have : (10 : Nat) ^ 21 = 1000000000000000000000 := by norm_num
      omega
    omega

/-- C31. For every `n` with `1 <= n < 2 ^ 64` the loop of `ULong_width` ends (with
any bound on the iterations that is at least the number of digits it gives the
same `w`), `w` is the number `d` of decimal digits of `n`, that is,
`10 ^ (d - 1) <= n < 10 ^ d`, with `1 <= d <= 20`, and `ULong_width(n)` is
`d + (d - 1) / 3`: the digits and one comma for each group of three digits but
the first, at most 26. -/
theorem ULong_width_digits (n : Nat) (h1 : 1 ≤ n) (h2 : n < 2 ^ 64) :
    ULong_width n = decimal_digits n + (decimal_digits n - 1) / 3 ∧
    (∀ fuel, decimal_digits n ≤ fuel → ULong_width_loop fuel n 0 = decimal_digits n) ∧
    10 ^ (decimal_digits n - 1) ≤ n ∧ n < 10 ^ decimal_digits n ∧
    1 ≤ decimal_digits n ∧ decimal_digits n ≤ 20 ∧
    ULong_width n ≤ 26 := by
  have hpos := decimal_digits_pos n h1
  have h20 := decimal_digits_le_20 n h2
  have hloop : ∀ fuel, decimal_digits n ≤ fuel → ULong_width_loop fuel n 0 = decimal_digits n := by
    intro fuel hf
    rw [ULong_width_loop_eq fuel n 0 hf, Nat.zero_add]
  have hw : ULong_width n = decimal_digits n + (decimal_digits n - 1) / 3 := by
    unfold ULong_width
    simp only
    rw [hloop n (decimal_digits_le_self n)]
    omega
  refine ⟨hw, hloop, ?_, ?_, hpos, h20, by rw [hw]; omega⟩
  · have h := Nat.base_pow_length_digits_le 10 n (by decide) (by omega)
    unfold decimal_digits at hpos ⊢
    obtain ⟨k, hk⟩ := Nat.exists_eq_succ_of_ne_zero (by omega : (Nat.digits 10 n).length ≠ 0)
    rw [hk] at h ⊢
    rw [pow_succ] at h
    simp only [Nat.succ_sub_one]
    omega
  · exact Nat.lt_base_pow_length_digits (by decide)

set_option maxRecDepth 100000 in
/-- An instance of `ULong_width_digits`: 1234567 has seven digits and the width
nine, as in `1,234,567`. -/
theorem ULong_width_digits_witness :
    (1 : Nat) ≤ 1234567 ∧ (1234567 : Nat) < 2 ^ 64 ∧
    decimal_digits 1234567 = 7 ∧ ULong_width 1234567 = 9 ∧
    ULong_width 1234567 = decimal_digits 1234567 + (decimal_digits 1234567 - 1) / 3 ∧
    ULong_width 1234567 ≤ 26 :=
  ⟨by decide, by decide, by norm_num [decimal_digits], by decide,
    (ULong_width_digits 1234567 (by decide) (by decide)).1,
    (ULong_width_digits 1234567 (by decide) (by decide)).2.2.2.2.2.2⟩

set_option maxRecDepth 100000 in
/-- C32 fails on the code. For a total that is zero the loop of `ULong_width`
leaves `w = 0`, and `w + (w-1)/3` in `UInt` arithmetic is 1431655765, not at most
26. `TL_(fini)` passes the field width 1431655766 to `percentify`, whose right
justification then writes far outside the 128 bytes of `buf1`: with all totals
zero the call does not return. -/
theorem ULong_width_zero :
    ULong_width 0 = 1431655765 ∧ ¬ ULong_width 0 ≤ 26 ∧
    percentify 0 100 (((ULong_width 0 : Nat) : Int) + 1) 128 = .error Fatal.undefined ∧
    (fprint_CC_table_and_calc_totals demo_env (State.init ())).2.Ir_total.a = 0 ∧
    TL_fini 1 demo_env (State.init ()) = .error Fatal.undefined := by
  refine ⟨by decide, by decide, rfl, by decide, rfl⟩

set_option maxRecDepth 100000 in
/-- C33 fails on the code. `percentify` prints the remainder `n % ex` with a plain
`%d`, so for `ex = 100` a remainder below 10 loses its leading zero: for
`n = 105` (1.05 per cent) the text is `1.5%`, not `1.05%`, and for `n = 5` it is
`0.5%`. With `ex = 10` the one digit after the point is right. -/
theorem percentify_drops_zero :
    percentify 105 100 0 128 = .ok "1.5%" ∧
    percentify 105 100 8 128 = .ok "    1.5%" ∧
    "1.5%" ≠ "1.05%" ∧
    percentify 5 100 0 128 = .ok "0.5%" ∧
    percentify 105 10 0 128 = .ok "10.5%" := by
  refine ⟨rfl, rfl, by decide, rfl, rfl⟩

set_option maxRecDepth 100000 in
/-- C37 fails on the code. The option value `4294967295,4294967295,4294967295` is
accepted by `parse_cache_opt`; the cast `(Int)` makes -1 of each field, so the
triple it sets is `UNDEFINED_CACHE`, for which `DEFINED` is false:
`configure_caches` takes the auto-detected I1 cache and the option is ignored
without a message. -/
theorem parse_cache_opt_undefined_triple :
    parse_cache_opt VG_atoll UNDEFINED_CACHE
        [52, 50, 57, 52, 57, 54, 55, 50, 57, 53, 44, 52, 50, 57, 52, 57, 54, 55, 50, 57, 53, 44,
         52, 50, 57, 52, 57, 54, 55, 50, 57, 53, 0] =
      .ok (UNDEFINED_CACHE,
        [52, 50, 57, 52, 57, 54, 55, 50, 57, 53, 44, 52, 50, 57, 52, 57, 54, 55, 50, 57, 53, 44,
         52, 50, 57, 52, 57, 54, 55, 50, 57, 53, 0]) ∧
    VG_atoll [52, 50, 57, 52, 57, 54, 55, 50, 57, 53, 0] = 4294967295 ∧
    Long_to_Int 4294967295 = -1 ∧
    DEFINED UNDEFINED_CACHE = false ∧
    configure_caches demo_detect VG_log2 UNDEFINED_CACHE UNDEFINED_CACHE UNDEFINED_CACHE
      demo_caches = .ok ⟨⟨65536, 2, 64⟩, ⟨65536, 2, 64⟩, ⟨65536, 2, 64⟩⟩ := by
  refine ⟨rfl, by decide, by decide, by decide, rfl⟩

set_option maxRecDepth 100000 in
/-- C39 fails on the code. In the state in which `get_debug_info` was never
called `BB_lookups` is 0, and the four percentages are quotients by
`BB_lookups`, computed without a guard: `TL_(fini)` with verbosity 2, on a state
whose access totals are one and whose four counters are zero, ends in a division
by zero. (In the initial state itself, where the access totals are zero too, the
call ends before it reaches these quotients, in the write outside `buf1`.) -/
theorem fini_stats_divide_by_zero :
    (State.init ()).full_debug_BBs + (State.init ()).fn_debug_BBs +
      (State.init ()).file_line_debug_BBs + (State.init ()).no_debug_BBs = 0 ∧
    Int_div ((State.init ()).full_debug_BBs * 100)
      ((State.init ()).full_debug_BBs + (State.init ()).fn_debug_BBs +
        (State.init ()).file_line_debug_BBs + (State.init ()).no_debug_BBs) =
      .error Fatal.division_by_zero ∧
    demo_state_no_lookups.full_debug_BBs + demo_state_no_lookups.fn_debug_BBs +
      demo_state_no_lookups.file_line_debug_BBs + demo_state_no_lookups.no_debug_BBs = 0 ∧
    (∃ r, TL_fini 1 demo_env_closed demo_state_no_lookups = .ok r) ∧
    TL_fini 2 demo_env_closed demo_state_no_lookups = .error Fatal.division_by_zero ∧
    TL_fini 2 demo_env (State.init ()) = .error Fatal.undefined := by
  refine ⟨by decide, rfl, by decide, ⟨_, rfl⟩, rfl, rfl⟩

/-- C40. For every block and every state, `TL_(instrument)` prints the message
that Cachegrind is not yet ready to handle Vex IR and calls `VG_(exit)(1)`: it
returns no block, and when the call ends the state, with its instr-info table
and its CC table, is the state before the call. -/
theorem TL_instrument_exits {σ IRBB : Type} (bb_in : IRBB) (s : State σ) :
    (TL_instrument bb_in s).1 = ["Cachegrind is not yet ready to handle Vex IR"] ∧
    (TL_instrument bb_in s).2.2 = .error (Fatal.exit 1) ∧
    (∀ bb : IRBB, (TL_instrument bb_in s).2.2 ≠ .ok bb) ∧
    (TL_instrument bb_in s).2.1 = s ∧
    (TL_instrument bb_in s).2.1.instr_info_table = s.instr_info_table ∧
    (TL_instrument bb_in s).2.1.CC_table = s.CC_table := by
  refine ⟨rfl, rfl, ?_, rfl, rfl, rfl⟩
  intro bb h
  simp [TL_instrument] at h

/-- C38. For a function `log2` that returns -1 exactly when its argument is not a
positive power of two, every triple `{size, assoc, line_size}` that `check_cache`
accepts has `assoc * line_size <= size`, `assoc * line_size` divides `size`, and
the number of sets `size / (line_size * assoc)` is a power of two, so at least
1. -/
theorem check_cache_sets (log2 : Int → Int)
    (hlog2 : ∀ x, is_Int x → (log2 x = -1 ↔ ¬ is_pow2 x))
    (c : cache_t) (hc : is_Int c.size ∧ is_Int c.assoc ∧ is_Int c.line_size)
    (h : check_cache log2 c = .ok ()) :
    c.assoc * c.line_size ≤ c.size ∧ c.assoc * c.line_size ∣ c.size ∧
    (∃ m : Nat, c.size / (c.line_size * c.assoc) = 2 ^ m) ∧
    1 ≤ c.size / (c.line_size * c.assoc) := by
  obtain ⟨hs, ha, hl⟩ := hc
  unfold check_cache MIN_LINE_SIZE at h
  split_ifs at h with h1 h2 h3 h4 h5 h6
  have p1 : is_pow2 c.size := by
    by_contra hn
    exact h1 ((hlog2 _ hs).2 hn).symm
  have p2 : is_pow2 c.assoc := by
    by_contra hn
    exact h2 ((hlog2 _ ha).2 hn).symm
  have p3 : is_pow2 c.line_size := by
    by_contra hn
    exact h3 ((hlog2 _ hl).2 hn).symm
  obtain ⟨a, ea⟩ := p1
  obtain ⟨k, ek⟩ := p2
  obtain ⟨l, el⟩ := p3
  rw [ea, ek, el] at h6
  rw [ea, el] at h5
  rw [ea, ek, el]
  have hla : l < a := by
    by_contra hn
    push_neg at hn
    have : (2 : Int) ^ a ≤ 2 ^ l := pow_le_pow_right₀ (by norm_num) hn
    exact h5 this
  have hsplit : (2 : Int) ^ a = 2 ^ l * 2 ^ (a - l) := by
    rw [← pow_add]
    congr 1
    omega
  have hdiv : Int.tdiv ((2 : Int) ^ a) (2 ^ l) = 2 ^ (a - l) := by
    rw [hsplit]
    exact Int.mul_tdiv_cancel_left _ (by positivity)
  rw [hdiv] at h6
  have hk : k ≤ a - l := by
    by_contra hn
    push_neg at hn
    have : (2 : Int) ^ (a - l) < 2 ^ k := pow_lt_pow_right₀ (by norm_num) hn
    exact h6 this
  have hfull : (2 : Int) ^ a = (2 ^ l * 2 ^ k) * 2 ^ (a - l - k) := by
    rw [← pow_add, ← pow_add]
    congr 1
    omega
  have hq : (2 : Int) ^ a / (2 ^ l * 2 ^ k) = 2 ^ (a - l - k) := by
    rw [hfull]
    exact Int.mul_ediv_cancel_left _ (by positivity)
  refine ⟨?_, ?_, ⟨a - l - k, hq⟩, ?_⟩
  · rw [hfull]
    have h1 : (1 : Int) ≤ 2 ^ (a - l - k) := one_le_pow₀ (by norm_num)
    have h2 : (0 : Int) < 2 ^ l * 2 ^ k := by positivity
    nlinarith
  · exact ⟨2 ^ (a - l - k), by rw [hfull]; ring⟩
  · rw [hq]
    exact one_le_pow₀ (by norm_num)

/-- An instance of `check_cache_sets`: 32 KB, 8-way, 64-byte lines have 64
sets. -/
theorem check_cache_sets_witness :
    (∀ x, is_Int x → (VG_log2 x = -1 ↔ ¬ is_pow2 x)) ∧
    (is_Int (32768 : Int) ∧ is_Int (8 : Int) ∧ is_Int (64 : Int)) ∧
    check_cache VG_log2 ⟨32768, 8, 64⟩ = .ok () ∧
    (32768 : Int) / (64 * 8) = 64 ∧
    ((8 : Int) * 64 ≤ 32768 ∧ (8 : Int) * 64 ∣ 32768 ∧
      (∃ m : Nat, (32768 : Int) / (64 * 8) = 2 ^ m) ∧ 1 ≤ (32768 : Int) / (64 * 8)) :=
  ⟨VG_log2_spec, by decide, rfl, by decide,
    check_cache_sets VG_log2 VG_log2_spec ⟨32768, 8, 64⟩ (by decide) rfl⟩

/-- In an array of chains in which every node is in the chain its key maps to and
no chain holds a key twice, no key occurs twice in the whole array. -/
theorem bucket_keys_nodup {α κ : Type} (n : Nat) (F : Nat → List α) (key : α → κ)
    (h : κ → Nat) (hnd : ∀ i, ((F i).map key).Nodup) (hb : ∀ i, ∀ x ∈ F i, h (key x) = i) :
    (((List.range n).flatMap F).map key).Nodup := by
  rw [List.map_flatMap, List.nodup_flatMap]
  constructor
  · intro i _
    exact hnd i
  · apply List.Nodup.pairwise_of_forall_ne (List.nodup_range _)
    intro i _ i1 _ hne y hy hy1
    obtain ⟨x, hx, rfl⟩ := List.mem_map.1 hy
    obtain ⟨x1, hx1, he⟩ := List.mem_map.1 hy1
    have e1 := hb i x hx
    have e2 := hb i1 x1 hx1
    rw [he, e1] at e2
    exact hne e2

theorem line_hash_of_eq_mod (line : Int) (h : 0 ≤ line) (k : Nat) (hk : line_hash_of line = k) :
    line % 37 = (k : Int) := by
  unfold line_hash_of N_LINE_ENTRIES at hk
  have h1 : Int.tmod line ((37 : Nat) : Int) = line % 37 := by
    rw [Int.tmod_eq_emod h (by norm_num)]
    rfl
  rw [h1] at hk
  omega

/-- C36. In every state reached from a CC table without nodes by `get_lineCC`
calls, every node is in the bucket its key maps to: a file node in `CC_table[i]`
has `hash(file, 251) = i`, a function node in `fns[j]` has `hash(fn, 53) = j`, a
leaf in `lines[k]` has the bucket index `line % 37` equal to `k` (for a
non-negative line, `line mod 37 = k`). So a file name occurs at most once among
the file nodes of the table, a function name at most once among the function
nodes of a file node, and a line number at most once among the leaves of a
function node. -/
theorem nodes_in_their_buckets {σ : Type} (s : State σ) (h : Reachable s) :
    (∀ i f, f ∈ s.CC_table i → hash f.file 251 = i) ∧
    (∀ i f j g, f ∈ s.CC_table i → g ∈ f.fns j → hash g.fn 53 = j) ∧
    (∀ i f j g k L, f ∈ s.CC_table i → g ∈ f.fns j → L ∈ g.lines k →
      line_hash_of L.line = k ∧ (0 ≤ L.line → L.line % 37 = (k : Int))) ∧
    ((file_nodes s.CC_table).map fileCC.file).Nodup ∧
    (∀ i f, f ∈ s.CC_table i → (f.fn_nodes.map fnCC.fn).Nodup) ∧
    (∀ i f j g, f ∈ s.CC_table i → g ∈ f.fns j → (g.leaves.map lineCC.line).Nodup) := by
  have hwf : table_wf s.CC_table := (cc_inv_of_reachable s h).1
  refine ⟨?_, ?_, ?_, ?_, ?_, ?_⟩
  · intro i f hf
    exact ((hwf i).2 f hf).1
  · intro i f j g hf hg
    exact ((((hwf i).2 f hf).2 j).2 g hg).1
  · intro i f j g k L hf hg hL
    have hk := ((((((hwf i).2 f hf).2 j).2 g hg).2 k).2 L hL)
    exact ⟨hk, fun h0 => line_hash_of_eq_mod L.line h0 k hk⟩
  · unfold file_nodes
    exact bucket_keys_nodup _ s.CC_table fileCC.file (fun name => hash name N_FILE_ENTRIES)
      (fun i => (hwf i).1) (fun i f hf => ((hwf i).2 f hf).1)
  · intro i f hf
    have hfwf := ((hwf i).2 f hf).2
    unfold fileCC.fn_nodes
    exact bucket_keys_nodup _ f.fns fnCC.fn (fun name => hash name N_FN_ENTRIES)
      (fun j => (hfwf j).1) (fun j g hg => ((hfwf j).2 g hg).1)
  · intro i f j g hf hg
    have hgwf := ((((hwf i).2 f hf).2 j).2 g hg).2
    unfold fnCC.leaves
    exact bucket_keys_nodup _ g.lines lineCC.line line_hash_of
      (fun k => (hgwf k).1) (fun k L hL => (hgwf k).2 L hL)

set_option maxRecDepth 100000 in
/-- An instance of `nodes_in_their_buckets`: the state of the example after one
`get_lineCC` call, whose file node is in bucket 244, function node in bucket 49
and leaf in bucket 10. -/
theorem nodes_in_their_buckets_witness :
    Reachable demo_state ∧
    (file_nodes demo_state.CC_table).map fileCC.file = [[97, 46, 99]] ∧
    hash [97, 46, 99] 251 = 244 ∧ hash [102] 53 = 49 ∧ line_hash_of 10 = 10 ∧
    (∀ i f, f ∈ demo_state.CC_table i → hash f.file 251 = i) ∧
    ((file_nodes demo_state.CC_table).map fileCC.file).Nodup :=
  ⟨demo_state_reachable, by decide, by decide, by decide, by decide,
    (nodes_in_their_buckets demo_state demo_state_reachable).1,
    (nodes_in_their_buckets demo_state demo_state_reachable).2.2.2.1⟩

/-- What `get_debug_info` does to the statistics counters. -/
theorem get_debug_info_stats {σ : Type} (dbg : DebugInfo) (a : Addr) (s : State σ) :
    (get_debug_info dbg a s).2.distinct_files = s.distinct_files ∧
    (get_debug_info dbg a s).2.distinct_fns = s.distinct_fns ∧
    (get_debug_info dbg a s).2.distinct_lines = s.distinct_lines ∧
    (get_debug_info dbg a s).2.distinct_instrs = s.distinct_instrs ∧
    (get_debug_info dbg a s).2.full_debug_BBs + (get_debug_info dbg a s).2.file_line_debug_BBs +
      (get_debug_info dbg a s).2.fn_debug_BBs + (get_debug_info dbg a s).2.no_debug_BBs =
      s.full_debug_BBs + s.file_line_debug_BBs + s.fn_debug_BBs + s.no_debug_BBs + 1 := by
  unfold get_debug_info
  cases (dbg.get_filename_linenum a).isSome <;> cases (dbg.get_fnname a).isSome <;>
    simp <;> omega

/-- What `get_lineCC` does to the statistics counters: the debug counters are as
`get_debug_info` leaves them, and a call that creates no leaf creates no node. -/
theorem get_lineCC_counters {σ : Type} (dbg : DebugInfo) (a : Addr) (s s1 : State σ) (p : Nat)
    (h : get_lineCC dbg a s = .ok (p, s1)) :
    s1.full_debug_BBs = (get_debug_info dbg a s).2.full_debug_BBs ∧
    s1.file_line_debug_BBs = (get_debug_info dbg a s).2.file_line_debug_BBs ∧
    s1.fn_debug_BBs = (get_debug_info dbg a s).2.fn_debug_BBs ∧
    s1.no_debug_BBs = (get_debug_info dbg a s).2.no_debug_BBs ∧
    s1.distinct_instrs = s.distinct_instrs ∧
    (s1.heap_next = s.heap_next →
      s1.distinct_files = s.distinct_files ∧ s1.distinct_fns = s.distinct_fns ∧
      s1.distinct_lines = s.distinct_lines) := by
  obtain ⟨ht, hT, hH, _⟩ := get_debug_info_frame dbg a s
  obtain ⟨hf, hfn, hl, hi, _⟩ := get_debug_info_stats dbg a s
  unfold get_lineCC at h
  generalize hgd : get_debug_info dbg a s = r at h ht hT hH hf hfn hl hi
  obtain ⟨⟨file, fn, line⟩, s0⟩ := r
  simp only at h ht hT hH hf hfn hl hi ⊢
  split at h
  case isFalse => simp at h
  case isTrue hlt =>
  split at h
  case h_2 => simp at h
  case h_1 ptr nl nf chain cr hcl =>
  simp only [Except.ok.injEq, Prod.mk.injEq] at h
  obtain ⟨hp, hs1⟩ := h
  subst hp hs1
  simp only
  refine ⟨trivial, trivial, trivial, trivial, hi, ?_⟩
  intro hh
  rw [hH] at hh
  have hnl : nl = false := by
    cases nl
    · rfl
    · simp at hh
  subst hnl
  obtain ⟨c, c1, hkc, hcase⟩ := chain_level_ok _ _ _ _ _ _ _ hcl
  obtain ⟨_, _, h3, h4, _, h6⟩ := get_lineCC_level2_spec fn line s0.heap_next c c1 ptr false nf hkc
  have hnf : nf = false := (h6 rfl).1
  have hcr : cr = false := by
    rcases hcase with ⟨hcr, _⟩ | ⟨_, _, hc, _⟩
    · exact hcr
    · subst hc
      rw [h3] at h4
      rcases h4 with h | h
      · exact absurd h (new_fileCC_no_leaf _ _ _ _)
      · exact absurd h.1 (by decide)
  subst hnf hcr
  simp only [bump]
  exact ⟨hf, hfn, hl⟩

/-- A `get_lineCC` call for a triple whose leaf is in the table returns that leaf
and leaves the table as it is. -/
theorem get_lineCC_existing {σ : Type} (dbg : DebugInfo) (a : Addr) (s s1 : State σ) (p q : Nat)
    (hinv : cc_inv s)
    (hq : has_leaf s.CC_table (debug_triple dbg a).1 (debug_triple dbg a).2.1
      (debug_triple dbg a).2.2 q)
    (h : get_lineCC dbg a s = .ok (p, s1)) :
    p = q ∧ s1.heap_next = s.heap_next ∧ s1.CC_table = s.CC_table := by
  obtain ⟨hiff, hp, hheap, hsame, hwf, _⟩ := get_lineCC_spec dbg a s s1 p h
  have hwf1 := hwf hinv.1
  have hq1 : has_leaf s1.CC_table (debug_triple dbg a).1 (debug_triple dbg a).2.1
      (debug_triple dbg a).2.2 q := (hiff _ _ _ _).2 (Or.inl hq)
  have hpq : p = q := has_leaf_unique _ hwf1 _ _ _ _ _ hp hq1
  have hh : s1.heap_next = s.heap_next := by
    rcases hheap with hh | hh
    · exact hh
    · have hnew : has_leaf s1.CC_table (debug_triple dbg a).1 (debug_triple dbg a).2.1
          (debug_triple dbg a).2.2 s.heap_next :=
        (hiff _ _ _ _).2 (Or.inr ⟨hh, rfl, rfl, rfl, rfl⟩)
      have e : s.heap_next = q := has_leaf_unique _ hwf1 _ _ _ _ _ hnew hq1
      have hlt := hinv.2.1 _ _ _ _ hq
      omega
  exact ⟨hpq, hh, hsame hh⟩

/-- C34, as amended. For every `instr_addr` whose line number is not negative and
all sizes `instr_size`, `data_size` in 0..255 (the values a `UChar` holds),
`do_details` with `bb_seen_before = false` followed by `do_details` with
`bb_seen_before = true` on the same record with the same arguments passes the
three assertions and leaves the record as the first call made it. When the CC
table satisfies its invariant, the second call finds the leaf the record points
to and leaves the CC table as it is. -/
theorem do_details_retranslation {σ : Type} (dbg : DebugInfo) (n : instr_info)
    (instr_addr : Addr) (instr_size data_size : Int) (s : State σ)
    (hisize : 0 ≤ instr_size ∧ instr_size ≤ 255) (hdsize : 0 ≤ data_size ∧ data_size ≤ 255)
    (hline : 0 ≤ (debug_triple dbg instr_addr).2.2) :
    ∃ n1 s1 s2,
      do_details dbg n false instr_addr instr_size data_size s = .ok (n1, s1) ∧
      do_details dbg n1 true instr_addr instr_size data_size s1 = .ok (n1, s2) ∧
      (cc_inv s → ∃ p, n1.parent = some p ∧ get_lineCC dbg instr_addr s1 = .ok (p, s2) ∧
        s2.CC_table = s1.CC_table) := by
  obtain ⟨⟨p, s1⟩, h1⟩ := get_lineCC_returns dbg instr_addr s hline
  obtain ⟨⟨p2, s2⟩, h2⟩ := get_lineCC_returns dbg instr_addr s1 hline
  have e1 : ((((instr_size % 256).toNat : Nat)) : Int) = instr_size := by omega
  have e2 : ((((data_size % 256).toNat : Nat)) : Int) = data_size := by omega
  refine ⟨⟨instr_addr, (instr_size % 256).toNat, (data_size % 256).toNat, some p⟩, s1, s2,
    ?_, ?_, ?_⟩
  · unfold do_details
    rw [h1]
    rfl
  · unfold do_details
    rw [h2]
    simp only [if_true, not_true_eq_false, if_false, e1, e2]
  · intro hinv
    have hinv1 := cc_inv_get_lineCC dbg instr_addr s s1 p h1 hinv
    have hleaf := (get_lineCC_spec dbg instr_addr s s1 p h1).2.1
    obtain ⟨hp, _, hT⟩ := get_lineCC_existing dbg instr_addr s1 s2 p2 p hinv1 hleaf h2
    subst hp
    exact ⟨p2, rfl, h2, hT⟩

set_option maxRecDepth 100000 in
/-- An instance of `do_details_retranslation`: the instruction at `0x1000` of the
example, 3 bytes long, with a data size of 4. -/
theorem do_details_retranslation_witness :
    ((0 : Int) ≤ 3 ∧ (3 : Int) ≤ 255) ∧ ((0 : Int) ≤ 4 ∧ (4 : Int) ≤ 255) ∧
    0 ≤ (debug_triple demo_dbg 4096).2.2 ∧
    (do_details demo_dbg demo_new_instr false 4096 3 4 (State.init ())).toOption.map
      (fun r => r.1) = some ⟨4096, 3, 4, some 0⟩ ∧
    (do_details demo_dbg ⟨4096, 3, 4, some 0⟩ true 4096 3 4 demo_state).toOption.map
      (fun r => r.1) = some ⟨4096, 3, 4, some 0⟩ ∧
    ∃ n1 s1 s2,
      do_details demo_dbg demo_new_instr false 4096 3 4 (State.init ()) = .ok (n1, s1) ∧
      do_details demo_dbg n1 true 4096 3 4 s1 = .ok (n1, s2) ∧
      (cc_inv (State.init ()) → ∃ p, n1.parent = some p ∧
        get_lineCC demo_dbg 4096 s1 = .ok (p, s2) ∧ s2.CC_table = s1.CC_table) :=
  ⟨by decide, by decide, by decide, by rfl, by rfl,
    do_details_retranslation demo_dbg demo_new_instr 4096 3 4 (State.init ())
      (by decide) (by decide) (by decide)⟩

set_option maxRecDepth 100000 in
/-- C34 fails as stated. With `instr_size = 300`, which no `UChar` holds, the
first call stores 44 in the record, and the second call, with the same
arguments, compares 44 with 300: the assertion on `instr_size` fails. The same
happens with the size -1, stored as 255. -/
theorem do_details_large_size :
    (do_details demo_dbg demo_new_instr false 4096 300 4 (State.init ())).toOption.map
      (fun r => r.1) = some ⟨4096, 44, 4, some 0⟩ ∧
    do_details demo_dbg demo_new_instr false 4096 300 4 (State.init ()) =
      .ok (⟨4096, 44, 4, some 0⟩, demo_state) ∧
    do_details demo_dbg ⟨4096, 44, 4, some 0⟩ true 4096 300 4 demo_state =
      .error Fatal.assertion ∧
    do_details demo_dbg demo_new_instr false 4096 3 (-1) (State.init ()) =
      .ok (⟨4096, 3, 255, some 0⟩, demo_state) ∧
    do_details demo_dbg ⟨4096, 3, 255, some 0⟩ true 4096 3 (-1) demo_state =
      .error Fatal.assertion := by
  refine ⟨by rfl, rfl, rfl, rfl, rfl⟩

/-- C35, as amended. `do_details` with `bb_seen_before = true` resolves the leaf
again: it calls `get_lineCC(instr_addr)` before it looks at `bb_seen_before`.
When its assertions pass, the record is unchanged and the state is the one that
`get_lineCC` call leaves: one of the four debug counters is one higher; the CC
table and the counters `distinct_files`, `distinct_fns`, `distinct_lines` are as
before when the table (satisfying its invariant) already holds the leaf of the
address, and the CC table has changed when it does not. -/
theorem do_details_seen_before_resolves {σ : Type} (dbg : DebugInfo) (n n1 : instr_info)
    (instr_addr : Addr) (instr_size data_size : Int) (s s1 : State σ)
    (h : do_details dbg n true instr_addr instr_size data_size s = .ok (n1, s1)) :
    n1 = n ∧
    (∃ p, get_lineCC dbg instr_addr s = .ok (p, s1)) ∧
    s1.full_debug_BBs + s1.file_line_debug_BBs + s1.fn_debug_BBs + s1.no_debug_BBs =
      s.full_debug_BBs + s.file_line_debug_BBs + s.fn_debug_BBs + s.no_debug_BBs + 1 ∧
    (cc_inv s →
      (∃ q, has_leaf s.CC_table (debug_triple dbg instr_addr).1 (debug_triple dbg instr_addr).2.1
        (debug_triple dbg instr_addr).2.2 q) →
      s1.CC_table = s.CC_table ∧ s1.distinct_files = s.distinct_files ∧
      s1.distinct_fns = s.distinct_fns ∧ s1.distinct_lines = s.distinct_lines) ∧
    ((¬ ∃ q, has_leaf s.CC_table (debug_triple dbg instr_addr).1 (debug_triple dbg instr_addr).2.1
        (debug_triple dbg instr_addr).2.2 q) →
      s1.CC_table ≠ s.CC_table) := by
  unfold do_details at h
  cases hg : get_lineCC dbg instr_addr s with
  | error e => rw [hg] at h; simp at h
  | ok r =>
    obtain ⟨p, s2⟩ := r
    rw [hg] at h
    simp only [if_true] at h
    split_ifs at h
    simp only [Except.ok.injEq, Prod.mk.injEq] at h
    obtain ⟨hn, hs⟩ := h
    subst hn hs
    obtain ⟨c1, c2, c3, c4, _, c6⟩ := get_lineCC_counters dbg instr_addr s s2 p hg
    obtain ⟨_, _, _, _, hsum⟩ := get_debug_info_stats dbg instr_addr s
    refine ⟨rfl, ⟨p, rfl⟩, by rw [c1, c2, c3, c4]; exact hsum, ?_, ?_⟩
    · rintro hinv ⟨q, hq⟩
      obtain ⟨_, hh, hT⟩ := get_lineCC_existing dbg instr_addr s s2 p q hinv hq hg
      exact ⟨hT, c6 hh⟩
    · intro hno hT
      have hleaf := (get_lineCC_spec dbg instr_addr s s2 p hg).2.1
      rw [hT] at hleaf
      exact hno ⟨p, hleaf⟩

set_option maxRecDepth 100000 in
/-- An instance of `do_details_seen_before_resolves`: the second translation of
the instruction at `0x1000` of the example, in the state after its first. -/
theorem do_details_seen_before_resolves_witness :
    (∃ s1, do_details demo_dbg demo_instr true 4096 3 4 demo_state = .ok (demo_instr, s1) ∧
      s1.full_debug_BBs + s1.file_line_debug_BBs + s1.fn_debug_BBs + s1.no_debug_BBs =
        demo_state.full_debug_BBs + demo_state.file_line_debug_BBs +
          demo_state.fn_debug_BBs + demo_state.no_debug_BBs + 1) ∧
    demo_state.full_debug_BBs = 1 :=
  ⟨⟨(match do_details demo_dbg demo_instr true 4096 3 4 demo_state with
      | .ok r => r.2
      | .error _ => demo_state), rfl,
    (do_details_seen_before_resolves demo_dbg demo_instr demo_instr 4096 3 4 demo_state _
      rfl).2.2.1⟩, by decide⟩

set_option maxRecDepth 100000 in
/-- C35 fails as stated. In the initial state, `do_details` with
`bb_seen_before = true` on a record that holds the arguments passes its
assertions and leaves a CC table with a new leaf, and the counters
`distinct_files`, `distinct_fns`, `distinct_lines` and `full_debug_BBs` at 1. In
the state that already holds the leaf the table stays as it is, and
`full_debug_BBs` goes from 1 to 2. -/
theorem do_details_seen_before_counts :
    all_leaves (State.init ()).CC_table = [] ∧
    (do_details demo_dbg demo_old_instr true 4096 3 4 (State.init ())).toOption.map
      (fun r => (r.1, all_leaves r.2.CC_table, r.2.distinct_files, r.2.distinct_fns,
        r.2.distinct_lines, r.2.full_debug_BBs)) =
      some (demo_old_instr, [⟨0, 10, CC.zero, CC.zero, CC.zero⟩], 1, 1, 1, 1) ∧
    demo_state.full_debug_BBs = 1 ∧
    (do_details demo_dbg demo_instr true 4096 3 4 demo_state).toOption.map
      (fun r => (r.1, all_leaves r.2.CC_table, r.2.full_debug_BBs)) =
      some (demo_instr, all_leaves demo_state.CC_table, 2) := by
  refine ⟨by decide, by decide, by decide, by decide⟩

end Cachegrind
